import Mathlib

/-!
Verification of the cdbscan DBSCAN implementation (`src/cdbscan.c`).

This file gives a shallow embedding of the C source into Lean and proves
properties of it.  Conventions used throughout:

* C `double` values are modelled as elements of an arbitrary linearly
  ordered commutative ring `α` (IEEE rounding is not modelled; all the
  arithmetic the claims depend on consists of ring operations and order
  comparisons, which the model captures exactly, and the source performs no
  division of coordinate values).  Theorems are stated for every such `α`,
  so they hold in particular for `ℚ` and `ℝ`; concrete witnesses
  instantiate `α := ℤ`.
* A C array together with its length is modelled as a `List`; out-of-bounds
  reads (undefined behaviour in C) are modelled by `List.getD` with a
  default.  `NULL`-pointer inputs are outside the embedding.
* The C Euclidean distance returns `sqrt (Σ diff²)`, an irrational number.
  Every use in the source either compares it with another Euclidean
  distance or with a threshold `eps`, so the embedding represents the
  returned value `v` by `reprOf v` with `reprOf (-1) = -1` (the error
  sentinel) and `reprOf (sqrt s) = s`; this representation is strictly
  monotone on the set of values the C function can return, hence
  order-faithful.  Comparisons `v ≤ eps` become `0 ≤ eps ∧ s ≤ eps²` on the
  representation.
* Minkowski distances involve real `p`-th roots with no exact counterpart
  in `α`, and no claim exercises them; the value of that metric is supplied
  by an oracle field `minkowski_val` in `Params`, universally quantified in
  every theorem, so each proof covers the real metric in particular.  The
  cosine metric's comparisons are exactly renderable and are embedded by
  the equivalent polynomial inequalities.
* Heap allocation cannot fail in a pure model; the one allocation failure
  with observable consequences for the claims (the working buffers of
  `cdbscan_cluster`) is modelled by an explicit `alloc_ok : Bool` oracle
  argument, placed at the exact program point of the C `malloc` calls.
-/

set_option linter.unusedSectionVars false

namespace Cdbscan

variable {α : Type} [LinearOrderedCommRing α]

/-- Sentinel label `CDBSCAN_UNCLASSIFIED` from `cdbscan.h`. -/
def UNCLASSIFIED : Int := -1

/-- Sentinel label `CDBSCAN_NOISE` from `cdbscan.h`. -/
def NOISE : Int := -2

/-- Embedding of `cdbscan_point_t`: coordinate vector, dimension count,
mutable cluster label and original index. -/
structure Point (α : Type) where
  coords : List α
  dimensions : Int
  cluster_id : Int
  index : Int
deriving Repr, DecidableEq

instance : Inhabited (Point α) := ⟨⟨[], 0, 0, 0⟩⟩

/-- Embedding of the metric selector `cdbscan_dist_type_t`. -/
inductive DistType where
  | euclidean
  | manhattan
  | minkowski
  | cosine
  | custom
deriving Repr, DecidableEq

/-- Embedding of `cdbscan_params_t`.  `custom_dist = none` models a `NULL`
function pointer; a custom metric is a function of the two coordinate
vectors and the dimension count (the opaque `custom_dist_params` blob is
absorbed into the closure).  `minkowski_val` is the oracle for the
real-valued Minkowski metric (see the header comment); it is irrelevant to
every claim and universally quantified in the theorems below. -/
structure Params (α : Type) where
  eps : α
  min_pts : Int
  dist_type : DistType
  minkowski_p : α
  custom_dist : Option (List α → List α → Int → α)
  use_kdtree : Bool
  minkowski_val : List α → List α → Int → α → α

/-- Coordinate read `a[i]` on a modelled C buffer. -/
def coordAt (a : List α) (i : Nat) : α := a.getD i 0

/-- Order-faithful representation of `cdbscan_euclidean_distance`: the value
`-1.0` is represented by `-1` and the value `sqrt s` by `s` (the sum of
squared per-dimension differences; the C accumulation loop is the list
fold).  The `NULL`-vector guards of the C code are not representable; the
`dims <= 0` guard is. -/
def euclidRepr (a b : List α) (dims : Int) : α :=
  if dims ≤ 0 then -1
  else ((List.range dims.toNat).map
    (fun i => (coordAt a i - coordAt b i) ^ 2)).sum

/-- Embedding of `cdbscan_manhattan_distance` (exact value;
`-1` is the error sentinel for `dims <= 0`). -/
def cdbscan_manhattan_distance (a b : List α) (dims : Int) : α :=
  if dims ≤ 0 then -1
  else ((List.range dims.toNat).map
    (fun i => |coordAt a i - coordAt b i|)).sum

/-- Truth value of `v <= eps` where `v` is the C Euclidean result represented
by `s` (see `euclidRepr`): for the sentinel, `-1 <= eps` directly; for a
genuine distance, `sqrt s <= eps ↔ 0 <= eps ∧ s <= eps²`. -/
def sqrtReprLe (s eps : α) : Bool :=
  if s < 0 then decide (s ≤ eps) else decide (0 ≤ eps ∧ s ≤ eps ^ 2)

/-- Truth value of the brute-force inclusion test
`dist >= 0 && dist <= eps` of `cdbscan_region_query` for the Euclidean
metric: `sqrt s >= 0` holds exactly when the sentinel did not fire. -/
def euclidInRange (a b : List α) (dims : Int) (eps : α) : Bool :=
  decide (0 ≤ euclidRepr a b dims) && sqrtReprLe (euclidRepr a b dims) eps

/-- Truth value of `v >= 0 && v <= eps` for the value `v` of
`cdbscan_cosine_distance a b dims`.  For `dims <= 0` the sentinel `-1`
fails `v >= 0`.  With zero-norm input the C code returns the fixed value
`2.0`.  Otherwise `v = 1 - D / sqrt (na * nb)` with dot product `D` and
squared norms `na, nb > 0`, and the two comparisons are rendered by the
equivalent polynomial conditions:
`0 ≤ v ↔ D ≤ sqrt (na·nb) ↔ (D ≤ 0 ∨ D² ≤ na·nb)` and
`v ≤ eps ↔ (1-eps)·sqrt (na·nb) ≤ D`, which splits on the sign of `1-eps`. -/
def cosineInRange (a b : List α) (dims : Int) (eps : α) : Bool :=
  if dims ≤ 0 then false
  else
    let D := ((List.range dims.toNat).map
      (fun i => coordAt a i * coordAt b i)).sum
    let na := ((List.range dims.toNat).map
      (fun i => coordAt a i * coordAt a i)).sum
    let nb := ((List.range dims.toNat).map
      (fun i => coordAt b i * coordAt b i)).sum
    if na = 0 ∨ nb = 0 then decide (2 ≤ eps)
    else
      decide ((D ≤ 0 ∨ D ^ 2 ≤ na * nb) ∧
        ((1 - eps ≤ 0 ∧ (0 ≤ D ∨ D ^ 2 ≤ (1 - eps) ^ 2 * (na * nb))) ∨
         (0 < 1 - eps ∧ 0 ≤ D ∧ (1 - eps) ^ 2 * (na * nb) ≤ D ^ 2)))

/-- Truth value of the test `dist >= 0 && dist <= params->eps` applied to
`calculate_distance(a, b, dims, params)`, the only way the clustering code
consumes `calculate_distance`.  The `CUSTOM` case with a `NULL` function
pointer and the `switch` fall-through return the sentinel `-1.0`, which
fails `dist >= 0`. -/
def distInRange (params : Params α) (a b : List α) (dims : Int) : Bool :=
  match params.dist_type with
  | .euclidean => euclidInRange a b dims params.eps
  | .manhattan =>
      decide (0 ≤ cdbscan_manhattan_distance a b dims ∧
        cdbscan_manhattan_distance a b dims ≤ params.eps)
  | .minkowski =>
      if dims ≤ 0 ∨ params.minkowski_p ≤ 0 then false
      else decide (0 ≤ params.minkowski_val a b dims params.minkowski_p ∧
        params.minkowski_val a b dims params.minkowski_p ≤ params.eps)
  | .cosine => cosineInRange a b dims params.eps
  | .custom =>
      match params.custom_dist with
      | none => false
      | some f => decide (0 ≤ f a b dims ∧ f a b dims ≤ params.eps)

/-- Embedding of `cdbscan_region_query` (brute-force Euclidean version):
all indices `i` whose point passes `dist >= 0 && dist <= eps`, in ascending
order.  C `int` indices are embedded as `ℕ`; the `point_idx < 0` guard is
vacuous and the `point_idx >= num_points` guard is kept. -/
def cdbscan_region_query (points : List (Point α)) (point_idx : Nat)
    (eps : α) : List Nat :=
  if point_idx < points.length then
    let q := points.getD point_idx default
    (List.range points.length).filter (fun i =>
      euclidInRange q.coords (points.getD i default).coords q.dimensions eps)
  else []

/-- Embedding of `cdbscan_region_query_custom`: as `cdbscan_region_query`
but with the configured metric of `params`. -/
def cdbscan_region_query_custom (points : List (Point α)) (point_idx : Nat)
    (params : Params α) : List Nat :=
  if point_idx < points.length then
    let q := points.getD point_idx default
    (List.range points.length).filter (fun i =>
      distInRange params q.coords (points.getD i default).coords q.dimensions)
  else []

/-- Embedding of `cdbscan_validate_params`, mirroring the C early-return
structure (the `params == NULL` guard is not representable; the `NULL`
custom function check is `Option.isNone`). -/
def cdbscan_validate_params (params : Params α) : Bool :=
  if params.eps ≤ 0 then false
  else if params.min_pts ≤ 0 then false
  else if params.dist_type = .minkowski ∧ params.minkowski_p ≤ 0 then false
  else if params.dist_type = .custom ∧ params.custom_dist.isNone then false
  else true

/-- Embedding of `cdbscan_validate_data`: nonempty input, positive uniform
dimensionality.  The `coords == NULL` and NaN/Inf checks have no
counterpart in an ordered ring, so they always pass in the model. -/
def cdbscan_validate_data (points : List (Point α)) : Bool :=
  if points.length = 0 then false
  else if (points.getD 0 default).dimensions ≤ 0 then false
  else points.all (fun p =>
    decide (p.dimensions = (points.getD 0 default).dimensions))

/-! ### KD-tree (`kdtree_node_t`, `kdtree_t` and associated functions)

The C build routine permutes an `int` index array in place with quickselect
(`partition` / `nth_element`).  The array is modelled as a `List Nat` and a
swap as two `List.set` writes (`List.set` out of bounds is a no-op, matching
the fact that every C access here is in bounds). -/

/-- The read `points[p].coords[dim]`. -/
def pointCoord (points : List (Point α)) (p : Nat) (dim : Nat) : α :=
  coordAt (points.getD p default).coords dim

/-- Swap of two array cells, as in the C `temp/=/=` sequences. -/
def lswap (l : List Nat) (i j : Nat) : List Nat :=
  (l.set i (l.getD j 0)).set j (l.getD i 0)

/-- The scan loop of `partition`: walk `i` over `[left, right)`, swapping
elements whose coordinate is strictly below the pivot value down to the
`store_idx` cursor.  The state is the array together with `store_idx`. -/
def partLoop (points : List (Point α)) (dim : Nat) (pivot_val : α) :
    List Nat → List Nat × Nat → List Nat × Nat
  | [], st => st
  | i :: rest, (a, store) =>
      if pointCoord points (a.getD i 0) dim < pivot_val then
        partLoop points dim pivot_val rest (lswap a store i, store + 1)
      else
        partLoop points dim pivot_val rest (a, store)

/-- Embedding of the C `partition` helper (Lomuto scheme with the middle
element as pivot, moved to `right` first and into its final slot last).
Returns the permuted array and the pivot's final position `store_idx`. -/
def partition (indices : List Nat) (points : List (Point α))
    (left right : Nat) (dim : Nat) : List Nat × Nat :=
  let pivot_idx := (left + right) / 2
  let pivot_point := indices.getD pivot_idx 0
  let pivot_val := pointCoord points pivot_point dim
  let a1 := lswap indices pivot_idx right
  let (a2, store) :=
    partLoop points dim pivot_val (List.range' left (right - left)) (a1, left)
  (lswap a2 store right, store)

/-- The `while (left < right)` loop of the C `nth_element`, written with
explicit fuel (one unit per iteration; the caller supplies enough fuel for
the window width, which bounds the iteration count). -/
def nthElementLoop (points : List (Point α)) (dim : Nat) :
    Nat → List Nat → Nat → Nat → Nat → List Nat
  | 0, a, _, _, _ => a
  | fuel + 1, a, left, right, n =>
      if left < right then
        let (a1, pivot_idx) := partition a points left right dim
        if pivot_idx = n then a1
        else if n < pivot_idx then
          nthElementLoop points dim fuel a1 left (pivot_idx - 1) n
        else
          nthElementLoop points dim fuel a1 (pivot_idx + 1) right n
      else a

/-- Embedding of the C `nth_element` (quickselect partial partition). -/
def nth_element (indices : List Nat) (points : List (Point α))
    (left right n dim : Nat) : List Nat :=
  nthElementLoop points dim (right + 1 - left) indices left right n

/-- Swapping preserves the array length. -/
theorem lswap_length (l : List Nat) (i j : Nat) :
    (lswap l i j).length = l.length := by
  simp [lswap]

/-- The partition scan preserves the array length. -/
theorem partLoop_length (points : List (Point α)) (dim : Nat) (pv : α)
    (idxs : List Nat) :
    ∀ a store, (partLoop points dim pv idxs (a, store)).1.length = a.length := by
  induction idxs with
  | nil => intro a store; rfl
  | cons i rest ih =>
      intro a store
      by_cases h : pointCoord points (a.getD i 0) dim < pv
      · simp only [partLoop, if_pos h]
        rw [ih]
        exact lswap_length ..
      · simp only [partLoop, if_neg h]
        exact ih ..

/-- Partitioning preserves the array length. -/
theorem partition_length (indices : List Nat) (points : List (Point α))
    (left right dim : Nat) :
    (partition indices points left right dim).1.length = indices.length := by
  unfold partition
  simp only
  rw [lswap_length]
  have := partLoop_length points dim
    (pointCoord points (indices.getD ((left + right) / 2) 0) dim)
    (List.range' left (right - left)) (lswap indices ((left + right) / 2) right)
    left
  rw [this, lswap_length]

/-- The quickselect loop preserves the array length. -/
theorem nthElementLoop_length (points : List (Point α)) (dim : Nat) :
    ∀ fuel a left right n,
      (nthElementLoop points dim fuel a left right n).length = a.length := by
  intro fuel
  induction fuel with
  | zero => intro a left right n; rfl
  | succ fuel ih =>
      intro a left right n
      unfold nthElementLoop
      by_cases hlr : left < right
      · simp only [if_pos hlr]
        by_cases hn : (partition a points left right dim).2 = n
        · simp only [if_pos hn]
          exact partition_length ..
        · simp only [if_neg hn]
          by_cases hlt : n < (partition a points left right dim).2
          · simp only [if_pos hlt]
            rw [ih]
            exact partition_length ..
          · simp only [if_neg hlt]
            rw [ih]
            exact partition_length ..
      · simp only [if_neg hlr]

/-- `nth_element` preserves the array length. -/
theorem nth_element_length (indices : List Nat) (points : List (Point α))
    (left right n dim : Nat) :
    (nth_element indices points left right n dim).length = indices.length :=
  nthElementLoop_length ..

/-- Embedding of `kdtree_node_t` links: `leaf` is the `NULL` pointer and a
`node` carries the point index, the split dimension, and the two owned
subtrees. -/
inductive KdTree where
  | leaf : KdTree
  | node (left : KdTree) (point_idx : Nat) (split_dim : Nat) (right : KdTree) :
      KdTree
deriving Repr, DecidableEq

/-- Recursion core of `kdtree_build_recursive`, with explicit structural
fuel (each recursive call strictly shrinks the segment, so fuel equal to
the segment length suffices; see `kdtreeBuildRec_fuel`). -/
def kdtreeBuildRec (points : List (Point α)) (dimensions : Nat) :
    Nat → List Nat → Nat → KdTree
  | 0, _, _ => .leaf
  | fuel + 1, indices, depth =>
      if indices.length = 0 then .leaf
      else if indices.length = 1 then
        .node .leaf (indices.getD 0 0) (depth % dimensions) .leaf
      else
        let split_dim := depth % dimensions
        let median_idx := indices.length / 2
        let ind := nth_element indices points 0 (indices.length - 1) median_idx
          split_dim
        .node (kdtreeBuildRec points dimensions fuel (ind.take median_idx)
                (depth + 1))
              (ind.getD median_idx 0)
              split_dim
              (kdtreeBuildRec points dimensions fuel (ind.drop (median_idx + 1))
                (depth + 1))

/-- Embedding of `kdtree_build_recursive`.  The C version receives a
subarray (pointer plus length); the model passes the segment itself.
`dimensions` is the positive dimension count as a `ℕ` (`depth % dimensions`
with `dimensions <= 0` is undefined behaviour in C and unreachable from
validated input). -/
def kdtree_build_recursive (indices : List Nat) (points : List (Point α))
    (depth : Nat) (dimensions : Nat) : KdTree :=
  kdtreeBuildRec points dimensions indices.length indices depth

/-- Embedding of `kdtree_t`: root, point count and dimension count (the
`points` field aliases the caller's live array and is passed at query
time). -/
structure KdTreeT where
  root : KdTree
  num_points : Nat
  dimensions : Int
deriving Repr, DecidableEq

/-- Embedding of `kdtree_build`.  `none` is the `NULL` return for empty
input; node allocation cannot fail in the model. -/
def kdtree_build (points : List (Point α)) : Option KdTreeT :=
  if points.length = 0 then none
  else
    let dims := (points.getD 0 default).dimensions
    some ⟨kdtree_build_recursive (List.range points.length) points 0 dims.toNat,
          points.length, dims⟩

/-- Embedding of `kdtree_range_query_recursive`: visit the node, then the
child on the query's side of the split plane, then the other child if the
plane is within `eps` of the query.  The node's index is emitted when its
distance check `dist <= eps` passes (`sqrtReprLe` on the representation). -/
def kdtree_range_query_recursive (query_coords : List α) (eps : α)
    (points : List (Point α)) (dimensions : Int) : KdTree → List Nat
  | .leaf => []
  | .node l pidx sd r =>
      let node_pt := points.getD pidx default
      let s := euclidRepr query_coords node_pt.coords dimensions
      let here := if sqrtReprLe s eps then [pidx] else []
      let diff := coordAt query_coords sd - coordAt node_pt.coords sd
      if diff < 0 then
        here ++ kdtree_range_query_recursive query_coords eps points dimensions
            l ++
          (if |diff| ≤ eps then
            kdtree_range_query_recursive query_coords eps points dimensions r
          else [])
      else
        here ++ kdtree_range_query_recursive query_coords eps points dimensions
            r ++
          (if |diff| ≤ eps then
            kdtree_range_query_recursive query_coords eps points dimensions l
          else [])

/-- Embedding of `kdtree_range_query`: traverse, then sort ascending (the
C `qsort` with `compare_ints`).  `tree.root = leaf` is the `!tree->root`
guard; the `!tree`/`!neighbors` guards are not representable. -/
def kdtree_range_query (tree : KdTreeT) (points : List (Point α))
    (query_idx : Nat) (eps : α) : List Nat :=
  if tree.root = .leaf then []
  else
    let query_point := points.getD query_idx default
    (kdtree_range_query_recursive query_point.coords eps points
        tree.dimensions tree.root).insertionSort (· ≤ ·)

/-! ### Cluster engine (`cdbscan_cluster`, `expand_cluster`,
`expand_cluster_kdtree`)

The mutable point array is threaded as an explicit `List (Point α)`.  The
two C expansion functions are textually identical except for the
neighborhood call (`cdbscan_region_query_custom` versus
`kdtree_range_query`); the model shares the loop body `expandLoop`,
parametrised by the query, and defines each C function as an instance.  The
seed working list (C: an `int` buffer plus `seed_size`) is a growing
`List Nat`, and the `while` loop carries explicit fuel, one unit per
iteration; callers pass `2n + 1` fuel, which is shown sufficient below. -/

/-- The read `points[i].cluster_id`. -/
def labelOf (pts : List (Point α)) (i : Nat) : Int :=
  (pts.getD i default).cluster_id

/-- The write `points[i].cluster_id = c`. -/
def setLabel (pts : List (Point α)) (i : Nat) (c : Int) : List (Point α) :=
  pts.set i ⟨(pts.getD i default).coords, (pts.getD i default).dimensions, c,
    (pts.getD i default).index⟩

/-- The initialisation loop of `cdbscan_cluster`: every point gets
`cluster_id = CDBSCAN_UNCLASSIFIED` and `index = i`. -/
def initPoints (pts : List (Point α)) : List (Point α) :=
  pts.mapIdx (fun i p => ⟨p.coords, p.dimensions, UNCLASSIFIED, (i : Int)⟩)

/-- The inner `for` loop over the neighbors of a core seed: a neighbor still
`UNCLASSIFIED` is appended to the seed list and relabelled; a neighbor
labelled `NOISE` is relabelled only; anything else is untouched. -/
def processNeighbors (cluster_id : Int) :
    List Nat → List (Point α) → List Nat → List (Point α) × List Nat
  | [], pts, seeds => (pts, seeds)
  | nb :: rest, pts, seeds =>
      if labelOf pts nb = UNCLASSIFIED then
        processNeighbors cluster_id rest (setLabel pts nb cluster_id)
          (seeds ++ [nb])
      else if labelOf pts nb = NOISE then
        processNeighbors cluster_id rest (setLabel pts nb cluster_id) seeds
      else
        processNeighbors cluster_id rest pts seeds

/-- The `while (current_seed < *seed_size)` loop shared by the two C
expansion functions, with the neighborhood query abstracted.  Returns the
final points, seed list and cursor. -/
def expandLoop (query : List (Point α) → Nat → List Nat) (params : Params α)
    (cluster_id : Int) :
    Nat → List (Point α) → List Nat → Nat → List (Point α) × List Nat × Nat
  | 0, pts, seeds, cursor => (pts, seeds, cursor)
  | fuel + 1, pts, seeds, cursor =>
      if cursor < seeds.length then
        let nbrs := query pts (seeds.getD cursor 0)
        if params.min_pts ≤ (nbrs.length : Int) then
          let st1 := processNeighbors cluster_id nbrs pts seeds
          expandLoop query params cluster_id fuel st1.1 st1.2 (cursor + 1)
        else
          expandLoop query params cluster_id fuel pts seeds (cursor + 1)
      else (pts, seeds, cursor)

/-- The seed-removal idiom of the C code: overwrite the first occurrence of
`x` with the last element and shrink by one; no change when `x` is absent
(the C loop then never `break`s and never writes). -/
def removeFirstSwap (l : List Nat) (x : Nat) : List Nat :=
  if x ∈ l then (l.set (l.indexOf x) (l.getLastD 0)).dropLast else l

/-- Body shared by `expand_cluster` and `expand_cluster_kdtree`: re-query the
origin, bail out as `NOISE` if it is not core, label the whole initial seed
set with the new cluster id, drop the origin from the working list and run
the expansion loop. -/
def expandClusterGen (query : List (Point α) → Nat → List Nat)
    (params : Params α) (pts : List (Point α)) (point_idx : Nat)
    (cluster_id : Int) : Bool × List (Point α) :=
  let seeds := query pts point_idx
  if (seeds.length : Int) < params.min_pts then
    (false, setLabel pts point_idx NOISE)
  else
    let pts1 := seeds.foldl (fun ps s => setLabel ps s cluster_id) pts
    let seeds1 := removeFirstSwap seeds point_idx
    let res := expandLoop query params cluster_id (2 * pts.length + 1) pts1
      seeds1 0
    (true, res.1)

/-- Embedding of `expand_cluster` (brute-force neighborhood queries). -/
def expand_cluster (pts : List (Point α)) (point_idx : Nat) (cluster_id : Int)
    (params : Params α) : Bool × List (Point α) :=
  expandClusterGen (fun ps cur => cdbscan_region_query_custom ps cur params)
    params pts point_idx cluster_id

/-- Embedding of `expand_cluster_kdtree` (KD-tree neighborhood queries;
the tree aliases the live point array, passed at query time). -/
def expand_cluster_kdtree (pts : List (Point α)) (point_idx : Nat)
    (cluster_id : Int) (params : Params α) (tree : KdTreeT) :
    Bool × List (Point α) :=
  expandClusterGen (fun ps cur => kdtree_range_query tree ps cur params.eps)
    params pts point_idx cluster_id

/-- One iteration of the main `for` loop of `cdbscan_cluster`, on the state
(next cluster id, point array). -/
def clusterStep (tree : Option KdTreeT) (params : Params α)
    (st : Int × List (Point α)) (i : Nat) : Int × List (Point α) :=
  if labelOf st.2 i ≠ UNCLASSIFIED then st
  else
    let nbrs := match tree with
      | some t => kdtree_range_query t st.2 i params.eps
      | none => cdbscan_region_query_custom st.2 i params
    if (nbrs.length : Int) < params.min_pts then (st.1, setLabel st.2 i NOISE)
    else
      match tree with
      | some t =>
          let r := expand_cluster_kdtree st.2 i st.1 params t
          (if r.1 then st.1 + 1 else st.1, r.2)
      | none =>
          let r := expand_cluster st.2 i st.1 params
          (if r.1 then st.1 + 1 else st.1, r.2)

/-- State of the main loop after its first `k` iterations, starting from
cluster id `0` on the initialised array. -/
def clusterPrefix (tree : Option KdTreeT) (params : Params α)
    (pts0 : List (Point α)) (k : Nat) : Int × List (Point α) :=
  (List.range k).foldl (clusterStep tree params) (0, pts0)

/-- Embedding of `cdbscan_cluster`.  `alloc_ok` is the outcome oracle for
the two working-buffer `malloc`s, placed exactly where the C code performs
them: after the label-reset loop.  The KD-tree is built only for
`use_kdtree` with the Euclidean metric; a `none` result (allocation
failure in C, empty input in the model) falls back to brute force. -/
def cdbscan_cluster (alloc_ok : Bool) (points : List (Point α))
    (params : Params α) : Int × List (Point α) :=
  if !cdbscan_validate_params params then (-1, points)
  else if !cdbscan_validate_data points then (-1, points)
  else
    let pts0 := initPoints points
    if !alloc_ok then (-1, pts0)
    else
      let tree : Option KdTreeT :=
        if params.use_kdtree ∧ params.dist_type = .euclidean then
          kdtree_build pts0
        else none
      clusterPrefix tree params pts0 points.length

/-! ### Radius estimation (`cdbscan_estimate_eps`) -/

/-- Embedding of `cdbscan_kdist_result_t`.  Distances are Euclidean values
in the `euclidRepr` representation (square of the true value, `-1` for the
sentinel), which the C code only ever compares, sorts and copies. -/
structure KdistResult (α : Type) where
  distances : List α
  k : Int
  suggested_eps : α
deriving Repr, DecidableEq

/-- Embedding of `cdbscan_estimate_eps`.  `none` is the `NULL` return of the
C guards (`!points`, `num_points <= 0`, `k <= 0`, `k >= num_points`);
allocation failures cannot occur in the model.  The C `qsort` with
`compare_doubles` sorts ascending, faithfully mirrored on the
order-isomorphic representation; the elbow index `(int)(0.95 * n)` equals
`⌊19n/20⌋` exactly for every `int` n (the rounding error of the `double`
product is below one part in `2^52`, far less than the distance of `0.95n`
from the nearest larger integer, and exact integers round to themselves). -/
def cdbscan_estimate_eps (points : List (Point α)) (k : Int) :
    Option (KdistResult α) :=
  let n := points.length
  if n = 0 ∨ k ≤ 0 ∨ (n : Int) ≤ k then none
  else
    let kdistOf := fun (i : Nat) =>
      let temp := ((List.range n).filter (fun j => decide (j ≠ i))).map
        (fun j => euclidRepr (points.getD i default).coords
          (points.getD j default).coords (points.getD i default).dimensions)
      (temp.insertionSort (· ≤ ·)).getD (k.toNat - 1) 0
    let distances := (List.range n).map kdistOf
    let sorted := distances.insertionSort (· ≤ ·)
    some ⟨distances, k, sorted.getD (19 * n / 20) 0⟩

/-! ### Basic list-access lemmas -/

theorem getD_set_self {β : Type} (l : List β) (i : Nat) (x d : β)
    (h : i < l.length) : (l.set i x).getD i d = x := by
  rw [List.getD_eq_getElem _ _ (by simpa using h)]
  exact List.getElem_set_self _

theorem getD_set_ne {β : Type} (l : List β) (i j : Nat) (x d : β)
    (h : i ≠ j) : (l.set i x).getD j d = l.getD j d := by
  by_cases hj : j < l.length
  · rw [List.getD_eq_getElem _ _ (by simpa using hj),
      List.getD_eq_getElem _ _ hj]
    exact List.getElem_set_ne h _
  · rw [List.getD_eq_default _ _ (by simpa using hj),
      List.getD_eq_default _ _ (by omega)]

theorem getD_set {β : Type} (l : List β) (i j : Nat) (x d : β) :
    (l.set i x).getD j d =
      if i = j ∧ j < l.length then x else l.getD j d := by
  by_cases hij : i = j
  · subst hij
    by_cases h : i < l.length
    · simp only [h, and_true, if_pos rfl, if_pos]
      exact getD_set_self l i x d h

    · rw [List.set_eq_of_length_le (by omega)]
      simp [h]
  · simp only [hij, false_and, if_neg, not_false_iff]
    exact getD_set_ne l i j x d hij

/-! ### Frame lemmas: the cluster engine writes only `cluster_id`

`sameSkeleton pts pts'` says the two arrays have the same length and agree
on every field except possibly `cluster_id`.  Every mutation the engine
performs after initialisation is a `setLabel`, which preserves it. -/

def sameSkeleton (pts pts' : List (Point α)) : Prop :=
  pts.length = pts'.length ∧
  ∀ j, (pts.getD j default).coords = (pts'.getD j default).coords ∧
    (pts.getD j default).dimensions = (pts'.getD j default).dimensions ∧
    (pts.getD j default).index = (pts'.getD j default).index

theorem sameSkeleton_refl (pts : List (Point α)) : sameSkeleton pts pts :=
  ⟨rfl, fun _ => ⟨rfl, rfl, rfl⟩⟩

theorem sameSkeleton_trans {pts1 pts2 pts3 : List (Point α)}
    (h1 : sameSkeleton pts1 pts2) (h2 : sameSkeleton pts2 pts3) :
    sameSkeleton pts1 pts3 := by
  refine ⟨h1.1.trans h2.1, fun j => ?_⟩
  obtain ⟨a1, b1, c1⟩ := h1.2 j
  obtain ⟨a2, b2, c2⟩ := h2.2 j
  exact ⟨a1.trans a2, b1.trans b2, c1.trans c2⟩

theorem setLabel_length (pts : List (Point α)) (i : Nat) (c : Int) :
    (setLabel pts i c).length = pts.length := by
  simp [setLabel]

theorem sameSkeleton_setLabel (pts : List (Point α)) (i : Nat) (c : Int) :
    sameSkeleton pts (setLabel pts i c) := by
  refine ⟨(setLabel_length pts i c).symm, fun j => ?_⟩
  unfold setLabel
  rw [getD_set]
  by_cases h : i = j ∧ j < pts.length
  · rw [if_pos h]
    obtain ⟨rfl, _⟩ := h
    exact ⟨rfl, rfl, rfl⟩
  · rw [if_neg h]
    exact ⟨rfl, rfl, rfl⟩

theorem labelOf_setLabel_self (pts : List (Point α)) (i : Nat) (c : Int)
    (h : i < pts.length) : labelOf (setLabel pts i c) i = c := by
  unfold labelOf setLabel
  rw [getD_set_self _ _ _ _ h]

theorem labelOf_setLabel_ne (pts : List (Point α)) (i j : Nat) (c : Int)
    (h : i ≠ j) : labelOf (setLabel pts i c) j = labelOf pts j := by
  unfold labelOf setLabel
  rw [getD_set_ne _ _ _ _ _ h]

theorem labelOf_setLabel (pts : List (Point α)) (i j : Nat) (c : Int) :
    labelOf (setLabel pts i c) j =
      if i = j ∧ j < pts.length then c else labelOf pts j := by
  unfold labelOf setLabel
  rw [getD_set]
  by_cases h : i = j ∧ j < pts.length
  · rw [if_pos h, if_pos h]
  · rw [if_neg h, if_neg h]

/-- The labelling fold over the initial seed set preserves the skeleton. -/
theorem sameSkeleton_labelFold (seeds : List Nat) (c : Int) :
    ∀ pts : List (Point α),
      sameSkeleton pts (seeds.foldl (fun ps s => setLabel ps s c) pts) := by
  induction seeds with
  | nil => intro pts; exact sameSkeleton_refl pts
  | cons s rest ih =>
      intro pts
      exact sameSkeleton_trans (sameSkeleton_setLabel pts s c)
        (ih (setLabel pts s c))

theorem sameSkeleton_processNeighbors (c : Int) (nbrs : List Nat) :
    ∀ (pts : List (Point α)) (seeds : List Nat),
      sameSkeleton pts (processNeighbors c nbrs pts seeds).1 := by
  induction nbrs with
  | nil => intro pts seeds; exact sameSkeleton_refl pts
  | cons nb rest ih =>
      intro pts seeds
      unfold processNeighbors
      by_cases h1 : labelOf pts nb = UNCLASSIFIED
      · rw [if_pos h1]
        exact sameSkeleton_trans (sameSkeleton_setLabel pts nb c) (ih ..)
      · rw [if_neg h1]
        by_cases h2 : labelOf pts nb = NOISE
        · rw [if_pos h2]
          exact sameSkeleton_trans (sameSkeleton_setLabel pts nb c) (ih ..)
        · rw [if_neg h2]
          exact ih ..

theorem sameSkeleton_expandLoop (query : List (Point α) → Nat → List Nat)
    (params : Params α) (c : Int) :
    ∀ fuel pts seeds cursor,
      sameSkeleton pts (expandLoop query params c fuel pts seeds cursor).1 := by
  intro fuel
  induction fuel with
  | zero => intro pts seeds cursor; exact sameSkeleton_refl pts
  | succ fuel ih =>
      intro pts seeds cursor
      unfold expandLoop
      by_cases h1 : cursor < seeds.length
      · rw [if_pos h1]
        by_cases h2 : params.min_pts ≤
            ((query pts (seeds.getD cursor 0)).length : Int)
        · rw [if_pos h2]
          exact sameSkeleton_trans (sameSkeleton_processNeighbors ..) (ih ..)
        · rw [if_neg h2]
          exact ih ..
      · rw [if_neg h1]
        exact sameSkeleton_refl pts

theorem sameSkeleton_expandClusterGen
    (query : List (Point α) → Nat → List Nat) (params : Params α)
    (pts : List (Point α)) (point_idx : Nat) (c : Int) :
    sameSkeleton pts (expandClusterGen query params pts point_idx c).2 := by
  unfold expandClusterGen
  by_cases h : ((query pts point_idx).length : Int) < params.min_pts
  · rw [if_pos h]
    exact sameSkeleton_setLabel ..
  · rw [if_neg h]
    exact sameSkeleton_trans (sameSkeleton_labelFold ..)
      (sameSkeleton_expandLoop ..)

theorem sameSkeleton_clusterStep (tree : Option KdTreeT) (params : Params α)
    (st : Int × List (Point α)) (i : Nat) :
    sameSkeleton st.2 (clusterStep tree params st i).2 := by
  unfold clusterStep
  by_cases h1 : labelOf st.2 i ≠ UNCLASSIFIED
  · rw [if_pos h1]
    exact sameSkeleton_refl _
  · rw [if_neg h1]
    rcases tree with _ | t
    · simp only
      by_cases h2 : ((cdbscan_region_query_custom st.2 i params).length : Int) <
          params.min_pts
      · rw [if_pos h2]
        exact sameSkeleton_setLabel ..
      · rw [if_neg h2]
        exact sameSkeleton_expandClusterGen ..
    · simp only
      by_cases h2 : ((kdtree_range_query t st.2 i params.eps).length : Int) <
          params.min_pts
      · rw [if_pos h2]
        exact sameSkeleton_setLabel ..
      · rw [if_neg h2]
        exact sameSkeleton_expandClusterGen ..

theorem sameSkeleton_clusterPrefix (tree : Option KdTreeT) (params : Params α)
    (pts0 : List (Point α)) (k : Nat) :
    sameSkeleton pts0 (clusterPrefix tree params pts0 k).2 := by
  induction k with
  | zero => exact sameSkeleton_refl pts0
  | succ k ih =>
      have hstep : clusterPrefix tree params pts0 (k + 1) =
          clusterStep tree params (clusterPrefix tree params pts0 k) k := by
        unfold clusterPrefix
        rw [List.range_succ, List.foldl_append, List.foldl_cons, List.foldl_nil]
      rw [hstep]
      exact sameSkeleton_trans ih (sameSkeleton_clusterStep ..)

/-- Unfolding of the main loop, one outer iteration at a time. -/
theorem clusterPrefix_succ (tree : Option KdTreeT) (params : Params α)
    (pts0 : List (Point α)) (k : Nat) :
    clusterPrefix tree params pts0 (k + 1) =
      clusterStep tree params (clusterPrefix tree params pts0 k) k := by
  unfold clusterPrefix
  rw [List.range_succ, List.foldl_append, List.foldl_cons, List.foldl_nil]

/-! ### Queries depend only on coordinates and dimensions

Neighborhood queries read `coords` and `dimensions` only, so every query
result is stable across label writes; this is what lets the KD-tree built
at call entry stay valid for the whole run. -/

theorem region_query_custom_congr {pts pts' : List (Point α)}
    (h : sameSkeleton pts pts') (i : Nat) (params : Params α) :
    cdbscan_region_query_custom pts i params =
      cdbscan_region_query_custom pts' i params := by
  unfold cdbscan_region_query_custom
  rw [← h.1]
  by_cases hi : i < pts.length
  · rw [if_pos hi, if_pos hi]
    refine List.filter_congr (fun j _ => ?_)
    rw [(h.2 i).1, (h.2 i).2.1, (h.2 j).1]
  · rw [if_neg hi, if_neg hi]

theorem region_query_congr {pts pts' : List (Point α)}
    (h : sameSkeleton pts pts') (i : Nat) (eps : α) :
    cdbscan_region_query pts i eps = cdbscan_region_query pts' i eps := by
  unfold cdbscan_region_query
  rw [← h.1]
  by_cases hi : i < pts.length
  · rw [if_pos hi, if_pos hi]
    refine List.filter_congr (fun j _ => ?_)
    rw [(h.2 i).1, (h.2 i).2.1, (h.2 j).1]
  · rw [if_neg hi, if_neg hi]

theorem range_query_recursive_congr {pts pts' : List (Point α)}
    (h : sameSkeleton pts pts') (qc : List α) (eps : α) (dims : Int) :
    ∀ t : KdTree,
      kdtree_range_query_recursive qc eps pts dims t =
        kdtree_range_query_recursive qc eps pts' dims t := by
  intro t
  induction t with
  | leaf => rfl
  | node l pidx sd r ihl ihr =>
      unfold kdtree_range_query_recursive
      simp only []
      rw [(h.2 pidx).1, ihl, ihr]

theorem kdtree_range_query_congr {pts pts' : List (Point α)}
    (h : sameSkeleton pts pts') (tree : KdTreeT) (i : Nat) (eps : α) :
    kdtree_range_query tree pts i eps = kdtree_range_query tree pts' i eps := by
  unfold kdtree_range_query
  by_cases hr : tree.root = .leaf
  · rw [if_pos hr, if_pos hr]
  · rw [if_neg hr, if_neg hr]
    simp only []
    rw [(h.2 i).1, range_query_recursive_congr h]

/-! ### `initPoints` lemmas -/

theorem initPoints_length (pts : List (Point α)) :
    (initPoints pts).length = pts.length := by
  simp [initPoints]

theorem initPoints_getD (pts : List (Point α)) (j : Nat)
    (h : j < pts.length) :
    (initPoints pts).getD j default =
      ⟨(pts.getD j default).coords, (pts.getD j default).dimensions,
        UNCLASSIFIED, (j : Int)⟩ := by
  unfold initPoints
  rw [List.getD_eq_getElem _ _ (by simpa using h), List.getD_eq_getElem _ _ h]
  simp [List.getElem_mapIdx]

theorem initPoints_fields (pts : List (Point α)) :
    (initPoints pts).length = pts.length ∧
    ∀ j, ((initPoints pts).getD j default).coords =
        (pts.getD j default).coords ∧
      ((initPoints pts).getD j default).dimensions =
        (pts.getD j default).dimensions := by
  refine ⟨initPoints_length pts, fun j => ?_⟩
  by_cases h : j < pts.length
  · rw [initPoints_getD pts j h]
    exact ⟨rfl, rfl⟩
  · rw [List.getD_eq_default _ _ (by simpa [initPoints_length] using h),
      List.getD_eq_default _ _ (by omega)]
    exact ⟨rfl, rfl⟩

/-! ### Quickselect correctness, layer 1: swaps

`lswap` on in-bounds positions permutes the array; its pointwise behaviour
and its effect on element counts. -/

theorem count_set_add (l : List Nat) (i : Nat) (h : i < l.length)
    (b x : Nat) :
    (l.set i b).count x + (if l.getD i 0 = x then 1 else 0) =
      l.count x + (if b = x then 1 else 0) := by
  induction l generalizing i with
  | nil => simp at h
  | cons a t ih =>
      cases i with
      | zero =>
          simp only [List.set_cons_zero, List.count_cons, List.getD_cons_zero]
          have : ((a == x) = true) ↔ a = x := by simp
          by_cases hax : a = x <;> by_cases hbx : b = x <;>
            simp [hax, hbx] <;> omega
      | succ i =>
          have ht : i < t.length := by simpa using h
          have hrec := ih i ht
          simp only [List.set_cons_succ, List.count_cons,
            List.getD_cons_succ]
          simp only [List.getD_eq_getElem?_getD] at hrec ⊢
          by_cases hax : a = x <;> simp [hax] <;> omega

theorem lswap_getD_fst (l : List Nat) (i j : Nat) (hi : i < l.length)
    (hj : j < l.length) : (lswap l i j).getD i 0 = l.getD j 0 := by
  unfold lswap
  by_cases hij : i = j
  · subst hij
    rw [getD_set_self _ _ _ _ (by simpa using hi)]
  · rw [getD_set_ne _ _ _ _ _ (fun hc => hij hc.symm), getD_set_self _ _ _ _ hi]

theorem lswap_getD_snd (l : List Nat) (i j : Nat) (hj : j < l.length) :
    (lswap l i j).getD j 0 = l.getD i 0 := by
  unfold lswap
  rw [getD_set_self _ _ _ _ (by simpa using hj)]

theorem lswap_getD_other (l : List Nat) (i j m : Nat) (hmi : m ≠ i)
    (hmj : m ≠ j) : (lswap l i j).getD m 0 = l.getD m 0 := by
  unfold lswap
  rw [getD_set_ne _ _ _ _ _ (fun hc => hmj hc.symm),
    getD_set_ne _ _ _ _ _ (fun hc => hmi hc.symm)]

theorem lswap_count (l : List Nat) (i j : Nat) (hi : i < l.length)
    (hj : j < l.length) (x : Nat) : (lswap l i j).count x = l.count x := by
  unfold lswap
  have h1 := count_set_add l i hi (l.getD j 0) x
  have h2 := count_set_add (l.set i (l.getD j 0)) j
    (by simpa using hj) (l.getD i 0) x
  by_cases hij : i = j
  · subst hij
    rw [getD_set_self _ _ _ _ hi] at h2
    omega
  · rw [getD_set_ne _ _ _ _ _ hij] at h2
    by_cases e1 : l.getD i 0 = x <;> by_cases e2 : l.getD j 0 = x <;>
      simp [e1, e2] at h1 h2 ⊢ <;> omega

/-! ### Quickselect correctness, layer 2: the partition -/

/-- Full specification of the partition scan loop: processing positions
`[i, i+k)` from state `(a, store)` with the classic Lomuto invariant
(`[left, store)` strictly below the pivot value, `[store, i)` at or above
it) yields a state satisfying the same invariant at `[left, store')` and
`[store', i+k)`, touching only positions in `[left, i+k)` and preserving
element counts. -/
theorem partLoop_spec (points : List (Point α)) (dim : Nat) (pv : α) :
    ∀ (k i left store : Nat) (a : List Nat) (right : Nat),
      left ≤ store → store ≤ i → i + k ≤ right → right < a.length →
      (∀ m, left ≤ m → m < store →
        pointCoord points (a.getD m 0) dim < pv) →
      (∀ m, store ≤ m → m < i →
        pv ≤ pointCoord points (a.getD m 0) dim) →
      (partLoop points dim pv (List.range' i k) (a, store)).1.length =
          a.length ∧
      store ≤ (partLoop points dim pv (List.range' i k) (a, store)).2 ∧
      (partLoop points dim pv (List.range' i k) (a, store)).2 ≤ i + k ∧
      (∀ m, left ≤ m →
        m < (partLoop points dim pv (List.range' i k) (a, store)).2 →
        pointCoord points
          ((partLoop points dim pv (List.range' i k) (a, store)).1.getD m 0)
          dim < pv) ∧
      (∀ m, (partLoop points dim pv (List.range' i k) (a, store)).2 ≤ m →
        m < i + k →
        pv ≤ pointCoord points
          ((partLoop points dim pv (List.range' i k) (a, store)).1.getD m 0)
          dim) ∧
      (∀ m, m < left ∨ i + k ≤ m →
        (partLoop points dim pv (List.range' i k) (a, store)).1.getD m 0 =
          a.getD m 0) ∧
      (∀ x, (partLoop points dim pv (List.range' i k) (a, store)).1.count x =
        a.count x) := by
  intro k
  induction k with
  | zero =>
      intro i left store a right h1 h2 h3 h4 H1 H2
      simp only [List.range', partLoop]
      exact ⟨by intros; trivial, le_refl _, by omega,
        fun m hm1 hm2 => H1 m hm1 hm2,
        fun m hm1 hm2 => H2 m hm1 (by omega), by intros; trivial,
        by intros; trivial⟩
  | succ k ih =>
      intro i left store a right h1 h2 h3 h4 H1 H2
      rw [List.range'_succ]
      have hilen : i < a.length := by omega
      have hslen : store < a.length := by omega
      by_cases hc : pointCoord points (a.getD i 0) dim < pv
      · simp only [partLoop, if_pos hc]
        have hswlen : (lswap a store i).length = a.length := lswap_length ..
        have hgfst : (lswap a store i).getD store 0 = a.getD i 0 :=
          lswap_getD_fst a store i hslen hilen
        have hgsnd : (lswap a store i).getD i 0 = a.getD store 0 :=
          lswap_getD_snd a store i hilen
        have hrec := ih (i + 1) left (store + 1) (lswap a store i) right
          (by omega) (by omega) (by omega) (by omega)
          (fun m hm1 hm2 => by
            rcases Nat.lt_succ_iff_lt_or_eq.mp hm2 with hm | hm
            · rw [lswap_getD_other a store i m (by omega) (by omega)]
              exact H1 m hm1 hm
            · subst hm
              rw [hgfst]
              exact hc)
          (fun m hm1 hm2 => by
            rcases Nat.lt_succ_iff_lt_or_eq.mp hm2 with hm | hm
            · rw [lswap_getD_other a store i m (by omega) (by omega)]
              exact H2 m (by omega) hm
            · subst hm
              rcases Nat.eq_or_lt_of_le h2 with he | hlt
              · omega
              · rw [hgsnd]
                exact H2 store (le_refl _) hlt)
        obtain ⟨c1, c2, c3, c4, c5, c6, c7⟩ := hrec
        refine ⟨by rw [c1, hswlen], by omega, by omega, c4, ?_, ?_, ?_⟩
        · intro m hm1 hm2
          exact c5 m hm1 (by omega)
        · intro m hm
          rw [c6 m (by omega), lswap_getD_other a store i m (by omega)
            (by omega)]
        · intro x
          rw [c7 x, lswap_count a store i hslen hilen]
      · simp only [partLoop, if_neg hc]
        have hrec := ih (i + 1) left store a right h1 (by omega) (by omega) h4
          H1
          (fun m hm1 hm2 => by
            rcases Nat.lt_succ_iff_lt_or_eq.mp hm2 with hm | hm
            · exact H2 m hm1 hm
            · subst hm
              exact not_lt.mp hc)
        obtain ⟨c1, c2, c3, c4, c5, c6, c7⟩ := hrec
        refine ⟨c1, c2, by omega, c4, ?_, ?_, c7⟩
        · intro m hm1 hm2
          exact c5 m hm1 (by omega)
        · intro m hm
          exact c6 m (by omega)

/-- Full specification of the C `partition` on a window `[left, right]` with
`left < right ≤ length - 1`: the returned position `s` lies in the window,
positions `[left, s)` hold values with coordinate strictly below that of
`s`, positions `(s, right]` hold values with coordinate at or above it,
positions outside the window are untouched, and counts are preserved. -/
theorem partition_spec (indices : List Nat) (points : List (Point α))
    (left right dim : Nat) (hlr : left < right)
    (hrlen : right < indices.length) :
    (partition indices points left right dim).1.length = indices.length ∧
    left ≤ (partition indices points left right dim).2 ∧
    (partition indices points left right dim).2 ≤ right ∧
    (∀ m, left ≤ m → m < (partition indices points left right dim).2 →
      pointCoord points
          ((partition indices points left right dim).1.getD m 0) dim <
        pointCoord points
          ((partition indices points left right dim).1.getD
            (partition indices points left right dim).2 0) dim) ∧
    (∀ m, (partition indices points left right dim).2 < m → m ≤ right →
      pointCoord points
          ((partition indices points left right dim).1.getD
            (partition indices points left right dim).2 0) dim ≤
        pointCoord points
          ((partition indices points left right dim).1.getD m 0) dim) ∧
    (∀ m, m < left ∨ right < m →
      (partition indices points left right dim).1.getD m 0 =
        indices.getD m 0) ∧
    (∀ x, (partition indices points left right dim).1.count x =
      indices.count x) := by
  have hpivot_le : (left + right) / 2 < indices.length := by omega
  have hswlen : (lswap indices ((left + right) / 2) right).length =
      indices.length := lswap_length ..
  have hloop := partLoop_spec points dim
    (pointCoord points (indices.getD ((left + right) / 2) 0) dim)
    (right - left) left left left (lswap indices ((left + right) / 2) right)
    right (le_refl _) (le_refl _) (by omega) (by omega)
    (fun m hm1 hm2 => by omega) (fun m hm1 hm2 => by omega)
  set pv := pointCoord points (indices.getD ((left + right) / 2) 0) dim
    with hpv
  set a1 := lswap indices ((left + right) / 2) right with ha1
  set res := partLoop points dim pv (List.range' left (right - left))
    (a1, left) with hres
  obtain ⟨c1, c2, c3, c4, c5, c6, c7⟩ := hloop
  have hpart : partition indices points left right dim =
      (lswap res.1 res.2 right, res.2) := rfl
  have hreslen : res.1.length = indices.length := by rw [c1, hswlen]
  have hs_le : res.2 ≤ right := by omega
  have hs_ge : left ≤ res.2 := c2
  have hs_len : res.2 < indices.length := by omega
  -- position right of the loop result still holds the pivot element
  have hpiv_at_right : res.1.getD right 0 = indices.getD ((left + right) / 2) 0 := by
    rw [c6 right (by omega)]
    exact lswap_getD_snd indices ((left + right) / 2) right hrlen
  -- the final swap
  have hfin_at_s : (lswap res.1 res.2 right).getD res.2 0 =
      indices.getD ((left + right) / 2) 0 := by
    rw [lswap_getD_fst res.1 res.2 right (by omega) (by omega), hpiv_at_right]
  rw [hpart]
  simp only
  refine ⟨by rw [lswap_length, hreslen], hs_ge, hs_le, ?_, ?_, ?_, ?_⟩
  · intro m hm1 hm2
    rw [hfin_at_s, lswap_getD_other res.1 res.2 right m (by omega) (by omega)]
    exact c4 m hm1 hm2
  · intro m hm1 hm2
    rw [hfin_at_s]
    rcases Nat.eq_or_lt_of_le hm2 with he | hlt
    · subst he
      rw [lswap_getD_snd res.1 res.2 m (by omega)]
      exact c5 res.2 (le_refl _) (by omega)
    · rw [lswap_getD_other res.1 res.2 right m (by omega) (by omega)]
      exact c5 m (by omega) (by omega)
  · intro m hm
    rw [lswap_getD_other res.1 res.2 right m (by omega) (by omega),
      c6 m (by omega)]
    exact lswap_getD_other indices ((left + right) / 2) right m (by omega)
      (by omega)
  · intro x
    rw [lswap_count res.1 res.2 right (by omega) (by omega), c7 x]
    exact lswap_count indices ((left + right) / 2) right hpivot_le hrlen x

/-! ### Quickselect correctness, layer 3: the selection loop -/

theorem take_eq_of_getD {l l' : List Nat} (hlen : l.length = l'.length)
    (k : Nat) (h : ∀ m, m < k → l.getD m 0 = l'.getD m 0) :
    l.take k = l'.take k := by
  apply List.ext_getElem
  · simp [hlen]
  · intro m h1 h2
    have hm : m < l.length := by simp at h1; omega
    have hm' : m < l'.length := by simp at h2; omega
    have hk : m < k := by simp at h1; omega
    have := h m hk
    rw [List.getD_eq_getElem _ _ hm, List.getD_eq_getElem _ _ hm'] at this
    simpa [List.getElem_take] using this

theorem drop_eq_of_getD {l l' : List Nat} (hlen : l.length = l'.length)
    (k : Nat) (h : ∀ m, k ≤ m → l.getD m 0 = l'.getD m 0) :
    l.drop k = l'.drop k := by
  apply List.ext_getElem
  · simp [hlen]
  · intro m h1 h2
    have hm : k + m < l.length := by simp at h1; omega
    have hm' : k + m < l'.length := by simp at h2; omega
    have := h (k + m) (by omega)
    rw [List.getD_eq_getElem _ _ hm, List.getD_eq_getElem _ _ hm'] at this
    simpa [List.getElem_drop] using this

/-- If `a'` permutes `a` (count-wise) touching only positions in `[l, r]`,
then the value at any window position of `a'` already occurred at some
window position of `a`. -/
theorem window_exchange {a a' : List Nat} (hlen : a'.length = a.length)
    (hcount : ∀ x, a'.count x = a.count x) (l r : Nat)
    (huntouched : ∀ m, m < l ∨ r < m → a'.getD m 0 = a.getD m 0)
    (j : Nat) (hj1 : l ≤ j) (hj2 : j ≤ r) (hj3 : j < a.length) :
    ∃ j', l ≤ j' ∧ j' ≤ r ∧ j' < a.length ∧ a.getD j' 0 = a'.getD j 0 := by
  set v := a'.getD j 0 with hv
  -- decompose both lists as prefix ++ window ++ suffix
  have hsplit : ∀ b : List Nat,
      b.count v = (b.take l).count v + ((b.drop l).take (r + 1 - l)).count v +
        (b.drop (r + 1)).count v := by
    intro b
    conv_lhs => rw [← List.take_append_drop l b]
    rw [List.count_append]
    conv_lhs =>
      rw [← List.take_append_drop (r + 1 - l) (b.drop l)]
    rw [List.count_append, List.drop_drop]
    have he : l + (r + 1 - l) = r + 1 := by omega
    rw [he]
    omega
  have htake : a'.take l = a.take l :=
    take_eq_of_getD hlen l (fun m hm => huntouched m (Or.inl hm))
  have hdrop : a'.drop (r + 1) = a.drop (r + 1) :=
    drop_eq_of_getD hlen (r + 1) (fun m hm => huntouched m (Or.inr (by omega)))
  have hwin : ((a'.drop l).take (r + 1 - l)).count v =
      ((a.drop l).take (r + 1 - l)).count v := by
    have h1 := hsplit a'
    have h2 := hsplit a
    rw [htake, hdrop, hcount v] at h1
    omega
  -- v occurs in the window of a'
  have hjlen' : j < a'.length := by omega
  have hmem' : v ∈ (a'.drop l).take (r + 1 - l) := by
    have hidx : j - l < ((a'.drop l).take (r + 1 - l)).length := by
      simp only [List.length_take, List.length_drop]
      omega
    refine List.mem_iff_getElem.mpr ⟨j - l, hidx, ?_⟩
    rw [List.getElem_take, List.getElem_drop]
    simp only [show l + (j - l) = j from by omega]
    rw [hv, List.getD_eq_getElem _ _ hjlen']
  have hcnt : 0 < ((a.drop l).take (r + 1 - l)).count v := by
    rw [← hwin]
    exact List.count_pos_iff.mpr hmem'
  have hmem : v ∈ (a.drop l).take (r + 1 - l) := List.count_pos_iff.mp hcnt
  obtain ⟨idx, hidx, hval⟩ := List.mem_iff_getElem.mp hmem
  have hidx2 : idx < r + 1 - l ∧ idx < a.length - l := by
    simp only [List.length_take, List.length_drop] at hidx
    omega
  refine ⟨l + idx, by omega, by omega, by omega, ?_⟩
  rw [List.getElem_take, List.getElem_drop] at hval
  rw [List.getD_eq_getElem _ _ (by omega)]
  exact hval

/-- Full specification of the fueled quickselect loop.  Invariants: the
target position `n` stays in the window `[l, r]`; positions left of the
window hold values no larger than everything from the window on
(`INV1`); positions up to `r` hold values no larger than everything right
of the window (`INV2`).  With fuel at least the window width the loop
terminates with the array partitioned at position `n`, preserving counts
and length. -/
theorem nthElementLoop_spec (points : List (Point α)) (dim : Nat) :
    ∀ (fuel : Nat) (a : List Nat) (l r n : Nat),
      r + 1 - l ≤ fuel → l ≤ n → n ≤ r → r < a.length →
      (∀ i j, i < l → l ≤ j → j < a.length →
        pointCoord points (a.getD i 0) dim ≤
          pointCoord points (a.getD j 0) dim) →
      (∀ i j, i ≤ r → r < j → j < a.length →
        pointCoord points (a.getD i 0) dim ≤
          pointCoord points (a.getD j 0) dim) →
      (nthElementLoop points dim fuel a l r n).length = a.length ∧
      (∀ x, (nthElementLoop points dim fuel a l r n).count x = a.count x) ∧
      (∀ i, i < n →
        pointCoord points ((nthElementLoop points dim fuel a l r n).getD i 0)
            dim ≤
          pointCoord points ((nthElementLoop points dim fuel a l r n).getD n 0)
            dim) ∧
      (∀ j, n < j → j < a.length →
        pointCoord points ((nthElementLoop points dim fuel a l r n).getD n 0)
            dim ≤
          pointCoord points ((nthElementLoop points dim fuel a l r n).getD j 0)
            dim) := by
  intro fuel
  induction fuel with
  | zero =>
      intro a l r n hfuel hln hnr hrlen INV1 INV2
      omega
  | succ fuel ih =>
      intro a l r n hfuel hln hnr hrlen INV1 INV2
      by_cases hlr : l < r
      · -- a partition step happens
        obtain ⟨p1, p2, p3, p4, p5, p6, p7⟩ :=
          partition_spec a points l r dim hlr hrlen
        set a1 := (partition a points l r dim).1 with ha1
        set s := (partition a points l r dim).2 with hs
        have hex := window_exchange p1 p7 l r p6
        -- basic facts about a1 under the invariants
        have hINV1' : ∀ i j, i < l → l ≤ j → j < a.length →
            pointCoord points (a1.getD i 0) dim ≤
              pointCoord points (a1.getD j 0) dim := by
          intro i j hi hj hjlen
          rw [p6 i (Or.inl hi)]
          by_cases hjr : j ≤ r
          · obtain ⟨j', hj'1, hj'2, hj'3, hj'4⟩ := hex j hj hjr hjlen
            rw [← hj'4]
            exact INV1 i j' hi hj'1 hj'3
          · rw [p6 j (Or.inr (by omega))]
            exact INV1 i j hi hj hjlen
        have hINV2' : ∀ i j, i ≤ r → r < j → j < a.length →
            pointCoord points (a1.getD i 0) dim ≤
              pointCoord points (a1.getD j 0) dim := by
          intro i j hi hj hjlen
          rw [p6 j (Or.inr hj)]
          by_cases hil : i < l
          · rw [p6 i (Or.inl hil)]
            exact INV2 i j hi hj hjlen
          · obtain ⟨i', hi'1, hi'2, hi'3, hi'4⟩ := hex i (by omega) hi
              (by omega)
            rw [← hi'4]
            exact INV2 i' j hi'2 hj hjlen
        -- values in [l, s] are at most the pivot value; values in [s, r]
        -- are at least the pivot value
        have hbelow : ∀ i, l ≤ i → i ≤ s →
            pointCoord points (a1.getD i 0) dim ≤
              pointCoord points (a1.getD s 0) dim := by
          intro i hi1 hi2
          rcases Nat.eq_or_lt_of_le hi2 with he | hlt
          · rw [he]
          · exact le_of_lt (p4 i hi1 hlt)
        have habove : ∀ j, s ≤ j → j ≤ r →
            pointCoord points (a1.getD s 0) dim ≤
              pointCoord points (a1.getD j 0) dim := by
          intro j hj1 hj2
          rcases Nat.eq_or_lt_of_le hj1 with he | hlt
          · rw [← he]
          · exact p5 j hlt hj2
        unfold nthElementLoop
        rw [if_pos hlr]
        simp only [← ha1, ← hs]
        by_cases hsn : s = n
        · rw [if_pos hsn]
          subst hsn
          refine ⟨p1, p7, ?_, ?_⟩
          · intro i hi
            by_cases hil : i < l
            · rw [p6 i (Or.inl hil)]
              obtain ⟨s', hs'1, hs'2, hs'3, hs'4⟩ := hex s p2 p3 (by omega)
              rw [← hs'4]
              exact INV1 i s' hil hs'1 hs'3
            · exact le_of_lt (p4 i (by omega) hi)
          · intro j hj hjlen
            by_cases hjr : j ≤ r
            · exact p5 j hj hjr
            · rw [p6 j (Or.inr (by omega))]
              obtain ⟨s', hs'1, hs'2, hs'3, hs'4⟩ := hex s p2 p3 (by omega)
              rw [← hs'4]
              exact INV2 s' j hs'2 (by omega) hjlen
        · rw [if_neg hsn]
          by_cases hns : n < s
          · rw [if_pos hns]
            have hrec := ih a1 l (s - 1) n (by omega) hln (by omega)
              (by omega)
              (by rw [p1]; exact hINV1')
              (by
                rw [p1]
                intro i j hi hj hjlen
                by_cases hjr : j ≤ r
                · -- j ∈ [s, r]: value at j is at least the pivot
                  have hj_ge : pointCoord points (a1.getD s 0) dim ≤
                      pointCoord points (a1.getD j 0) dim :=
                    habove j (by omega) hjr
                  by_cases hil : i < l
                  · obtain ⟨j', hj'1, hj'2, hj'3, hj'4⟩ := hex j (by omega)
                      hjr hjlen
                    rw [p6 i (Or.inl hil), ← hj'4]
                    exact INV1 i j' hil hj'1 hj'3
                  · exact le_trans (hbelow i (by omega) (by omega)) hj_ge
                · -- j > r: untouched
                  by_cases hil : i < l
                  · rw [p6 i (Or.inl hil), p6 j (Or.inr (by omega))]
                    exact INV2 i j (by omega) (by omega) hjlen
                  · obtain ⟨i', hi'1, hi'2, hi'3, hi'4⟩ := hex i (by omega)
                      (by omega) (by omega)
                    rw [p6 j (Or.inr (by omega)), ← hi'4]
                    exact INV2 i' j hi'2 (by omega) hjlen)
            obtain ⟨c1, c2, c3, c4⟩ := hrec
            refine ⟨by rw [c1, p1], fun x => by rw [c2 x, p7 x], c3, ?_⟩
            intro j hj hjlen
            exact c4 j hj (by rw [p1]; exact hjlen)
          · rw [if_neg hns]
            have hsn' : s < n := by omega
            have hrec := ih a1 (s + 1) r n (by omega) (by omega) hnr
              (by omega)
              (by
                rw [p1]
                intro i j hi hj hjlen
                by_cases hil : i < l
                · rw [p6 i (Or.inl hil)]
                  by_cases hjr : j ≤ r
                  · obtain ⟨j', hj'1, hj'2, hj'3, hj'4⟩ := hex j (by omega)
                      hjr hjlen
                    rw [← hj'4]
                    exact INV1 i j' hil hj'1 hj'3
                  · rw [p6 j (Or.inr (by omega))]
                    exact INV1 i j hil (by omega) hjlen
                · -- i ∈ [l, s]
                  have hi_le : pointCoord points (a1.getD i 0) dim ≤
                      pointCoord points (a1.getD s 0) dim :=
                    hbelow i (by omega) (by omega)
                  by_cases hjr : j ≤ r
                  · exact le_trans hi_le (habove j (by omega) hjr)
                  · obtain ⟨i', hi'1, hi'2, hi'3, hi'4⟩ := hex i (by omega)
                      (by omega) (by omega)
                    rw [p6 j (Or.inr (by omega)), ← hi'4]
                    exact INV2 i' j hi'2 (by omega) hjlen)
              (by rw [p1]; exact hINV2')
            obtain ⟨c1, c2, c3, c4⟩ := hrec
            refine ⟨by rw [c1, p1], fun x => by rw [c2 x, p7 x], c3, ?_⟩
            intro j hj hjlen
            exact c4 j hj (by rw [p1]; exact hjlen)
      · -- window degenerate: l = n = r, already partitioned by INV1/INV2
        have he : l = n ∧ n = r := by omega
        unfold nthElementLoop
        rw [if_neg hlr]
        refine ⟨rfl, fun x => rfl, ?_, ?_⟩
        · intro i hi
          exact INV1 i n (by omega) (by omega) (by omega)
        · intro j hj hjlen
          exact INV2 n j (by omega) (by omega) hjlen

/-- Specification of `nth_element` as called by the tree build: the result
permutes the input (count-wise) and is partitioned at position `n`. -/
theorem nth_element_spec (indices : List Nat) (points : List (Point α))
    (n dim : Nat) (hlen : 0 < indices.length) (hn : n < indices.length) :
    (∀ x, (nth_element indices points 0 (indices.length - 1) n dim).count x =
      indices.count x) ∧
    (∀ i, i < n →
      pointCoord points
          ((nth_element indices points 0 (indices.length - 1) n dim).getD i 0)
          dim ≤
        pointCoord points
          ((nth_element indices points 0 (indices.length - 1) n dim).getD n 0)
          dim) ∧
    (∀ j, n < j → j < indices.length →
      pointCoord points
          ((nth_element indices points 0 (indices.length - 1) n dim).getD n 0)
          dim ≤
        pointCoord points
          ((nth_element indices points 0 (indices.length - 1) n dim).getD j 0)
          dim) := by
  have h := nthElementLoop_spec points dim (indices.length - 1 + 1 - 0) indices
    0 (indices.length - 1) n (le_refl _) (by omega) (by omega) (by omega)
    (by omega) (by intro i j _ hj hjlen; omega)
  exact ⟨h.2.1, h.2.2.1, fun j hj hjlen => h.2.2.2 j hj hjlen⟩

/-! ### KD-tree build invariants -/

/-- All point indices stored in a subtree. -/
def KdTree.indices : KdTree → List Nat
  | .leaf => []
  | .node l p _ r => p :: (l.indices ++ r.indices)

/-- The structural invariant the range query relies on: at every node the
split dimension is in range, the left subtree holds only points whose
coordinate in that dimension is at most the node's, and the right subtree
only points whose coordinate is at least the node's. -/
def goodTree (points : List (Point α)) (D : Nat) : KdTree → Prop
  | .leaf => True
  | .node l p sd r =>
      sd < D ∧
      (∀ q ∈ l.indices, pointCoord points q sd ≤ pointCoord points p sd) ∧
      (∀ q ∈ r.indices, pointCoord points p sd ≤ pointCoord points q sd) ∧
      goodTree points D l ∧ goodTree points D r

/-- The tree built from an index segment stores exactly that segment. -/
theorem kdtreeBuildRec_perm (points : List (Point α)) (D : Nat) :
    ∀ fuel (seg : List Nat) (depth : Nat), seg.length ≤ fuel →
      (kdtreeBuildRec points D fuel seg depth).indices.Perm seg := by
  intro fuel
  induction fuel with
  | zero =>
      intro seg depth hf
      have : seg = [] := List.length_eq_zero.mp (by omega)
      subst this
      exact List.Perm.refl _
  | succ fuel ih =>
      intro seg depth hf
      unfold kdtreeBuildRec
      by_cases h0 : seg.length = 0
      · rw [if_pos h0]
        have : seg = [] := List.length_eq_zero.mp h0
        subst this
        exact List.Perm.refl _
      · rw [if_neg h0]
        by_cases h1 : seg.length = 1
        · rw [if_pos h1]
          obtain ⟨x, hx⟩ := List.length_eq_one.mp h1
          subst hx
          simp [KdTree.indices]
        · rw [if_neg h1]
          simp only [KdTree.indices]
          have hlen2 : 2 ≤ seg.length := by omega
          set m := seg.length / 2 with hm
          set ind := nth_element seg points 0 (seg.length - 1) m
            (depth % D) with hind
          have hcnt := (nth_element_spec seg points m (depth % D)
            (by omega) (by omega)).1
          have hindlen : ind.length = seg.length := nth_element_length ..
          have hperm_ind : ind.Perm seg := List.perm_iff_count.mpr
            (by intro x; exact hcnt x)
          have hm_lt : m < ind.length := by omega
          have htake : (ind.take m).length ≤ fuel := by
            simp only [List.length_take]
            omega
          have hdrop : (ind.drop (m + 1)).length ≤ fuel := by
            simp only [List.length_drop]
            omega
          have ihl := ih (ind.take m) (depth + 1) htake
          have ihr := ih (ind.drop (m + 1)) (depth + 1) hdrop
          have hgetD : ind.getD m 0 = ind[m] := List.getD_eq_getElem _ _ hm_lt
          have hdecomp : ind.take m ++ ind[m] :: ind.drop (m + 1) = ind := by
            rw [List.getElem_cons_drop]
            exact List.take_append_drop m ind
          have h2 : (ind[m] :: (ind.take m ++ ind.drop (m + 1))).Perm ind := by
            conv_rhs => rw [← hdecomp]
            exact List.perm_middle.symm
          rw [hgetD]
          exact ((List.Perm.cons _ (List.Perm.append ihl ihr)).trans h2).trans
            hperm_ind

/-- The tree built from an index segment satisfies the split invariant. -/
theorem kdtreeBuildRec_good (points : List (Point α)) (D : Nat) (hD : 0 < D) :
    ∀ fuel (seg : List Nat) (depth : Nat), seg.length ≤ fuel →
      goodTree points D (kdtreeBuildRec points D fuel seg depth) := by
  intro fuel
  induction fuel with
  | zero =>
      intro seg depth hf
      exact trivial
  | succ fuel ih =>
      intro seg depth hf
      unfold kdtreeBuildRec
      by_cases h0 : seg.length = 0
      · rw [if_pos h0]
        exact trivial
      · rw [if_neg h0]
        by_cases h1 : seg.length = 1
        · rw [if_pos h1]
          refine ⟨Nat.mod_lt _ hD, ?_, ?_, trivial, trivial⟩
          · intro q hq
            simp [KdTree.indices] at hq
          · intro q hq
            simp [KdTree.indices] at hq
        · rw [if_neg h1]
          have hlen2 : 2 ≤ seg.length := by omega
          set m := seg.length / 2 with hm
          set ind := nth_element seg points 0 (seg.length - 1) m
            (depth % D) with hind
          obtain ⟨hcnt, hQl, hQr⟩ := nth_element_spec seg points m (depth % D)
            (by omega) (by omega)
          have hindlen : ind.length = seg.length := nth_element_length ..
          have hm_lt : m < ind.length := by omega
          have htake : (ind.take m).length ≤ fuel := by
            simp only [List.length_take]; omega
          have hdrop : (ind.drop (m + 1)).length ≤ fuel := by
            simp only [List.length_drop]; omega
          refine ⟨Nat.mod_lt _ hD, ?_, ?_, ih (ind.take m) (depth + 1) htake,
            ih (ind.drop (m + 1)) (depth + 1) hdrop⟩
          · intro q hq
            have hqperm := (kdtreeBuildRec_perm points D fuel (ind.take m)
              (depth + 1) htake).mem_iff.mp hq
            obtain ⟨i, hi, hval⟩ := List.mem_iff_getElem.mp hqperm
            have hi' : i < m := by
              simp only [List.length_take] at hi
              omega
            rw [List.getElem_take] at hval
            have := hQl i hi'
            rw [List.getD_eq_getElem _ _ (by omega : i < ind.length),
              hval] at this
            exact this
          · intro q hq
            have hqperm := (kdtreeBuildRec_perm points D fuel
              (ind.drop (m + 1)) (depth + 1) hdrop).mem_iff.mp hq
            obtain ⟨i, hi, hval⟩ := List.mem_iff_getElem.mp hqperm
            have hi' : m + 1 + i < ind.length := by
              simp only [List.length_drop] at hi
              omega
            rw [List.getElem_drop] at hval
            have := hQr (m + 1 + i) (by omega) (by omega)
            rw [List.getD_eq_getElem _ _ hi', hval] at this
            exact this

/-- `kdtree_build` on a nonempty array yields a tree holding exactly the
indices `0 .. n-1`, satisfying the split invariant, with the input's
dimension metadata. -/
theorem kdtree_build_spec (points : List (Point α))
    (h0 : 0 < points.length)
    (hD : 0 < (points.getD 0 default).dimensions) :
    ∃ tree : KdTreeT, kdtree_build points = some tree ∧
      tree.root.indices.Perm (List.range points.length) ∧
      goodTree points (points.getD 0 default).dimensions.toNat tree.root ∧
      tree.dimensions = (points.getD 0 default).dimensions ∧
      tree.num_points = points.length := by
  refine ⟨⟨kdtree_build_recursive (List.range points.length) points 0
    (points.getD 0 default).dimensions.toNat, points.length,
    (points.getD 0 default).dimensions⟩, ?_, ?_, ?_, rfl, rfl⟩
  · unfold kdtree_build
    rw [if_neg (by omega)]
  · exact kdtreeBuildRec_perm points _ _ _ 0 (by simp)
  · exact kdtreeBuildRec_good points _ (by omega) _ _ 0 (by simp)

/-! ### KD-tree range query: equivalence with the brute-force scan -/

theorem euclidRepr_nonneg (a b : List α) {D : Int} (hD : 0 < D) :
    0 ≤ euclidRepr a b D := by
  unfold euclidRepr
  rw [if_neg (by omega)]
  refine List.sum_nonneg ?_
  intro x hx
  obtain ⟨i, _, rfl⟩ := List.mem_map.mp hx
  positivity

theorem sqrtReprLe_iff_of_nonneg {s eps : α} (hs : 0 ≤ s) :
    sqrtReprLe s eps = true ↔ 0 ≤ eps ∧ s ≤ eps ^ 2 := by
  unfold sqrtReprLe
  rw [if_neg (not_lt.mpr hs)]
  exact decide_eq_true_iff

theorem euclidInRange_eq_of_pos {a b : List α} {D : Int} (hD : 0 < D)
    (eps : α) :
    euclidInRange a b D eps = sqrtReprLe (euclidRepr a b D) eps := by
  unfold euclidInRange
  rw [decide_eq_true (euclidRepr_nonneg a b hD), Bool.true_and]

/-- Every emitted index belongs to the subtree and passes the distance
check. -/
theorem range_query_recursive_sound (qc : List α) (eps : α)
    (points : List (Point α)) (dims : Int) :
    ∀ t : KdTree, ∀ x ∈ kdtree_range_query_recursive qc eps points dims t,
      x ∈ t.indices ∧
        sqrtReprLe (euclidRepr qc (points.getD x default).coords dims) eps =
          true := by
  intro t
  induction t with
  | leaf => intro x hx; simp [kdtree_range_query_recursive] at hx
  | node l pidx sd r ihl ihr =>
      intro x hx
      unfold kdtree_range_query_recursive at hx
      simp only [] at hx
      have hhere : ∀ (b : List Nat), x ∈
          (if sqrtReprLe (euclidRepr qc (points.getD pidx default).coords dims)
              eps = true then [pidx] else ([] : List Nat)) → x ∈ KdTree.indices (.node l pidx sd r) ∧
            sqrtReprLe (euclidRepr qc (points.getD x default).coords dims) eps
              = true := by
        intro b hb
        by_cases hc : sqrtReprLe
            (euclidRepr qc (points.getD pidx default).coords dims) eps = true
        · rw [if_pos hc] at hb
          rcases List.mem_singleton.mp hb with rfl
          exact ⟨List.mem_cons_self _ _, hc⟩
        · rw [if_neg hc] at hb
          simp at hb
      have hsub : ∀ y (t' : KdTree), y ∈ t'.indices → (t' = l ∨ t' = r) →
          y ∈ KdTree.indices (.node l pidx sd r) := by
        intro y t' hy ht'
        unfold KdTree.indices
        rcases ht' with rfl | rfl
        · exact List.mem_cons_of_mem _ (List.mem_append_left _ hy)
        · exact List.mem_cons_of_mem _ (List.mem_append_right _ hy)
      by_cases hd : coordAt qc sd - coordAt (points.getD pidx default).coords
          sd < 0
      · rw [if_pos hd] at hx
        rcases List.mem_append.mp hx with hx1 | hx2
        · rcases List.mem_append.mp hx1 with hx3 | hx4
          · exact hhere [] hx3
          · obtain ⟨h1, h2⟩ := ihl x hx4
            exact ⟨hsub x l h1 (Or.inl rfl), h2⟩
        · by_cases he : |coordAt qc sd -
              coordAt (points.getD pidx default).coords sd| ≤ eps
          · rw [if_pos he] at hx2
            obtain ⟨h1, h2⟩ := ihr x hx2
            exact ⟨hsub x r h1 (Or.inr rfl), h2⟩
          · rw [if_neg he] at hx2
            simp at hx2
      · rw [if_neg hd] at hx
        rcases List.mem_append.mp hx with hx1 | hx2
        · rcases List.mem_append.mp hx1 with hx3 | hx4
          · exact hhere [] hx3
          · obtain ⟨h1, h2⟩ := ihr x hx4
            exact ⟨hsub x r h1 (Or.inr rfl), h2⟩
        · by_cases he : |coordAt qc sd -
              coordAt (points.getD pidx default).coords sd| ≤ eps
          · rw [if_pos he] at hx2
            obtain ⟨h1, h2⟩ := ihl x hx2
            exact ⟨hsub x l h1 (Or.inl rfl), h2⟩
          · rw [if_neg he] at hx2
            simp at hx2

/-- The traversal emits no duplicates when the subtree holds no
duplicates. -/
theorem range_query_recursive_nodup (qc : List α) (eps : α)
    (points : List (Point α)) (dims : Int) :
    ∀ t : KdTree, t.indices.Nodup →
      (kdtree_range_query_recursive qc eps points dims t).Nodup := by
  intro t
  induction t with
  | leaf => intro _; simp [kdtree_range_query_recursive]
  | node l pidx sd r ihl ihr =>
      intro hnd
      unfold KdTree.indices at hnd
      rw [List.nodup_cons] at hnd
      obtain ⟨hp, happ⟩ := hnd
      rw [List.nodup_append] at happ
      obtain ⟨hndl, hndr, hdisj⟩ := happ
      have hsl := range_query_recursive_sound qc eps points dims l
      have hsr := range_query_recursive_sound qc eps points dims r
      have hql := ihl hndl
      have hqr := ihr hndr
      have hdisj2 : List.Disjoint
          (kdtree_range_query_recursive qc eps points dims l)
          (kdtree_range_query_recursive qc eps points dims r) := by
        intro y hyl hyr
        exact hdisj (hsl y hyl).1 (hsr y hyr).1
      have hhere_l : ∀ b ∈ (if sqrtReprLe (euclidRepr qc
          (points.getD pidx default).coords dims) eps = true then [pidx]
          else ([] : List Nat)), b ∉
            kdtree_range_query_recursive qc eps points dims l := by
        intro b hb hbl
        by_cases hc : sqrtReprLe (euclidRepr qc
            (points.getD pidx default).coords dims) eps = true
        · rw [if_pos hc] at hb
          rcases List.mem_singleton.mp hb with rfl
          exact hp (List.mem_append_left _ (hsl b hbl).1)
        · rw [if_neg hc] at hb
          simp at hb
      have hhere_r : ∀ b ∈ (if sqrtReprLe (euclidRepr qc
          (points.getD pidx default).coords dims) eps = true then [pidx]
          else ([] : List Nat)), b ∉
            kdtree_range_query_recursive qc eps points dims r := by
        intro b hb hbr
        by_cases hc : sqrtReprLe (euclidRepr qc
            (points.getD pidx default).coords dims) eps = true
        · rw [if_pos hc] at hb
          rcases List.mem_singleton.mp hb with rfl
          exact hp (List.mem_append_right _ (hsr b hbr).1)
        · rw [if_neg hc] at hb
          simp at hb
      have hhere_nd : (if sqrtReprLe (euclidRepr qc
          (points.getD pidx default).coords dims) eps = true then [pidx]
          else ([] : List Nat)).Nodup := by
        by_cases hc : sqrtReprLe (euclidRepr qc
            (points.getD pidx default).coords dims) eps = true
        · rw [if_pos hc]; exact List.nodup_singleton _
        · rw [if_neg hc]; exact List.nodup_nil
      unfold kdtree_range_query_recursive
      simp only []
      by_cases hd : coordAt qc sd - coordAt (points.getD pidx default).coords
          sd < 0
      · rw [if_pos hd]
        by_cases he : |coordAt qc sd -
            coordAt (points.getD pidx default).coords sd| ≤ eps
        · rw [if_pos he]
          rw [List.nodup_append, List.nodup_append]
          refine ⟨⟨hhere_nd, hql, fun b hb => hhere_l b hb⟩, hqr, ?_⟩
          intro b hb
          rcases List.mem_append.mp hb with hb1 | hb2
          · exact hhere_r b hb1
          · exact fun hbr => hdisj2 hb2 hbr
        · rw [if_neg he]
          rw [List.append_nil, List.nodup_append]
          exact ⟨hhere_nd, hql, fun b hb => hhere_l b hb⟩
      · rw [if_neg hd]
        by_cases he : |coordAt qc sd -
            coordAt (points.getD pidx default).coords sd| ≤ eps
        · rw [if_pos he]
          rw [List.nodup_append, List.nodup_append]
          refine ⟨⟨hhere_nd, hqr, fun b hb => hhere_r b hb⟩, hql, ?_⟩
          intro b hb
          rcases List.mem_append.mp hb with hb1 | hb2
          · exact hhere_l b hb1
          · exact fun hbl => hdisj2 hbl hb2
        · rw [if_neg he]
          rw [List.append_nil, List.nodup_append]
          exact ⟨hhere_nd, hqr, fun b hb => hhere_r b hb⟩

/-- A single squared coordinate difference in a queried dimension is at
most the full squared distance. -/
theorem term_le_euclidRepr (a b : List α) {D : Int} (hD : 0 < D) {sd : Nat}
    (hsd : sd < D.toNat) :
    (coordAt a sd - coordAt b sd) ^ 2 ≤ euclidRepr a b D := by
  unfold euclidRepr
  rw [if_neg (by omega)]
  refine List.single_le_sum ?_ _ ?_
  · intro x hx
    obtain ⟨i, _, rfl⟩ := List.mem_map.mp hx
    positivity
  · exact List.mem_map_of_mem _ (List.mem_range.mpr hsd)

/-- Arithmetic core of the pruning argument: a point whose coordinate gap
to the query exceeds `eps` in one dimension cannot pass the distance
check. -/
theorem prune_contradiction {qv xv eps s : α}
    (hgap : eps < qv - xv ∨ eps < xv - qv) (heps : 0 ≤ eps)
    (hterm : (qv - xv) ^ 2 ≤ s) (hsle : s ≤ eps ^ 2) : False := by
  rcases hgap with h | h
  · nlinarith
  · nlinarith

/-- Completeness of the pruned traversal: on a tree satisfying the split
invariant, every index within range is emitted. -/
theorem range_query_recursive_complete (qc : List α) (eps : α)
    (points : List (Point α)) {D : Int} (hD : 0 < D) :
    ∀ t : KdTree, goodTree points D.toNat t →
      ∀ x ∈ t.indices,
        sqrtReprLe (euclidRepr qc (points.getD x default).coords D) eps =
          true →
        x ∈ kdtree_range_query_recursive qc eps points D t := by
  intro t
  induction t with
  | leaf => intro _ x hx; simp [KdTree.indices] at hx
  | node l pidx sd r ihl ihr =>
      intro hgood x hx hcheck
      obtain ⟨hsd, hleft, hright, hgl, hgr⟩ := hgood
      have hsx : 0 ≤ euclidRepr qc (points.getD x default).coords D :=
        euclidRepr_nonneg _ _ hD
      obtain ⟨heps, hsle⟩ := (sqrtReprLe_iff_of_nonneg hsx).mp hcheck
      have hterm : (coordAt qc sd -
          coordAt (points.getD x default).coords sd) ^ 2 ≤
          euclidRepr qc (points.getD x default).coords D :=
        term_le_euclidRepr qc (points.getD x default).coords hD hsd
      -- x in the pruned left subtree with the query at or right of the
      -- plane and the plane farther than eps is impossible
      have hprune_l : x ∈ l.indices →
          0 ≤ coordAt qc sd - coordAt (points.getD pidx default).coords sd →
          eps < coordAt qc sd - coordAt (points.getD pidx default).coords sd →
          False := by
        intro hxl hd he
        have hxble : coordAt (points.getD x default).coords sd ≤
            coordAt (points.getD pidx default).coords sd := hleft x hxl
        refine prune_contradiction (Or.inl ?_) heps hterm hsle
        have : coordAt qc sd - coordAt (points.getD pidx default).coords sd ≤
            coordAt qc sd - coordAt (points.getD x default).coords sd := by
          linarith
        linarith
      have hprune_r : x ∈ r.indices →
          coordAt qc sd - coordAt (points.getD pidx default).coords sd < 0 →
          eps < -(coordAt qc sd -
            coordAt (points.getD pidx default).coords sd) →
          False := by
        intro hxr hd he
        have hxbge : coordAt (points.getD pidx default).coords sd ≤
            coordAt (points.getD x default).coords sd := hright x hxr
        refine prune_contradiction (Or.inr ?_) heps hterm hsle
        linarith
      unfold kdtree_range_query_recursive
      simp only []
      rcases List.mem_cons.mp hx with rfl | hx2
      · -- the node itself: its check is exactly `hcheck`
        by_cases hd : coordAt qc sd -
            coordAt (points.getD x default).coords sd < 0
        · rw [if_pos hd, if_pos hcheck]
          exact List.mem_append_left _ (List.mem_append_left _
            (List.mem_singleton.mpr rfl))
        · rw [if_neg hd, if_pos hcheck]
          exact List.mem_append_left _ (List.mem_append_left _
            (List.mem_singleton.mpr rfl))
      · rcases List.mem_append.mp hx2 with hxl | hxr
        · -- x in the left subtree
          have hrec := ihl hgl x hxl hcheck
          by_cases hd : coordAt qc sd -
              coordAt (points.getD pidx default).coords sd < 0
          · rw [if_pos hd]
            exact List.mem_append_left _ (List.mem_append_right _ hrec)
          · rw [if_neg hd]
            by_cases he : |coordAt qc sd -
                coordAt (points.getD pidx default).coords sd| ≤ eps
            · rw [if_pos he]
              exact List.mem_append_right _ hrec
            · exfalso
              rw [abs_of_nonneg (not_lt.mp hd), not_le] at he
              exact hprune_l hxl (not_lt.mp hd) he
        · -- x in the right subtree
          have hrec := ihr hgr x hxr hcheck
          by_cases hd : coordAt qc sd -
              coordAt (points.getD pidx default).coords sd < 0
          · rw [if_pos hd]
            by_cases he : |coordAt qc sd -
                coordAt (points.getD pidx default).coords sd| ≤ eps
            · rw [if_pos he]
              exact List.mem_append_right _ hrec
            · exfalso
              rw [abs_of_neg hd, not_le] at he
              exact hprune_r hxr hd he
          · rw [if_neg hd]
            exact List.mem_append_left _ (List.mem_append_right _ hrec)

/-! ### Validation facts -/

theorem validate_data_spec {points : List (Point α)}
    (h : cdbscan_validate_data points = true) :
    0 < points.length ∧ 0 < (points.getD 0 default).dimensions ∧
    ∀ j, j < points.length →
      (points.getD j default).dimensions =
        (points.getD 0 default).dimensions := by
  unfold cdbscan_validate_data at h
  by_cases h0 : points.length = 0
  · rw [if_pos h0] at h; exact absurd h (by simp)
  · rw [if_neg h0] at h
    by_cases h1 : (points.getD 0 default).dimensions ≤ 0
    · rw [if_pos h1] at h; exact absurd h (by simp)
    · rw [if_neg h1] at h
      refine ⟨by omega, by omega, ?_⟩
      intro j hj
      have := List.all_eq_true.mp h (points.getD j default)
        (by rw [List.getD_eq_getElem _ _ hj]; exact List.getElem_mem _)
      exact of_decide_eq_true this

theorem validate_params_spec {params : Params α}
    (h : cdbscan_validate_params params = true) :
    0 < params.eps ∧ 0 < params.min_pts := by
  unfold cdbscan_validate_params at h
  by_cases h0 : params.eps ≤ 0
  · rw [if_pos h0] at h; exact absurd h (by simp)
  · rw [if_neg h0] at h
    by_cases h1 : params.min_pts ≤ 0
    · rw [if_pos h1] at h; exact absurd h (by simp)
    · exact ⟨not_le.mp h0, not_le.mp h1⟩

/-! ### The query-equivalence theorem (KD-tree versus linear scan) -/

/-- On validated data, the KD-tree range query coincides with the
brute-force scan, list-for-list.  This is the content of claim C3 used at
every call site of the clustering loop. -/
theorem kdtree_query_eq_region_query (points : List (Point α))
    (hval : cdbscan_validate_data points = true) (tree : KdTreeT)
    (htree : kdtree_build points = some tree) (q : Nat)
    (hq : q < points.length) (eps : α) :
    kdtree_range_query tree points q eps = cdbscan_region_query points q eps
    := by
  obtain ⟨hlen, hD, hdims⟩ := validate_data_spec hval
  obtain ⟨tree', htree', hperm, hgood, htdims, htnum⟩ :=
    kdtree_build_spec points hlen hD
  have : tree = tree' := by
    rw [htree] at htree'
    exact Option.some.inj htree'
  subst this
  set D := (points.getD 0 default).dimensions with hDdef
  set qc := (points.getD q default).coords with hqc
  -- the root is not the NULL leaf
  have hroot : tree.root ≠ .leaf := by
    intro hleaf
    have h2 := hperm.length_eq
    rw [hleaf] at h2
    simp only [KdTree.indices, List.length_nil, List.length_range] at h2
    omega
  have hnodup_ind : tree.root.indices.Nodup :=
    hperm.nodup_iff.mpr (List.nodup_range _)
  have hmem_ind : ∀ x, x ∈ tree.root.indices ↔ x < points.length := by
    intro x
    rw [hperm.mem_iff, List.mem_range]
  -- the two predicates agree
  have hpred : ∀ i, i < points.length →
      (euclidInRange qc (points.getD i default).coords
        (points.getD q default).dimensions eps = true ↔
       sqrtReprLe (euclidRepr qc (points.getD i default).coords D) eps =
        true) := by
    intro i hi
    rw [hdims q hq, euclidInRange_eq_of_pos hD]
  -- unfold both sides
  unfold kdtree_range_query cdbscan_region_query
  rw [if_neg hroot, if_pos hq]
  simp only []
  rw [htdims]
  set L1 := (kdtree_range_query_recursive qc eps points D
    tree.root).insertionSort (· ≤ ·) with hL1
  set L2 := (List.range points.length).filter (fun i =>
    euclidInRange qc (points.getD i default).coords
      (points.getD q default).dimensions eps) with hL2
  have hnd1 : L1.Nodup := by
    rw [hL1]
    exact (List.perm_insertionSort _ _).nodup_iff.mpr
      (range_query_recursive_nodup qc eps points D tree.root hnodup_ind)
  have hnd2 : L2.Nodup :=
    List.Nodup.filter _ (List.nodup_range _)
  have hmem : ∀ x, x ∈ L1 ↔ x ∈ L2 := by
    intro x
    rw [hL1, (List.perm_insertionSort _ _).mem_iff, hL2, List.mem_filter,
      List.mem_range]
    constructor
    · intro hx
      obtain ⟨hxi, hxc⟩ :=
        range_query_recursive_sound qc eps points D tree.root x hx
      have hxlt : x < points.length := (hmem_ind x).mp hxi
      exact ⟨hxlt, (hpred x hxlt).mpr hxc⟩
    · intro ⟨hxlt, hxc⟩
      exact range_query_recursive_complete qc eps points hD tree.root hgood x
        ((hmem_ind x).mpr hxlt) ((hpred x hxlt).mp hxc)
  have hsort1 : L1.Sorted (· ≤ ·) := by
    rw [hL1]
    exact List.sorted_insertionSort _ _
  have hsort2 : L2.Sorted (· ≤ ·) := by
    rw [hL2]
    exact List.Sorted.filter _
      ((List.pairwise_lt_range _).imp (fun h => le_of_lt h))
  refine List.eq_of_perm_of_sorted ?_ hsort1 hsort2
  refine List.perm_of_nodup_nodup_toFinset_eq hnd1 hnd2 ?_
  ext x
  rw [List.mem_toFinset, List.mem_toFinset]
  exact hmem x

/-! ### Full-run equivalence of the two strategies (claim C2)

With both neighborhood queries returning the same lists at every in-bounds
call, the two expansion functions and hence the whole clustering runs
coincide.  The lemmas thread two invariants: every intermediate point
array is a relabelling of the initial one (`sameSkeleton`), and every seed
index is in bounds. -/

theorem mem_of_mem_set {β : Type} {l : List β} {i : Nat} {v y : β}
    (h : y ∈ l.set i v) : y = v ∨ y ∈ l := by
  obtain ⟨k, hk, hval⟩ := List.mem_iff_getElem.mp h
  rw [List.getElem_set] at hval
  by_cases hik : i = k
  · rw [if_pos hik] at hval
    exact Or.inl hval.symm
  · rw [if_neg hik] at hval
    exact Or.inr (hval ▸ List.getElem_mem _)

theorem removeFirstSwap_subset {l : List Nat} {x y : Nat}
    (h : y ∈ removeFirstSwap l x) : y ∈ l := by
  unfold removeFirstSwap at h
  by_cases hx : x ∈ l
  · rw [if_pos hx] at h
    have h2 := List.dropLast_subset _ h
    rcases mem_of_mem_set h2 with rfl | h3
    · rcases l with _ | ⟨a, t⟩
      · simp at hx
      · rw [List.getLastD_cons]
        exact List.getLastD_mem_cons _ _
    · exact h3
  · rw [if_neg hx] at h
    exact h

theorem region_query_custom_bound (ps : List (Point α)) (cur : Nat)
    (params : Params α) :
    ∀ y ∈ cdbscan_region_query_custom ps cur params, y < ps.length := by
  intro y hy
  unfold cdbscan_region_query_custom at hy
  by_cases hc : cur < ps.length
  · rw [if_pos hc] at hy
    exact List.mem_range.mp (List.mem_filter.mp hy).1
  · rw [if_neg hc] at hy
    simp at hy

theorem processNeighbors_seeds_subset (c : Int) (nbrs : List Nat) :
    ∀ (pts : List (Point α)) (seeds : List Nat),
      ∀ s ∈ (processNeighbors c nbrs pts seeds).2, s ∈ seeds ∨ s ∈ nbrs := by
  induction nbrs with
  | nil => intro pts seeds s hs; exact Or.inl hs
  | cons nb rest ih =>
      intro pts seeds s hs
      unfold processNeighbors at hs
      by_cases h1 : labelOf pts nb = UNCLASSIFIED
      · rw [if_pos h1] at hs
        rcases ih _ _ s hs with h2 | h2
        · rcases List.mem_append.mp h2 with h3 | h3
          · exact Or.inl h3
          · rcases List.mem_singleton.mp h3 with rfl
            exact Or.inr (List.mem_cons_self _ _)
        · exact Or.inr (List.mem_cons_of_mem _ h2)
      · rw [if_neg h1] at hs
        by_cases h2 : labelOf pts nb = NOISE
        · rw [if_pos h2] at hs
          rcases ih _ _ s hs with h3 | h3
          · exact Or.inl h3
          · exact Or.inr (List.mem_cons_of_mem _ h3)
        · rw [if_neg h2] at hs
          rcases ih _ _ s hs with h3 | h3
          · exact Or.inl h3
          · exact Or.inr (List.mem_cons_of_mem _ h3)

theorem expandLoop_congr (pts0 : List (Point α))
    (q1 q2 : List (Point α) → Nat → List Nat) (params : Params α) (c : Int)
    (hq : ∀ ps cur, sameSkeleton pts0 ps → cur < pts0.length →
      q1 ps cur = q2 ps cur)
    (hqb : ∀ ps cur, sameSkeleton pts0 ps → ∀ y ∈ q2 ps cur,
      y < pts0.length) :
    ∀ fuel pts seeds cursor, sameSkeleton pts0 pts →
      (∀ s ∈ seeds, s < pts0.length) →
      expandLoop q1 params c fuel pts seeds cursor =
        expandLoop q2 params c fuel pts seeds cursor := by
  intro fuel
  induction fuel with
  | zero => intro pts seeds cursor _ _; rfl
  | succ fuel ih =>
      intro pts seeds cursor hsk hsb
      unfold expandLoop
      by_cases h1 : cursor < seeds.length
      · rw [if_pos h1, if_pos h1]
        have hcur : seeds.getD cursor 0 ∈ seeds := by
          rw [List.getD_eq_getElem _ _ h1]
          exact List.getElem_mem _
        have hcurlt : seeds.getD cursor 0 < pts0.length := hsb _ hcur
        rw [hq pts (seeds.getD cursor 0) hsk hcurlt]
        by_cases h2 : params.min_pts ≤
            ((q2 pts (seeds.getD cursor 0)).length : Int)
        · rw [if_pos h2, if_pos h2]
          refine ih _ _ _ ?_ ?_
          · exact sameSkeleton_trans hsk (sameSkeleton_processNeighbors ..)
          · intro s hs
            rcases processNeighbors_seeds_subset _ _ _ _ s hs with h3 | h3
            · exact hsb s h3
            · exact hqb pts _ hsk s h3
        · rw [if_neg h2, if_neg h2]
          exact ih _ _ _ hsk hsb
      · rw [if_neg h1, if_neg h1]

theorem expandClusterGen_congr (pts0 : List (Point α))
    (q1 q2 : List (Point α) → Nat → List Nat) (params : Params α)
    (pts : List (Point α)) (point_idx : Nat) (c : Int)
    (hq : ∀ ps cur, sameSkeleton pts0 ps → cur < pts0.length →
      q1 ps cur = q2 ps cur)
    (hqb : ∀ ps cur, sameSkeleton pts0 ps → ∀ y ∈ q2 ps cur,
      y < pts0.length)
    (hsk : sameSkeleton pts0 pts) (hpi : point_idx < pts0.length) :
    expandClusterGen q1 params pts point_idx c =
      expandClusterGen q2 params pts point_idx c := by
  unfold expandClusterGen
  rw [hq pts point_idx hsk hpi]
  by_cases h1 : ((q2 pts point_idx).length : Int) < params.min_pts
  · rw [if_pos h1, if_pos h1]
  · rw [if_neg h1, if_neg h1]
    simp only []
    rw [expandLoop_congr pts0 q1 q2 params c hq hqb _ _ _ _
      (sameSkeleton_trans hsk (sameSkeleton_labelFold ..))
      (fun s hs => hqb pts point_idx hsk s (removeFirstSwap_subset hs))]

theorem clusterStep_congr (pts0 : List (Point α)) (t : KdTreeT)
    (params : Params α)
    (hq : ∀ ps cur, sameSkeleton pts0 ps → cur < pts0.length →
      kdtree_range_query t ps cur params.eps =
        cdbscan_region_query_custom ps cur params)
    (st : Int × List (Point α)) (i : Nat) (hsk : sameSkeleton pts0 st.2)
    (hi : i < pts0.length) :
    clusterStep (some t) params st i = clusterStep none params st i := by
  have hqb : ∀ ps cur, sameSkeleton pts0 ps →
      ∀ y ∈ cdbscan_region_query_custom ps cur params, y < pts0.length := by
    intro ps cur hps y hy
    have h1 := region_query_custom_bound ps cur params y hy
    have h2 := hps.1
    omega
  unfold clusterStep
  by_cases h1 : labelOf st.2 i ≠ UNCLASSIFIED
  · rw [if_pos h1, if_pos h1]
  · rw [if_neg h1, if_neg h1]
    simp only []
    rw [hq st.2 i hsk hi]
    by_cases h2 : ((cdbscan_region_query_custom st.2 i params).length : Int) <
        params.min_pts
    · rw [if_pos h2, if_pos h2]
    · rw [if_neg h2, if_neg h2]
      unfold expand_cluster_kdtree expand_cluster
      rw [expandClusterGen_congr pts0 _ _ params st.2 i st.1 hq hqb hsk hi]

theorem clusterPrefix_congr (pts0 : List (Point α)) (t : KdTreeT)
    (params : Params α)
    (hq : ∀ ps cur, sameSkeleton pts0 ps → cur < pts0.length →
      kdtree_range_query t ps cur params.eps =
        cdbscan_region_query_custom ps cur params)
    (k : Nat) (hk : k ≤ pts0.length) :
    clusterPrefix (some t) params pts0 k = clusterPrefix none params pts0 k
    := by
  induction k with
  | zero => rfl
  | succ k ih =>
      rw [clusterPrefix_succ, clusterPrefix_succ, ih (by omega)]
      exact clusterStep_congr pts0 t params hq _ k
        (sameSkeleton_clusterPrefix ..) (by omega)

/-! The clustering engine reads every `Params` field except `use_kdtree`
(which is consulted only once, to decide whether to build the tree); the
following congruences make that precise. -/

theorem distInRange_params_congr (P1 P2 : Params α) (heps : P1.eps = P2.eps)
    (hdt : P1.dist_type = P2.dist_type)
    (hmp : P1.minkowski_p = P2.minkowski_p)
    (hcd : P1.custom_dist = P2.custom_dist)
    (hmv : P1.minkowski_val = P2.minkowski_val) :
    ∀ a b dims, distInRange P1 a b dims = distInRange P2 a b dims := by
  intro a b dims
  unfold distInRange
  rw [hdt, heps, hmp, hcd, hmv]

theorem region_query_custom_params_congr (ps : List (Point α)) (i : Nat)
    (P1 P2 : Params α)
    (hd : ∀ a b dims, distInRange P1 a b dims = distInRange P2 a b dims) :
    cdbscan_region_query_custom ps i P1 = cdbscan_region_query_custom ps i P2
    := by
  unfold cdbscan_region_query_custom
  by_cases hc : i < ps.length
  · rw [if_pos hc, if_pos hc]
    exact List.filter_congr (fun j _ => hd ..)
  · rw [if_neg hc, if_neg hc]

theorem expandLoop_params_congr (q : List (Point α) → Nat → List Nat)
    (P1 P2 : Params α) (hm : P1.min_pts = P2.min_pts) (c : Int) :
    ∀ fuel pts seeds cursor,
      expandLoop q P1 c fuel pts seeds cursor =
        expandLoop q P2 c fuel pts seeds cursor := by
  intro fuel
  induction fuel with
  | zero => intro pts seeds cursor; rfl
  | succ fuel ih =>
      intro pts seeds cursor
      unfold expandLoop
      rw [hm]
      by_cases h1 : cursor < seeds.length
      · rw [if_pos h1, if_pos h1]
        by_cases h2 : P2.min_pts ≤ ((q pts (seeds.getD cursor 0)).length : Int)
        · rw [if_pos h2, if_pos h2, ih]
        · rw [if_neg h2, if_neg h2, ih]
      · rw [if_neg h1, if_neg h1]

theorem expandClusterGen_params_congr (q : List (Point α) → Nat → List Nat)
    (P1 P2 : Params α) (hm : P1.min_pts = P2.min_pts)
    (pts : List (Point α)) (point_idx : Nat) (c : Int) :
    expandClusterGen q P1 pts point_idx c =
      expandClusterGen q P2 pts point_idx c := by
  unfold expandClusterGen
  rw [hm]
  by_cases h1 : ((q pts point_idx).length : Int) < P2.min_pts
  · rw [if_pos h1, if_pos h1]
  · rw [if_neg h1, if_neg h1]
    simp only []
    rw [expandLoop_params_congr q P1 P2 hm]

theorem clusterStep_params_congr (tr : Option KdTreeT) (P1 P2 : Params α)
    (heps : P1.eps = P2.eps) (hm : P1.min_pts = P2.min_pts)
    (hd : ∀ a b dims, distInRange P1 a b dims = distInRange P2 a b dims) :
    ∀ st i, clusterStep tr P1 st i = clusterStep tr P2 st i := by
  intro st i
  have hrq : ∀ ps cur, cdbscan_region_query_custom (α := α) ps cur P1 =
      cdbscan_region_query_custom ps cur P2 :=
    fun ps cur => region_query_custom_params_congr ps cur P1 P2 hd
  unfold clusterStep
  by_cases h1 : labelOf st.2 i ≠ UNCLASSIFIED
  · rw [if_pos h1, if_pos h1]
  · rw [if_neg h1, if_neg h1]
    rcases tr with _ | t
    · simp only []
      rw [hrq st.2 i, hm]
      by_cases h2 : ((cdbscan_region_query_custom st.2 i P2).length : Int) <
          P2.min_pts
      · rw [if_pos h2, if_pos h2]
      · rw [if_neg h2, if_neg h2]
        unfold expand_cluster
        have hfq : (fun ps cur => cdbscan_region_query_custom (α := α) ps cur
            P1) = fun ps cur => cdbscan_region_query_custom ps cur P2 := by
          funext ps cur
          exact hrq ps cur
        rw [hfq, expandClusterGen_params_congr _ P1 P2 hm]
    · simp only []
      rw [heps, hm]
      by_cases h2 : ((kdtree_range_query t st.2 i P2.eps).length : Int) <
          P2.min_pts
      · rw [if_pos h2, if_pos h2]
      · rw [if_neg h2, if_neg h2]
        unfold expand_cluster_kdtree
        rw [heps, expandClusterGen_params_congr _ P1 P2 hm]

theorem clusterPrefix_params_congr (tr : Option KdTreeT) (P1 P2 : Params α)
    (heps : P1.eps = P2.eps) (hm : P1.min_pts = P2.min_pts)
    (hd : ∀ a b dims, distInRange P1 a b dims = distInRange P2 a b dims)
    (pts0 : List (Point α)) (k : Nat) :
    clusterPrefix tr P1 pts0 k = clusterPrefix tr P2 pts0 k := by
  induction k with
  | zero => rfl
  | succ k ih =>
      rw [clusterPrefix_succ, clusterPrefix_succ, ih,
        clusterStep_params_congr tr P1 P2 heps hm hd]

theorem region_query_custom_euclidean (ps : List (Point α)) (cur : Nat)
    (params : Params α) (hdt : params.dist_type = .euclidean) :
    cdbscan_region_query_custom ps cur params =
      cdbscan_region_query ps cur params.eps := by
  unfold cdbscan_region_query_custom cdbscan_region_query
  by_cases hc : cur < ps.length
  · rw [if_pos hc, if_pos hc]
    refine List.filter_congr (fun j _ => ?_)
    simp only [distInRange, hdt]
  · rw [if_neg hc, if_neg hc]

theorem validate_data_congr (pts pts' : List (Point α))
    (hlen : pts.length = pts'.length)
    (hdims : ∀ j, (pts.getD j default).dimensions =
      (pts'.getD j default).dimensions) :
    cdbscan_validate_data pts = cdbscan_validate_data pts' := by
  unfold cdbscan_validate_data
  rw [hlen, hdims 0]
  by_cases h0 : pts'.length = 0
  · rw [if_pos h0, if_pos h0]
  · rw [if_neg h0, if_neg h0]
    by_cases h1 : (pts'.getD 0 default).dimensions ≤ 0
    · rw [if_pos h1, if_pos h1]
    · rw [if_neg h1, if_neg h1]
      have hiff : (∀ p ∈ pts,
          p.dimensions = (pts'.getD 0 default).dimensions) ↔
          ∀ p ∈ pts', p.dimensions = (pts'.getD 0 default).dimensions := by
        constructor
        · intro h p hp
          obtain ⟨j, hj, rfl⟩ := List.mem_iff_getElem.mp hp
          have hj2 : j < pts.length := by omega
          have := h (pts.getD j default)
            (by rw [List.getD_eq_getElem _ _ hj2]; exact List.getElem_mem _)
          rw [hdims j, List.getD_eq_getElem _ _ hj] at this
          exact this
        · intro h p hp
          obtain ⟨j, hj, rfl⟩ := List.mem_iff_getElem.mp hp
          have hj2 : j < pts'.length := by omega
          have := h (pts'.getD j default)
            (by rw [List.getD_eq_getElem _ _ hj2]; exact List.getElem_mem _)
          rw [← hdims j, List.getD_eq_getElem _ _ hj] at this
          exact this
      by_cases h2 : ∀ p ∈ pts', p.dimensions = (pts'.getD 0 default).dimensions
      · rw [List.all_eq_true.mpr (fun p hp => decide_eq_true (hiff.mpr h2 p hp)),
          List.all_eq_true.mpr (fun p hp => decide_eq_true (h2 p hp))]
      · have h3 : ¬ ∀ p ∈ pts, p.dimensions = (pts'.getD 0 default).dimensions :=
          fun hc2 => h2 (hiff.mp hc2)
        rw [Bool.eq_iff_iff]
        constructor
        · intro hall
          exact absurd (fun p hp => of_decide_eq_true
            (List.all_eq_true.mp hall p hp)) h3
        · intro hall
          exact absurd (fun p hp => of_decide_eq_true
            (List.all_eq_true.mp hall p hp)) h2

theorem validate_data_initPoints (pts : List (Point α)) :
    cdbscan_validate_data (initPoints pts) = cdbscan_validate_data pts := by
  refine validate_data_congr _ _ (initPoints_length pts) ?_
  intro j
  by_cases hj : j < pts.length
  · rw [initPoints_getD pts j hj]
  · rw [List.getD_eq_default _ _ (by rw [initPoints_length]; omega),
      List.getD_eq_default _ _ (by omega)]

/-- Strategy equivalence at the whole-algorithm level: for the Euclidean
metric, the spatial-index run and the brute-force run of `cdbscan_cluster`
produce the same returned count and the same final point array, for every
input and allocation outcome. -/
theorem cluster_strategy_equiv (alloc : Bool) (points : List (Point α))
    (eps : α) (mp : Int) (pM : α)
    (cd : Option (List α → List α → Int → α))
    (mval : List α → List α → Int → α → α) :
    cdbscan_cluster alloc points ⟨eps, mp, .euclidean, pM, cd, true, mval⟩ =
      cdbscan_cluster alloc points ⟨eps, mp, .euclidean, pM, cd, false, mval⟩
    := by
  set p1 : Params α := ⟨eps, mp, .euclidean, pM, cd, true, mval⟩ with hp1
  set p2 : Params α := ⟨eps, mp, .euclidean, pM, cd, false, mval⟩ with hp2
  have hvp : cdbscan_validate_params p1 = cdbscan_validate_params p2 := rfl
  unfold cdbscan_cluster
  rw [hvp]
  by_cases h1 : cdbscan_validate_params p2 = true
  · rw [h1]
    simp only [Bool.not_true, Bool.false_eq_true, if_false]
    by_cases h2 : cdbscan_validate_data points = true
    · rw [h2]
      simp only [Bool.not_true, Bool.false_eq_true, if_false]
      by_cases h3 : alloc = true
      · subst h3
        simp only [Bool.not_true, Bool.false_eq_true, if_false]
        obtain ⟨hlen, hD, hdims⟩ := validate_data_spec h2
        set pts0 := initPoints points with hpts0
        have hval0 : cdbscan_validate_data pts0 = true := by
          rw [validate_data_initPoints]
          exact h2
        obtain ⟨hlen0, hD0, hdims0⟩ := validate_data_spec hval0
        have hlen0' : pts0.length = points.length := initPoints_length points
        obtain ⟨tr, htr, hperm, hgood, htdims, htnum⟩ :=
          kdtree_build_spec pts0 hlen0 hD0
        rw [if_pos (And.intro trivial trivial), if_neg (fun hc => hc.1), htr]
        have hq : ∀ ps cur, sameSkeleton pts0 ps → cur < pts0.length →
            kdtree_range_query tr ps cur p1.eps =
              cdbscan_region_query_custom ps cur p1 := by
          intro ps cur hsk hcur
          rw [← kdtree_range_query_congr hsk tr cur p1.eps,
            kdtree_query_eq_region_query pts0 hval0 tr htr cur hcur p1.eps,
            region_query_custom_euclidean ps cur p1 rfl]
          exact region_query_congr hsk cur p1.eps
        have hcongr := clusterPrefix_congr pts0 tr p1 hq points.length
          (by omega)
        rw [hcongr]
        exact clusterPrefix_params_congr none p1 p2 rfl rfl
          (distInRange_params_congr p1 p2 rfl rfl rfl rfl rfl) pts0
          points.length
      · have h3' : alloc = false := by
          rcases alloc with _ | _
          · rfl
          · exact absurd rfl h3
        subst h3'
        simp only [Bool.not_false, if_true]
    · have h2' : cdbscan_validate_data points = false := by
        rcases hb : cdbscan_validate_data points with _ | _
        · rfl
        · exact absurd hb h2
      rw [h2']
      simp only [Bool.not_false, if_true]
  · have h1' : cdbscan_validate_params p2 = false := by
      rcases hb : cdbscan_validate_params p2 with _ | _
      · rfl
      · exact absurd hb h1
    rw [h1']
    simp only [Bool.not_false, if_true]

/-! ### Facts about `cdbscan_estimate_eps` (claim C8) -/

theorem estimate_eps_none_iff (points : List (Point α)) (k : Int) :
    cdbscan_estimate_eps points k = none ↔
      (points.length = 0 ∨ k < 1 ∨ (points.length : Int) ≤ k) := by
  unfold cdbscan_estimate_eps
  by_cases h : points.length = 0 ∨ k ≤ 0 ∨ ((points.length : Int) ≤ k)
  · rw [if_pos h]
    simp only [true_iff]
    omega
  · rw [if_neg h]
    simp only [reduceCtorEq, false_iff]
    omega

theorem getD_nonneg_of_all {l : List α} (h : ∀ x ∈ l, 0 ≤ x) (i : Nat) :
    0 ≤ l.getD i 0 := by
  rw [List.getD_eq_getElem?_getD]
  cases he : l[i]? with
  | none => simp
  | some v =>
      simp only [Option.getD_some]
      exact h v (List.getElem?_mem he)

theorem getD_map_range {β : Type} (f : Nat → β) (d : β) (n i : Nat)
    (hi : i < n) : ((List.range n).map f).getD i d = f i := by
  rw [List.getD_eq_getElem _ _ (by simpa using hi)]
  simp

theorem estimate_eps_success (points : List (Point α)) (k : Int)
    (h1 : 0 < points.length) (h2 : 0 < k) (h3 : k < (points.length : Int)) :
    ∃ res : KdistResult α, cdbscan_estimate_eps points k = some res ∧
      res.k = k ∧ res.distances.length = points.length ∧
      (∀ i < points.length, ∃ L : List α, L.Sorted (· ≤ ·) ∧
        L.Perm (((List.range points.length).filter
          (fun j => decide (j ≠ i))).map
            (fun j => euclidRepr (points.getD i default).coords
              (points.getD j default).coords
              (points.getD i default).dimensions)) ∧
        res.distances.getD i 0 = L.getD (k.toNat - 1) 0) ∧
      (∃ S : List α, S.Sorted (· ≤ ·) ∧ S.Perm res.distances ∧
        res.suggested_eps = S.getD (19 * points.length / 20) 0) := by
  unfold cdbscan_estimate_eps
  rw [if_neg (by omega)]
  refine ⟨_, rfl, rfl, by simp, ?_, ?_⟩
  · intro i hi
    refine ⟨_, List.sorted_insertionSort _ _, List.perm_insertionSort _ _, ?_⟩
    simp only []
    rw [getD_map_range _ _ _ _ hi]
  · exact ⟨_, List.sorted_insertionSort _ _, List.perm_insertionSort _ _, rfl⟩

/-- With every point of positive dimensionality, all Euclidean
representations are genuine squared distances, hence nonnegative, and so is
the suggested radius. -/
theorem estimate_eps_suggested_nonneg (points : List (Point α)) (k : Int)
    (hdims : ∀ p ∈ points, 0 < p.dimensions) (res : KdistResult α)
    (hres : cdbscan_estimate_eps points k = some res) :
    0 ≤ res.suggested_eps := by
  unfold cdbscan_estimate_eps at hres
  by_cases hguard : points.length = 0 ∨ k ≤ 0 ∨ ((points.length : Int) ≤ k)
  · rw [if_pos hguard] at hres
    exact absurd hres (by simp)
  · rw [if_neg hguard] at hres
    have hres' := Option.some.inj hres
    subst hres'
    simp only []
    refine getD_nonneg_of_all ?_ _
    intro x hx
    have hx2 := (List.perm_insertionSort (· ≤ ·) _).mem_iff.mp hx
    obtain ⟨i, hi, rfl⟩ := List.mem_map.mp hx2
    have hi' : i < points.length := List.mem_range.mp hi
    refine getD_nonneg_of_all ?_ _
    intro y hy
    have hy2 := (List.perm_insertionSort (· ≤ ·) _).mem_iff.mp hy
    obtain ⟨j, _, rfl⟩ := List.mem_map.mp hy2
    refine euclidRepr_nonneg _ _ ?_
    refine hdims (points.getD i default) ?_
    rw [List.getD_eq_getElem _ _ hi']
    exact List.getElem_mem _

/-! ### Frame property of `cdbscan_cluster` (claim C9) -/

theorem cdbscan_cluster_frame_core (alloc : Bool) (points : List (Point α))
    (params : Params α) :
    (cdbscan_cluster alloc points params).2.length = points.length ∧
    (∀ j, ((cdbscan_cluster alloc points params).2.getD j default).coords =
        (points.getD j default).coords ∧
      ((cdbscan_cluster alloc points params).2.getD j default).dimensions =
        (points.getD j default).dimensions) ∧
    (cdbscan_validate_params params = true →
      cdbscan_validate_data points = true →
      ∀ j < points.length,
        ((cdbscan_cluster alloc points params).2.getD j default).index = j)
    := by
  unfold cdbscan_cluster
  by_cases h1 : cdbscan_validate_params params = true
  · rw [h1]
    simp only [Bool.not_true, Bool.false_eq_true, if_false]
    by_cases h2 : cdbscan_validate_data points = true
    · rw [h2]
      simp only [Bool.not_true, Bool.false_eq_true, if_false]
      have hinit := initPoints_fields points
      have hidx : ∀ j < points.length,
          ((initPoints points).getD j default).index = j := by
        intro j hj
        rw [initPoints_getD points j hj]
      by_cases h3 : alloc = true
      · subst h3
        simp only [Bool.not_true, Bool.false_eq_true, if_false]
        set tr := if params.use_kdtree ∧ params.dist_type = DistType.euclidean
          then kdtree_build (initPoints points) else none with htr
        have hsk := sameSkeleton_clusterPrefix tr params (initPoints points)
          points.length
        refine ⟨?_, ?_, ?_⟩
        · rw [← hsk.1, hinit.1]
        · intro j
          obtain ⟨hc, hd, _⟩ := hsk.2 j
          obtain ⟨hc0, hd0⟩ := hinit.2 j
          exact ⟨hc ▸ hc0, hd ▸ hd0⟩
        · intro _ _ j hj
          obtain ⟨_, _, hix⟩ := hsk.2 j
          rw [← hix]
          exact hidx j hj
      · have h3' : alloc = false := by
          rcases alloc with _ | _
          · rfl
          · exact absurd rfl h3
        subst h3'
        simp only [Bool.not_false, if_true]
        exact ⟨hinit.1, hinit.2, fun _ _ => hidx⟩
    · have h2' : cdbscan_validate_data points = false := by
        rcases hb : cdbscan_validate_data points with _ | _
        · rfl
        · exact absurd hb h2
      rw [h2']
      exact ⟨rfl, fun j => ⟨rfl, rfl⟩, fun _ hc => absurd hc (by simp [h2'])⟩
  · have h1' : cdbscan_validate_params params = false := by
      rcases hb : cdbscan_validate_params params with _ | _
      · rfl
      · exact absurd hb h1
    rw [h1']
    exact ⟨rfl, fun j => ⟨rfl, rfl⟩, fun hc => absurd hc (by simp [h1'])⟩

/-! ### Negative custom-metric values are silently excluded (claim C10) -/

theorem region_query_custom_excludes_negative (ps : List (Point α))
    (idx : Nat) (params : Params α) (f : List α → List α → Int → α)
    (hdt : params.dist_type = .custom) (hf : params.custom_dist = some f)
    (i : Nat)
    (hneg : f (ps.getD idx default).coords (ps.getD i default).coords
      (ps.getD idx default).dimensions < 0) :
    i ∉ cdbscan_region_query_custom ps idx params := by
  intro hmem
  unfold cdbscan_region_query_custom at hmem
  by_cases hidx : idx < ps.length
  · rw [if_pos hidx] at hmem
    have hfil := (List.mem_filter.mp hmem).2
    simp only [distInRange, hdt, hf] at hfil
    have := (decide_eq_true_iff).mp hfil
    exact absurd this.1 (not_le.mpr hneg)
  · rw [if_neg hidx] at hmem
    simp at hmem

theorem region_query_custom_all_negative (ps : List (Point α)) (idx : Nat)
    (params : Params α) (f : List α → List α → Int → α)
    (hdt : params.dist_type = .custom) (hf : params.custom_dist = some f)
    (hall : ∀ i < ps.length,
      f (ps.getD idx default).coords (ps.getD i default).coords
        (ps.getD idx default).dimensions < 0) :
    cdbscan_region_query_custom ps idx params = [] := by
  unfold cdbscan_region_query_custom
  by_cases hidx : idx < ps.length
  · rw [if_pos hidx]
    simp only []
    rw [List.filter_eq_nil_iff]
    intro i hi
    have hilt : i < ps.length := List.mem_range.mp hi
    simp only [distInRange, hdt, hf, decide_eq_true_eq]
    intro hc
    exact absurd hc.1 (not_le.mpr (hall i hilt))
  · rw [if_neg hidx]

theorem region_query_custom_null_metric (ps : List (Point α)) (idx : Nat)
    (params : Params α) (hdt : params.dist_type = .custom)
    (hnone : params.custom_dist = none) :
    cdbscan_region_query_custom ps idx params = [] := by
  unfold cdbscan_region_query_custom
  by_cases hidx : idx < ps.length
  · rw [if_pos hidx]
    simp only []
    rw [List.filter_eq_nil_iff]
    intro i _
    simp [distInRange, hdt, hnone]
  · rw [if_neg hidx]

/-! ### Seed-list bound invariants of the expansion loop (claim C7) -/

theorem processNeighbors_length (c : Int) (nbrs : List Nat)
    (pts : List (Point α)) (seeds : List Nat) :
    (processNeighbors c nbrs pts seeds).1.length = pts.length :=
  ((sameSkeleton_processNeighbors c nbrs pts seeds).1).symm

theorem labelFold_length (c : Int) (seeds : List Nat) :
    ∀ pts : List (Point α),
      (seeds.foldl (fun ps s => setLabel ps s c) pts).length = pts.length := by
  induction seeds with
  | nil => intro pts; rfl
  | cons a t ih =>
      intro pts
      rw [List.foldl_cons, ih, setLabel_length]

theorem labelFold_labelOf (c : Int) (seeds : List Nat) :
    ∀ (pts : List (Point α)) (s : Nat),
      labelOf (seeds.foldl (fun ps x => setLabel ps x c) pts) s = c ∨
      labelOf (seeds.foldl (fun ps x => setLabel ps x c) pts) s =
        labelOf pts s := by
  induction seeds with
  | nil => intro pts s; exact Or.inr rfl
  | cons a t ih =>
      intro pts s
      rw [List.foldl_cons]
      rcases ih (setLabel pts a c) s with h | h
      · exact Or.inl h
      · rw [h, labelOf_setLabel]
        by_cases hc : a = s ∧ s < pts.length
        · rw [if_pos hc]; exact Or.inl rfl
        · rw [if_neg hc]; exact Or.inr rfl

theorem labelFold_labelOf_mem (c : Int) (seeds : List Nat) :
    ∀ (pts : List (Point α)) (s : Nat), s ∈ seeds → s < pts.length →
      labelOf (seeds.foldl (fun ps x => setLabel ps x c) pts) s = c := by
  induction seeds with
  | nil => intro pts s hs; simp at hs
  | cons a t ih =>
      intro pts s hs hlen
      rw [List.foldl_cons]
      rcases List.mem_cons.mp hs with rfl | hmem
      · rcases labelFold_labelOf c t (setLabel pts s c) s with h | h
        · exact h
        · rw [h]
          exact labelOf_setLabel_self pts s c hlen
      · exact ih (setLabel pts a c) s hmem
          (by rw [setLabel_length]; exact hlen)

theorem nodup_bound_length {l : List Nat} {n : Nat} (hnd : l.Nodup)
    (hb : ∀ s ∈ l, s < n) : l.length ≤ n := by
  have h1 : l.toFinset.card = l.length := List.toFinset_card_of_nodup hnd
  have h2 : l.toFinset ⊆ Finset.range n := by
    intro x hx
    rw [Finset.mem_range]
    exact hb x (List.mem_toFinset.mp hx)
  have h3 := Finset.card_le_card h2
  rw [h1, Finset.card_range] at h3
  exact h3

/-- `removeFirstSwap` (overwrite the first occurrence with the last element,
then drop the last slot) is, up to order, exactly `List.erase`. -/
theorem removeFirstSwap_perm_erase (l : List Nat) (x : Nat) :
    (removeFirstSwap l x).Perm (l.erase x) := by
  unfold removeFirstSwap
  by_cases hx : x ∈ l
  · rw [if_pos hx]
    have hidx : l.indexOf x < l.length := List.indexOf_lt_length.mpr hx
    set i := l.indexOf x with hi
    set v := l.getLastD 0 with hv
    set m := l.set i v with hm
    have hmlen : m.length = l.length := by rw [hm, List.length_set]
    have hmne : m ≠ [] := by
      intro hc
      rw [hc] at hmlen
      simp only [List.length_nil] at hmlen
      omega
    have hvl : l[l.length - 1]? = some v := by
      rw [hv, List.getLastD_eq_getLast?, List.getLast?_eq_getElem?,
        List.getElem?_eq_getElem (by omega : l.length - 1 < l.length)]
      rfl
    have hlast : m.getLast hmne = v := by
      have h0 : m.getLast? = some (m.getLast hmne) :=
        List.getLast?_eq_getLast m hmne
      have h1 : m.getLast? = m[m.length - 1]? := List.getLast?_eq_getElem? m
      rw [hmlen] at h1
      have h2 : m[l.length - 1]? = some v := by
        rw [hm]
        by_cases hil : i = l.length - 1
        · rw [← hil]
          exact List.getElem?_set_self (by omega)
        · rw [List.getElem?_set_ne hil]
          exact hvl
      rw [h0, h2] at h1
      exact Option.some.inj h1
    rw [List.perm_iff_count]
    intro y
    have hsplit : m.dropLast ++ [m.getLast hmne] = m :=
      List.dropLast_append_getLast hmne
    have hcm : m.count y = m.dropLast.count y + (if v = y then 1 else 0) := by
      conv_lhs => rw [← hsplit]
      rw [List.count_append, hlast]
      by_cases hvy : v = y
      · rw [if_pos hvy, hvy]
        simp
      · rw [if_neg hvy]
        simp [List.count_singleton, hvy]
    have hcset : m.count y =
        (l.count y - (if x = y then 1 else 0)) + (if v = y then 1 else 0) := by
      rw [hm, List.count_set v y l i hidx]
      simp only [beq_iff_eq]
      rw [List.getElem_indexOf hidx]
    have herase : (l.erase x).count y =
        l.count y - (if x = y then 1 else 0) := by
      rw [List.count_erase]
      simp only [beq_iff_eq]
    have h1 : m.dropLast.count y + (if v = y then 1 else 0) =
        (l.count y - (if x = y then 1 else 0)) + (if v = y then 1 else 0) := by
      rw [← hcm, hcset]
    have h2 := Nat.add_right_cancel h1
    rw [h2, herase]
  · rw [if_neg hx, List.erase_of_not_mem hx]

theorem region_query_custom_nodup (ps : List (Point α)) (cur : Nat)
    (params : Params α) : (cdbscan_region_query_custom ps cur params).Nodup
    := by
  unfold cdbscan_region_query_custom
  by_cases hc : cur < ps.length
  · rw [if_pos hc]
    exact List.Nodup.filter _ (List.nodup_range ps.length)
  · rw [if_neg hc]
    exact List.nodup_nil

theorem region_query_custom_self_mem (ps : List (Point α)) (cur : Nat)
    (params : Params α) (hc : cur < ps.length)
    (hself : distInRange params (ps.getD cur default).coords
      (ps.getD cur default).coords (ps.getD cur default).dimensions = true) :
    cur ∈ cdbscan_region_query_custom ps cur params := by
  unfold cdbscan_region_query_custom
  rw [if_pos hc]
  exact List.mem_filter.mpr ⟨List.mem_range.mpr hc, hself⟩

/-- Invariant carried by the seed working list: no duplicates, in-bounds
indices, and every listed point already carries a label (so the
`UNCLASSIFIED` guard can never append it a second time). -/
def seedsInv (n : Nat) (pts : List (Point α)) (seeds : List Nat) : Prop :=
  seeds.Nodup ∧ ∀ s ∈ seeds, s < n ∧ labelOf pts s ≠ UNCLASSIFIED

theorem processNeighbors_inv (c : Int) (hc : 0 ≤ c) (n : Nat)
    (nbrs : List Nat) :
    ∀ (pts : List (Point α)) (seeds : List Nat),
      pts.length = n → (∀ x ∈ nbrs, x < n) → seedsInv n pts seeds →
      seedsInv n (processNeighbors c nbrs pts seeds).1
        (processNeighbors c nbrs pts seeds).2 := by
  induction nbrs with
  | nil => intro pts seeds _ _ hinv; exact hinv
  | cons nb rest ih =>
      intro pts seeds hlen hb hinv
      have hb' : ∀ x ∈ rest, x < n := fun x hx => hb x (List.mem_cons_of_mem _ hx)
      have hnb : nb < n := hb nb (List.mem_cons_self _ _)
      unfold processNeighbors
      by_cases hu : labelOf pts nb = UNCLASSIFIED
      · rw [if_pos hu]
        refine ih (setLabel pts nb c) (seeds ++ [nb])
          (by rw [setLabel_length]; exact hlen) hb' ?_
        have hnbnot : nb ∉ seeds := by
          intro hmem
          exact (hinv.2 nb hmem).2 hu
        constructor
        · rw [List.nodup_append]
          exact ⟨hinv.1, List.nodup_singleton nb,
            List.disjoint_singleton.mpr hnbnot⟩
        · intro s hs
          rcases List.mem_append.mp hs with hs1 | hs2
          · have h2 := hinv.2 s hs1
            have hsnb : nb ≠ s := fun h => hnbnot (h ▸ hs1)
            rw [labelOf_setLabel_ne pts nb s c hsnb]
            exact h2
          · have hs2' : s = nb := by simpa using hs2
            subst hs2'
            rw [labelOf_setLabel_self pts s c (by omega)]
            refine ⟨hnb, ?_⟩
            unfold UNCLASSIFIED
            omega
      · rw [if_neg hu]
        by_cases hns : labelOf pts nb = NOISE
        · rw [if_pos hns]
          refine ih (setLabel pts nb c) seeds
            (by rw [setLabel_length]; exact hlen) hb' ?_
          refine ⟨hinv.1, fun s hs => ?_⟩
          have h2 := hinv.2 s hs
          by_cases hsnb : nb = s
          · subst hsnb
            rw [labelOf_setLabel_self pts nb c (by omega)]
            refine ⟨h2.1, ?_⟩
            unfold UNCLASSIFIED
            omega
          · rw [labelOf_setLabel_ne pts nb s c hsnb]
            exact h2
        · rw [if_neg hns]
          exact ih pts seeds hlen hb' hinv

theorem expandLoop_inv (query : List (Point α) → Nat → List Nat)
    (params : Params α) (c : Int) (hc : 0 ≤ c) (n : Nat)
    (hquery : ∀ ps : List (Point α), ps.length = n →
      ∀ i : Nat, ∀ s ∈ query ps i, s < n) :
    ∀ fuel (pts : List (Point α)) (seeds : List Nat) (cursor : Nat),
      pts.length = n → seedsInv n pts seeds →
      (expandLoop query params c fuel pts seeds cursor).1.length = n ∧
      seedsInv n (expandLoop query params c fuel pts seeds cursor).1
        (expandLoop query params c fuel pts seeds cursor).2.1 := by
  intro fuel
  induction fuel with
  | zero => intro pts seeds cursor hlen hinv; exact ⟨hlen, hinv⟩
  | succ f ih =>
      intro pts seeds cursor hlen hinv
      unfold expandLoop
      by_cases hcur : cursor < seeds.length
      · rw [if_pos hcur]
        by_cases hcore :
            params.min_pts ≤ ((query pts (seeds.getD cursor 0)).length : Int)
        · rw [if_pos hcore]
          simp only []
          have hnb : ∀ x ∈ query pts (seeds.getD cursor 0), x < n :=
            hquery pts hlen (seeds.getD cursor 0)
          have hstep := processNeighbors_inv c hc n
            (query pts (seeds.getD cursor 0)) pts seeds hlen hnb hinv
          exact ih _ _ (cursor + 1)
            (by rw [processNeighbors_length]; exact hlen) hstep
        · rw [if_neg hcore]
          exact ih pts seeds (cursor + 1) hlen hinv
      · rw [if_neg hcur]
        exact ⟨hlen, hinv⟩

/-! ### Label evolution through the expansion machinery (claims C1, C4) -/

theorem processNeighbors_labels (c : Int) (nbrs : List Nat) :
    ∀ (pts : List (Point α)) (seeds : List Nat) (j : Nat),
      labelOf (processNeighbors c nbrs pts seeds).1 j = labelOf pts j ∨
      (labelOf (processNeighbors c nbrs pts seeds).1 j = c ∧
        (labelOf pts j = UNCLASSIFIED ∨ labelOf pts j = NOISE)) := by
  induction nbrs with
  | nil => intro pts seeds j; exact Or.inl rfl
  | cons nb rest ih =>
      intro pts seeds j
      unfold processNeighbors
      by_cases hu : labelOf pts nb = UNCLASSIFIED
      · rw [if_pos hu]
        rcases ih (setLabel pts nb c) (seeds ++ [nb]) j with h | ⟨h1, h2⟩
        · rw [h, labelOf_setLabel]
          by_cases hcnd : nb = j ∧ j < pts.length
          · rw [if_pos hcnd]
            exact Or.inr ⟨rfl, Or.inl (hcnd.1 ▸ hu)⟩
          · rw [if_neg hcnd]
            exact Or.inl rfl
        · rw [labelOf_setLabel] at h2
          by_cases hcnd : nb = j ∧ j < pts.length
          · exact Or.inr ⟨h1, Or.inl (hcnd.1 ▸ hu)⟩
          · rw [if_neg hcnd] at h2
            exact Or.inr ⟨h1, h2⟩
      · rw [if_neg hu]
        by_cases hns : labelOf pts nb = NOISE
        · rw [if_pos hns]
          rcases ih (setLabel pts nb c) seeds j with h | ⟨h1, h2⟩
          · rw [h, labelOf_setLabel]
            by_cases hcnd : nb = j ∧ j < pts.length
            · rw [if_pos hcnd]
              exact Or.inr ⟨rfl, Or.inr (hcnd.1 ▸ hns)⟩
            · rw [if_neg hcnd]
              exact Or.inl rfl
          · rw [labelOf_setLabel] at h2
            by_cases hcnd : nb = j ∧ j < pts.length
            · exact Or.inr ⟨h1, Or.inr (hcnd.1 ▸ hns)⟩
            · rw [if_neg hcnd] at h2
              exact Or.inr ⟨h1, h2⟩
        · rw [if_neg hns]
          exact ih pts seeds j

theorem expandLoop_labels (query : List (Point α) → Nat → List Nat)
    (params : Params α) (c : Int) :
    ∀ fuel (pts : List (Point α)) (seeds : List Nat) (cursor j : Nat),
      labelOf (expandLoop query params c fuel pts seeds cursor).1 j =
        labelOf pts j ∨
      (labelOf (expandLoop query params c fuel pts seeds cursor).1 j = c ∧
        (labelOf pts j = UNCLASSIFIED ∨ labelOf pts j = NOISE)) := by
  intro fuel
  induction fuel with
  | zero => intro pts seeds cursor j; exact Or.inl rfl
  | succ f ih =>
      intro pts seeds cursor j
      unfold expandLoop
      by_cases hcur : cursor < seeds.length
      · rw [if_pos hcur]
        by_cases hcore :
            params.min_pts ≤ ((query pts (seeds.getD cursor 0)).length : Int)
        · rw [if_pos hcore]
          simp only []
          rcases ih (processNeighbors c (query pts (seeds.getD cursor 0)) pts
              seeds).1 (processNeighbors c (query pts (seeds.getD cursor 0))
              pts seeds).2 (cursor + 1) j with h | ⟨h1, h2⟩
          · rw [h]
            exact processNeighbors_labels c _ pts seeds j
          · refine Or.inr ⟨h1, ?_⟩
            rcases processNeighbors_labels c
                (query pts (seeds.getD cursor 0)) pts seeds j with h3 | ⟨_, h4⟩
            · rw [h3] at h2
              exact h2
            · exact h4
        · rw [if_neg hcore]
          exact ih pts seeds (cursor + 1) j
      · rw [if_neg hcur]
        exact Or.inl rfl

theorem expandClusterGen_labels (query : List (Point α) → Nat → List Nat)
    (params : Params α) (pts : List (Point α)) (point_idx : Nat) (c : Int)
    (j : Nat) :
    labelOf (expandClusterGen query params pts point_idx c).2 j =
      labelOf pts j ∨
    labelOf (expandClusterGen query params pts point_idx c).2 j = c ∨
    (j = point_idx ∧
      labelOf (expandClusterGen query params pts point_idx c).2 j = NOISE) := by
  unfold expandClusterGen
  by_cases hfail : ((query pts point_idx).length : Int) < params.min_pts
  · rw [if_pos hfail]
    simp only []
    rw [labelOf_setLabel]
    by_cases hcnd : point_idx = j ∧ j < pts.length
    · rw [if_pos hcnd]
      exact Or.inr (Or.inr ⟨hcnd.1.symm, rfl⟩)
    · rw [if_neg hcnd]
      exact Or.inl rfl
  · rw [if_neg hfail]
    simp only []
    rcases expandLoop_labels query params c (2 * pts.length + 1)
        ((query pts point_idx).foldl (fun ps s => setLabel ps s c) pts)
        (removeFirstSwap (query pts point_idx) point_idx) 0 j
        with h | ⟨h1, _⟩
    · rw [h]
      rcases labelFold_labelOf c (query pts point_idx) pts j with h2 | h2
      · exact Or.inr (Or.inl h2)
      · exact Or.inl h2
    · exact Or.inr (Or.inl h1)

theorem expandClusterGen_false (query : List (Point α) → Nat → List Nat)
    (params : Params α) (pts : List (Point α)) (point_idx : Nat) (c : Int)
    (h : (expandClusterGen query params pts point_idx c).1 = false) :
    (expandClusterGen query params pts point_idx c).2 =
      setLabel pts point_idx NOISE := by
  unfold expandClusterGen at h ⊢
  by_cases hf : ((query pts point_idx).length : Int) < params.min_pts
  · rw [if_pos hf]
  · rw [if_neg hf] at h
    simp at h

theorem clusterStep_labels (tree : Option KdTreeT) (params : Params α)
    (st : Int × List (Point α)) (i : Nat) (j : Nat) :
    labelOf (clusterStep tree params st i).2 j = labelOf st.2 j ∨
    labelOf (clusterStep tree params st i).2 j = st.1 ∨
    (j = i ∧ labelOf st.2 i = UNCLASSIFIED ∧
      labelOf (clusterStep tree params st i).2 j = NOISE) := by
  unfold clusterStep
  by_cases h1 : labelOf st.2 i ≠ UNCLASSIFIED
  · rw [if_pos h1]
    exact Or.inl rfl
  · rw [if_neg h1]
    push_neg at h1
    rcases tree with _ | t
    · simp only []
      by_cases h2 : ((cdbscan_region_query_custom st.2 i params).length : Int)
          < params.min_pts
      · rw [if_pos h2]
        simp only []
        rw [labelOf_setLabel]
        by_cases hcnd : i = j ∧ j < st.2.length
        · rw [if_pos hcnd]
          exact Or.inr (Or.inr ⟨hcnd.1.symm, h1, rfl⟩)
        · rw [if_neg hcnd]
          exact Or.inl rfl
      · rw [if_neg h2]
        simp only []
        rcases expandClusterGen_labels
            (fun ps cur => cdbscan_region_query_custom ps cur params) params
            st.2 i st.1 j with h | h | ⟨hji, hn⟩
        · exact Or.inl h
        · exact Or.inr (Or.inl h)
        · exact Or.inr (Or.inr ⟨hji, h1, hn⟩)
    · simp only []
      by_cases h2 : ((kdtree_range_query t st.2 i params.eps).length : Int)
          < params.min_pts
      · rw [if_pos h2]
        simp only []
        rw [labelOf_setLabel]
        by_cases hcnd : i = j ∧ j < st.2.length
        · rw [if_pos hcnd]
          exact Or.inr (Or.inr ⟨hcnd.1.symm, h1, rfl⟩)
        · rw [if_neg hcnd]
          exact Or.inl rfl
      · rw [if_neg h2]
        simp only []
        rcases expandClusterGen_labels
            (fun ps cur => kdtree_range_query t ps cur params.eps) params
            st.2 i st.1 j with h | h | ⟨hji, hn⟩
        · exact Or.inl h
        · exact Or.inr (Or.inl h)
        · exact Or.inr (Or.inr ⟨hji, h1, hn⟩)

/-- Invariant of the main clustering loop: the running cluster id is
non-negative, the array keeps its length, and every label is
`UNCLASSIFIED`, `NOISE`, or an already-assigned id below the running id. -/
def mainInvA (n : Nat) (st : Int × List (Point α)) : Prop :=
  0 ≤ st.1 ∧ st.2.length = n ∧
  ∀ j < n, labelOf st.2 j = UNCLASSIFIED ∨ labelOf st.2 j = NOISE ∨
    (0 ≤ labelOf st.2 j ∧ labelOf st.2 j < st.1)

theorem clusterStep_invA (tree : Option KdTreeT) (params : Params α)
    (n : Nat) (st : Int × List (Point α)) (i : Nat) (h : mainInvA n st) :
    mainInvA n (clusterStep tree params st i) ∧
      st.1 ≤ (clusterStep tree params st i).1 ∧
      (clusterStep tree params st i).1 ≤ st.1 + 1 := by
  obtain ⟨hid, hlen, hlab⟩ := h
  have hsk := sameSkeleton_clusterStep tree params st i
  have hlen' : (clusterStep tree params st i).2.length = n := by
    rw [← hsk.1]; exact hlen
  unfold clusterStep
  by_cases h1 : labelOf st.2 i ≠ UNCLASSIFIED
  · rw [if_pos h1]
    exact ⟨⟨hid, hlen, hlab⟩, le_refl _, by omega⟩
  · rw [if_neg h1]
    push_neg at h1
    rcases tree with _ | t
    · simp only []
      by_cases h2 : ((cdbscan_region_query_custom st.2 i params).length : Int)
          < params.min_pts
      · rw [if_pos h2]
        refine ⟨⟨hid, by rw [setLabel_length]; exact hlen, fun j hj => ?_⟩,
          le_refl _, by omega⟩
        rw [labelOf_setLabel]
        by_cases hcnd : i = j ∧ j < st.2.length
        · rw [if_pos hcnd]
          unfold NOISE
          exact Or.inr (Or.inl rfl)
        · rw [if_neg hcnd]
          exact hlab j hj
      · rw [if_neg h2]
        simp only []
        unfold expand_cluster
        set r := expandClusterGen
          (fun ps cur => cdbscan_region_query_custom ps cur params) params
          st.2 i st.1 with hr
        have hrlab : ∀ j, labelOf r.2 j = labelOf st.2 j ∨
            labelOf r.2 j = st.1 ∨ (j = i ∧ labelOf r.2 j = NOISE) := by
          intro j
          rw [hr]
          exact expandClusterGen_labels _ params st.2 i st.1 j
        have hrlen : r.2.length = n := by
          rw [hr, ← (sameSkeleton_expandClusterGen
            (fun ps cur => cdbscan_region_query_custom ps cur params)
            params st.2 i st.1).1]
          exact hlen
        by_cases hb : r.1 = true
        · rw [if_pos hb]
          refine ⟨⟨by omega, hrlen, fun j hj => ?_⟩, by omega, by omega⟩
          rcases hrlab j with h3 | h3 | ⟨_, h3⟩
          · rw [h3]
            rcases hlab j hj with h4 | h4 | h4
            · exact Or.inl h4
            · exact Or.inr (Or.inl h4)
            · exact Or.inr (Or.inr ⟨h4.1, by omega⟩)
          · rw [h3]
            exact Or.inr (Or.inr ⟨hid, by omega⟩)
          · rw [h3]
            exact Or.inr (Or.inl rfl)
        · have hb' : r.1 = false := by
            rcases hbv : r.1 with _ | _
            · rfl
            · exact absurd hbv hb
          rw [if_neg hb]
          have hr2 : r.2 = setLabel st.2 i NOISE := by
            rw [hr]
            exact expandClusterGen_false
              (fun ps cur => cdbscan_region_query_custom ps cur params)
              params st.2 i st.1 (by rw [← hr]; exact hb')
          refine ⟨⟨hid, hrlen, fun j hj => ?_⟩, le_refl _, by omega⟩
          rw [hr2, labelOf_setLabel]
          by_cases hcnd : i = j ∧ j < st.2.length
          · rw [if_pos hcnd]
            unfold NOISE
            exact Or.inr (Or.inl rfl)
          · rw [if_neg hcnd]
            exact hlab j hj
    · simp only []
      by_cases h2 : ((kdtree_range_query t st.2 i params.eps).length : Int)
          < params.min_pts
      · rw [if_pos h2]
        refine ⟨⟨hid, by rw [setLabel_length]; exact hlen, fun j hj => ?_⟩,
          le_refl _, by omega⟩
        rw [labelOf_setLabel]
        by_cases hcnd : i = j ∧ j < st.2.length
        · rw [if_pos hcnd]
          unfold NOISE
          exact Or.inr (Or.inl rfl)
        · rw [if_neg hcnd]
          exact hlab j hj
      · rw [if_neg h2]
        simp only []
        unfold expand_cluster_kdtree
        set r := expandClusterGen
          (fun ps cur => kdtree_range_query t ps cur params.eps) params
          st.2 i st.1 with hr
        have hrlab : ∀ j, labelOf r.2 j = labelOf st.2 j ∨
            labelOf r.2 j = st.1 ∨ (j = i ∧ labelOf r.2 j = NOISE) := by
          intro j
          rw [hr]
          exact expandClusterGen_labels _ params st.2 i st.1 j
        have hrlen : r.2.length = n := by
          rw [hr, ← (sameSkeleton_expandClusterGen
            (fun ps cur => kdtree_range_query t ps cur params.eps)
            params st.2 i st.1).1]
          exact hlen
        by_cases hb : r.1 = true
        · rw [if_pos hb]
          refine ⟨⟨by omega, hrlen, fun j hj => ?_⟩, by omega, by omega⟩
          rcases hrlab j with h3 | h3 | ⟨_, h3⟩
          · rw [h3]
            rcases hlab j hj with h4 | h4 | h4
            · exact Or.inl h4
            · exact Or.inr (Or.inl h4)
            · exact Or.inr (Or.inr ⟨h4.1, by omega⟩)
          · rw [h3]
            exact Or.inr (Or.inr ⟨hid, by omega⟩)
          · rw [h3]
            exact Or.inr (Or.inl rfl)
        · have hb' : r.1 = false := by
            rcases hbv : r.1 with _ | _
            · rfl
            · exact absurd hbv hb
          rw [if_neg hb]
          have hr2 : r.2 = setLabel st.2 i NOISE := by
            rw [hr]
            exact expandClusterGen_false
              (fun ps cur => kdtree_range_query t ps cur params.eps)
              params st.2 i st.1 (by rw [← hr]; exact hb')
          refine ⟨⟨hid, hrlen, fun j hj => ?_⟩, le_refl _, by omega⟩
          rw [hr2, labelOf_setLabel]
          by_cases hcnd : i = j ∧ j < st.2.length
          · rw [if_pos hcnd]
            unfold NOISE
            exact Or.inr (Or.inl rfl)
          · rw [if_neg hcnd]
            exact hlab j hj

theorem clusterPrefix_invA (tree : Option KdTreeT) (params : Params α)
    (points : List (Point α)) :
    ∀ k, mainInvA points.length
      (clusterPrefix tree params (initPoints points) k) := by
  intro k
  induction k with
  | zero =>
      refine ⟨le_refl _, by simp [clusterPrefix, initPoints_length],
        fun j hj => ?_⟩
      simp only [clusterPrefix, List.range_zero, List.foldl_nil]
      rw [labelOf, initPoints_getD points j hj]
      exact Or.inl rfl
  | succ k ih =>
      rw [clusterPrefix_succ]
      exact (clusterStep_invA tree params points.length _ k ih).1

/-! ### No point stays `UNCLASSIFIED` after a successful run (claim C4) -/

theorem expand_cluster_origin_labeled (params : Params α)
    (pts : List (Point α)) (point_idx : Nat) (c : Int) (hc : 0 ≤ c)
    (hidx : point_idx < pts.length)
    (hmem : point_idx ∈ cdbscan_region_query_custom pts point_idx params)
    (hcore : ¬ ((cdbscan_region_query_custom pts point_idx params).length :
      Int) < params.min_pts) :
    labelOf (expand_cluster pts point_idx c params).2 point_idx ≠
      UNCLASSIFIED := by
  unfold expand_cluster expandClusterGen
  rw [if_neg hcore]
  simp only []
  have hlab1 : labelOf
      ((cdbscan_region_query_custom pts point_idx params).foldl
        (fun ps s => setLabel ps s c) pts) point_idx = c :=
    labelFold_labelOf_mem c _ pts point_idx hmem hidx
  rcases expandLoop_labels
      (fun ps cur => cdbscan_region_query_custom ps cur params) params c
      (2 * pts.length + 1)
      ((cdbscan_region_query_custom pts point_idx params).foldl
        (fun ps s => setLabel ps s c) pts)
      (removeFirstSwap (cdbscan_region_query_custom pts point_idx params)
        point_idx) 0 point_idx with h | ⟨h1, _⟩
  · rw [h, hlab1]
    unfold UNCLASSIFIED
    omega
  · rw [h1]
    unfold UNCLASSIFIED
    omega

theorem clusterPrefix_no_unclassified (params : Params α)
    (points : List (Point α))
    (hself : ∀ i < points.length, distInRange params
      (points.getD i default).coords (points.getD i default).coords
      (points.getD i default).dimensions = true) :
    ∀ k j, j < k → j < points.length →
      labelOf (clusterPrefix none params (initPoints points) k).2 j ≠
        UNCLASSIFIED := by
  intro k
  induction k with
  | zero => intro j hj _; omega
  | succ k ih =>
      intro j hjk hjn
      rw [clusterPrefix_succ]
      set st := clusterPrefix none params (initPoints points) k with hst
      have hinv := clusterPrefix_invA none params points k
      rw [← hst] at hinv
      obtain ⟨hid, hlen, _⟩ := hinv
      by_cases hjk' : j < k
      · have hold := ih j hjk' hjn
        rcases clusterStep_labels none params st k j with h | h | ⟨_, _, h⟩
        · rw [h]; exact hold
        · rw [h]
          unfold UNCLASSIFIED
          omega
        · rw [h]
          unfold NOISE UNCLASSIFIED
          omega
      · have hjeq : j = k := by omega
        subst hjeq
        by_cases hu : labelOf st.2 j = UNCLASSIFIED
        · unfold clusterStep
          rw [if_neg (not_not.mpr hu)]
          simp only []
          by_cases h2 : ((cdbscan_region_query_custom st.2 j params).length :
              Int) < params.min_pts
          · rw [if_pos h2]
            simp only []
            rw [labelOf_setLabel_self st.2 j NOISE (by omega)]
            unfold NOISE UNCLASSIFIED
            omega
          · rw [if_neg h2]
            simp only []
            have hjlen : j < st.2.length := by omega
            have hcoords : (st.2.getD j default).coords =
                (points.getD j default).coords := by
              have h1 := (sameSkeleton_clusterPrefix none params
                (initPoints points) j).2 j
              have h2' := (initPoints_fields points).2 j
              rw [← hst] at h1
              rw [← h1.1, h2'.1]
            have hdims : (st.2.getD j default).dimensions =
                (points.getD j default).dimensions := by
              have h1 := (sameSkeleton_clusterPrefix none params
                (initPoints points) j).2 j
              have h2' := (initPoints_fields points).2 j
              rw [← hst] at h1
              rw [← h1.2.1, h2'.2]
            have hselfst : distInRange params (st.2.getD j default).coords
                (st.2.getD j default).coords
                (st.2.getD j default).dimensions = true := by
              rw [hcoords, hdims]
              exact hself j hjn
            exact expand_cluster_origin_labeled params st.2 j st.1 hid hjlen
              (region_query_custom_self_mem st.2 j params hjlen hselfst) h2
        · unfold clusterStep
          rw [if_pos hu]
          exact hu

theorem clusterPrefix_final_labels (params : Params α)
    (points : List (Point α))
    (hself : ∀ i < points.length, distInRange params
      (points.getD i default).coords (points.getD i default).coords
      (points.getD i default).dimensions = true) (j : Nat)
    (hj : j < points.length) :
    labelOf (clusterPrefix none params (initPoints points)
        points.length).2 j = NOISE ∨
    (0 ≤ labelOf (clusterPrefix none params (initPoints points)
        points.length).2 j ∧
      labelOf (clusterPrefix none params (initPoints points)
        points.length).2 j <
      (clusterPrefix none params (initPoints points) points.length).1) := by
  have hinv := clusterPrefix_invA none params points points.length
  have hnu := clusterPrefix_no_unclassified params points hself
    points.length j hj hj
  rcases hinv.2.2 j hj with h | h | h
  · exact absurd h hnu
  · exact Or.inl h
  · exact Or.inr h

theorem cdbscan_cluster_run_eq (alloc : Bool) (points : List (Point α))
    (params : Params α) (hv1 : cdbscan_validate_params params = true)
    (hv2 : cdbscan_validate_data points = true) (ha : alloc = true)
    (hnkd : ¬(params.use_kdtree = true ∧
      params.dist_type = DistType.euclidean)) :
    cdbscan_cluster alloc points params =
      clusterPrefix none params (initPoints points) points.length := by
  unfold cdbscan_cluster
  rw [hv1, hv2, ha]
  simp only [Bool.not_true, Bool.false_eq_true, if_false]
  rw [if_neg hnkd]

/-! ### Per-step label transitions of the main loop (claim C1) -/

theorem clusterPrefix_transition (tree : Option KdTreeT) (params : Params α)
    (points : List (Point α)) (k j : Nat) (hj : j < points.length) :
    labelOf (clusterPrefix tree params (initPoints points) (k + 1)).2 j =
      labelOf (clusterPrefix tree params (initPoints points) k).2 j ∨
    (labelOf (clusterPrefix tree params (initPoints points) k).2 j =
        UNCLASSIFIED ∧
      (labelOf (clusterPrefix tree params (initPoints points) (k + 1)).2 j =
          NOISE ∨
        0 ≤ labelOf (clusterPrefix tree params (initPoints points)
          (k + 1)).2 j)) ∨
    (labelOf (clusterPrefix tree params (initPoints points) k).2 j = NOISE ∧
      0 ≤ labelOf (clusterPrefix tree params (initPoints points)
        (k + 1)).2 j) ∨
    (0 ≤ labelOf (clusterPrefix tree params (initPoints points) k).2 j ∧
      labelOf (clusterPrefix tree params (initPoints points) k).2 j <
        labelOf (clusterPrefix tree params (initPoints points) (k + 1)).2 j)
    := by
  have hinv := clusterPrefix_invA tree params points k
  rw [clusterPrefix_succ]
  set st := clusterPrefix tree params (initPoints points) k with hst
  obtain ⟨hid, hlen, hlab⟩ := hinv
  rcases clusterStep_labels tree params st k j with h | h | ⟨hji, hu, h⟩
  · exact Or.inl h
  · rw [h]
    rcases hlab j hj with h4 | h4 | h4
    · exact Or.inr (Or.inl ⟨h4, Or.inr hid⟩)
    · exact Or.inr (Or.inr (Or.inl ⟨h4, hid⟩))
    · exact Or.inr (Or.inr (Or.inr ⟨h4.1, by omega⟩))
  · subst hji
    rw [h]
    exact Or.inr (Or.inl ⟨hu, Or.inl rfl⟩)

/-! ### The seed working list never exceeds the point count (claim C7) -/

theorem expandClusterGen_seeds_bound
    (query : List (Point α) → Nat → List Nat) (params : Params α)
    (pts : List (Point α)) (point_idx : Nat) (c : Int) (hc : 0 ≤ c)
    (fuel : Nat) (hqnodup : (query pts point_idx).Nodup)
    (hqbound : ∀ ps : List (Point α), ps.length = pts.length →
      ∀ i : Nat, ∀ s ∈ query ps i, s < pts.length) :
    ((expandLoop query params c fuel
        ((query pts point_idx).foldl (fun ps s => setLabel ps s c) pts)
        (removeFirstSwap (query pts point_idx) point_idx) 0).2.1).Nodup ∧
    ((expandLoop query params c fuel
        ((query pts point_idx).foldl (fun ps s => setLabel ps s c) pts)
        (removeFirstSwap (query pts point_idx) point_idx) 0).2.1).length ≤
      pts.length := by
  have hlen1 : ((query pts point_idx).foldl
      (fun ps s => setLabel ps s c) pts).length = pts.length :=
    labelFold_length c (query pts point_idx) pts
  have hnd1 : (removeFirstSwap (query pts point_idx) point_idx).Nodup :=
    (removeFirstSwap_perm_erase (query pts point_idx) point_idx).nodup_iff.mpr
      (List.Nodup.erase point_idx hqnodup)
  have hinv1 : seedsInv pts.length
      ((query pts point_idx).foldl (fun ps s => setLabel ps s c) pts)
      (removeFirstSwap (query pts point_idx) point_idx) := by
    refine ⟨hnd1, fun s hs => ?_⟩
    have hs0 : s ∈ query pts point_idx := removeFirstSwap_subset hs
    have hsn : s < pts.length := hqbound pts rfl point_idx s hs0
    refine ⟨hsn, ?_⟩
    rw [labelFold_labelOf_mem c (query pts point_idx) pts s hs0 hsn]
    unfold UNCLASSIFIED
    omega
  have hres := expandLoop_inv query params c hc pts.length hqbound fuel
    ((query pts point_idx).foldl (fun ps s => setLabel ps s c) pts)
    (removeFirstSwap (query pts point_idx) point_idx) 0 hlen1 hinv1
  exact ⟨hres.2.1, nodup_bound_length hres.2.1 (fun s hs =>
    (hres.2.2 s hs).1)⟩

theorem kdtree_range_query_mem_indices (tree : KdTreeT)
    (ps : List (Point α)) (q : Nat) (eps : α) (x : Nat)
    (hx : x ∈ kdtree_range_query tree ps q eps) : x ∈ tree.root.indices := by
  unfold kdtree_range_query at hx
  by_cases hr : tree.root = .leaf
  · rw [if_pos hr] at hx
    simp at hx
  · rw [if_neg hr] at hx
    have hperm := List.perm_insertionSort (· ≤ ·)
      (kdtree_range_query_recursive (ps.getD q default).coords eps ps
        tree.dimensions tree.root)
    have hx2 := hperm.mem_iff.mp hx
    exact (range_query_recursive_sound (ps.getD q default).coords eps ps
      tree.dimensions tree.root x hx2).1

theorem kdtree_range_query_nodup_of (tree : KdTreeT)
    (ps : List (Point α)) (q : Nat) (eps : α)
    (hnd : tree.root.indices.Nodup) :
    (kdtree_range_query tree ps q eps).Nodup := by
  unfold kdtree_range_query
  by_cases hr : tree.root = .leaf
  · rw [if_pos hr]
    exact List.nodup_nil
  · rw [if_neg hr]
    have hperm := List.perm_insertionSort (· ≤ ·)
      (kdtree_range_query_recursive (ps.getD q default).coords eps ps
        tree.dimensions tree.root)
    exact hperm.nodup_iff.mpr
      (range_query_recursive_nodup (ps.getD q default).coords eps ps
        tree.dimensions tree.root hnd)

/-! ### Density reachability and the maximality machinery (claim C5)

The reference geometry is the caller's array `points`; every state of the
engine agrees with it on `coords` and `dimensions` (`sameGeom`), so all
neighborhood queries during a run coincide with queries on `points`. -/

/-- Agreement on length, coordinates and dimensions (the fields the
neighborhood queries read). -/
def sameGeom (points pts : List (Point α)) : Prop :=
  pts.length = points.length ∧
  ∀ j, (pts.getD j default).coords = (points.getD j default).coords ∧
    (pts.getD j default).dimensions = (points.getD j default).dimensions

/-- A core point in the DBSCAN sense, phrased through the program's own
neighborhood query (which includes the point itself when the metric
reports it within `eps` of itself). -/
def isCorePt (points : List (Point α)) (params : Params α) (i : Nat) :
    Prop :=
  params.min_pts ≤ ((cdbscan_region_query_custom points i params).length :
    Int)

instance (points : List (Point α)) (params : Params α) (i : Nat) :
    Decidable (isCorePt points params i) :=
  inferInstanceAs (Decidable (_ ≤ _))

/-- Density reachability: a chain of core points, each directly within
`eps` of the next, leading from `p` to `q` (the spec's definition, with
neighborhoods computed by the program's query). -/
inductive DensityReachable (points : List (Point α)) (params : Params α) :
    Nat → Nat → Prop
  | refl (p : Nat) : DensityReachable points params p p
  | step (p q r : Nat) : DensityReachable points params p q →
      isCorePt points params q →
      r ∈ cdbscan_region_query_custom points q params →
      DensityReachable points params p r

theorem sameGeom_refl (points : List (Point α)) : sameGeom points points :=
  ⟨rfl, fun _ => ⟨rfl, rfl⟩⟩

theorem sameGeom_trans {points pts pts' : List (Point α)}
    (h1 : sameGeom points pts) (h2 : sameSkeleton pts pts') :
    sameGeom points pts' := by
  refine ⟨h2.1 ▸ h1.1, fun j => ?_⟩
  obtain ⟨hc, hd, _⟩ := h2.2 j
  obtain ⟨hc0, hd0⟩ := h1.2 j
  exact ⟨hc ▸ hc0, hd ▸ hd0⟩

theorem sameGeom_initPoints (points : List (Point α)) :
    sameGeom points (initPoints points) := by
  obtain ⟨hl, h2⟩ := initPoints_fields points
  exact ⟨hl, fun j => ⟨(h2 j).1, (h2 j).2⟩⟩

theorem region_query_custom_geom_congr {points pts : List (Point α)}
    (h : sameGeom points pts) (i : Nat) (params : Params α) :
    cdbscan_region_query_custom pts i params =
      cdbscan_region_query_custom points i params := by
  unfold cdbscan_region_query_custom
  rw [h.1]
  by_cases hi : i < points.length
  · rw [if_pos hi, if_pos hi]
    refine List.filter_congr (fun j _ => ?_)
    rw [(h.2 i).1, (h.2 i).2, (h.2 j).1]
  · rw [if_neg hi, if_neg hi]

/-- Membership in a neighborhood forces the query index in bounds (an
out-of-range query returns the empty list). -/
theorem region_query_custom_mem_lt (points : List (Point α))
    (params : Params α) {q r : Nat}
    (h : r ∈ cdbscan_region_query_custom points q params) :
    q < points.length := by
  by_contra hq
  unfold cdbscan_region_query_custom at h
  rw [if_neg hq] at h
  simp at h

/-! ### Loop progress: the expansion loop exhausts its seed list -/

/-- Number of points still labelled `UNCLASSIFIED`. -/
def unclCount (pts : List (Point α)) : Nat :=
  pts.countP (fun p => decide (p.cluster_id = UNCLASSIFIED))

theorem labelOf_oob (pts : List (Point α)) (i : Nat)
    (h : pts.length ≤ i) : labelOf pts i = 0 := by
  unfold labelOf
  rw [List.getD_eq_default _ _ h]
  rfl

theorem unclCount_setLabel_decr (pts : List (Point α)) (nb : Nat) (c : Int)
    (hnb : nb < pts.length) (hu : labelOf pts nb = UNCLASSIFIED)
    (hc : c ≠ UNCLASSIFIED) :
    unclCount (setLabel pts nb c) + 1 = unclCount pts := by
  unfold unclCount setLabel
  rw [List.countP_set _ _ _ _ hnb]
  have h1 : (pts[nb]).cluster_id = UNCLASSIFIED := by
    have h0 := hu
    unfold labelOf at h0
    rw [List.getD_eq_getElem _ _ hnb] at h0
    exact h0
  have hpos : 0 < pts.countP (fun p => decide (p.cluster_id = UNCLASSIFIED))
      := List.countP_pos_iff.mpr ⟨pts[nb], List.getElem_mem hnb,
        by simp [h1]⟩
  have e1 : (decide ((pts[nb]).cluster_id = UNCLASSIFIED)) = true := by
    rw [h1]
    simp
  have e2 : (decide (c = UNCLASSIFIED)) = false := by
    simp [hc]
  simp only [e1, e2, eq_self_iff_true, if_true, Bool.false_eq_true, if_false]
  omega

theorem unclCount_setLabel_eq (pts : List (Point α)) (nb : Nat) (c : Int)
    (hnu : labelOf pts nb ≠ UNCLASSIFIED) (hc : c ≠ UNCLASSIFIED) :
    unclCount (setLabel pts nb c) = unclCount pts := by
  by_cases hnb : nb < pts.length
  · unfold unclCount setLabel
    rw [List.countP_set _ _ _ _ hnb]
    have h1 : ¬(pts[nb]).cluster_id = UNCLASSIFIED := by
      intro hcon
      refine hnu ?_
      unfold labelOf
      rw [List.getD_eq_getElem _ _ hnb]
      exact hcon
    have e1 : (decide ((pts[nb]).cluster_id = UNCLASSIFIED)) = false := by
      simp [h1]
    have e2 : (decide (c = UNCLASSIFIED)) = false := by
      simp [hc]
    rw [e1, e2]
    simp
  · unfold unclCount setLabel
    rw [List.set_eq_of_length_le (by omega)]

theorem processNeighbors_measure (c : Int) (hc : 0 ≤ c) (nbrs : List Nat) :
    ∀ (pts : List (Point α)) (seeds : List Nat),
      (processNeighbors c nbrs pts seeds).2.length +
        unclCount (processNeighbors c nbrs pts seeds).1 =
      seeds.length + unclCount pts := by
  induction nbrs with
  | nil => intro pts seeds; rfl
  | cons nb rest ih =>
      intro pts seeds
      unfold processNeighbors
      by_cases hu : labelOf pts nb = UNCLASSIFIED
      · rw [if_pos hu]
        have hnb : nb < pts.length := by
          by_contra hge
          rw [labelOf_oob pts nb (by omega)] at hu
          unfold UNCLASSIFIED at hu
          omega
        rw [ih]
        have hd := unclCount_setLabel_decr pts nb c hnb hu
          (by unfold UNCLASSIFIED; omega)
        rw [List.length_append]
        simp only [List.length_singleton]
        omega
      · rw [if_neg hu]
        by_cases hns : labelOf pts nb = NOISE
        · rw [if_pos hns]
          rw [ih]
          rw [unclCount_setLabel_eq pts nb c hu
            (by unfold UNCLASSIFIED; omega)]
        · rw [if_neg hns]
          exact ih pts seeds

theorem expandLoop_completes (query : List (Point α) → Nat → List Nat)
    (params : Params α) (c : Int) (hc : 0 ≤ c) :
    ∀ fuel (pts : List (Point α)) (seeds : List Nat) (cursor : Nat),
      seeds.length + unclCount pts ≤ fuel + cursor →
      (expandLoop query params c fuel pts seeds cursor).2.1.length ≤
        (expandLoop query params c fuel pts seeds cursor).2.2 := by
  intro fuel
  induction fuel with
  | zero =>
      intro pts seeds cursor h
      show seeds.length ≤ cursor
      omega
  | succ f ih =>
      intro pts seeds cursor h
      unfold expandLoop
      by_cases hcur : cursor < seeds.length
      · rw [if_pos hcur]
        by_cases hcore : params.min_pts ≤
            ((query pts (seeds.getD cursor 0)).length : Int)
        · rw [if_pos hcore]
          simp only []
          refine ih _ _ (cursor + 1) ?_
          have hme := processNeighbors_measure c hc
            (query pts (seeds.getD cursor 0)) pts seeds
          omega
        · rw [if_neg hcore]
          exact ih pts seeds (cursor + 1) (by omega)
      · rw [if_neg hcur]
        show seeds.length ≤ cursor
        omega

/-! ### Fine-grained behaviour of the neighbor-processing loop -/

theorem processNeighbors_seeds_mono (c : Int) (nbrs : List Nat) :
    ∀ (pts : List (Point α)) (seeds : List Nat) (s : Nat), s ∈ seeds →
      s ∈ (processNeighbors c nbrs pts seeds).2 := by
  induction nbrs with
  | nil => intro pts seeds s hs; exact hs
  | cons nb rest ih =>
      intro pts seeds s hs
      unfold processNeighbors
      by_cases hu : labelOf pts nb = UNCLASSIFIED
      · rw [if_pos hu]
        exact ih _ _ s (List.mem_append.mpr (Or.inl hs))
      · rw [if_neg hu]
        by_cases hns : labelOf pts nb = NOISE
        · rw [if_pos hns]
          exact ih _ _ s hs
        · rw [if_neg hns]
          exact ih _ _ s hs

theorem processNeighbors_seeds_append (c : Int) (nbrs : List Nat) :
    ∀ (pts : List (Point α)) (seeds : List Nat),
      ∃ tl, (processNeighbors c nbrs pts seeds).2 = seeds ++ tl := by
  induction nbrs with
  | nil => intro pts seeds; exact ⟨[], (List.append_nil seeds).symm⟩
  | cons nb rest ih =>
      intro pts seeds
      unfold processNeighbors
      by_cases hu : labelOf pts nb = UNCLASSIFIED
      · rw [if_pos hu]
        obtain ⟨tl, htl⟩ := ih (setLabel pts nb c) (seeds ++ [nb])
        refine ⟨nb :: tl, ?_⟩
        rw [htl, List.append_assoc]
        rfl
      · rw [if_neg hu]
        by_cases hns : labelOf pts nb = NOISE
        · rw [if_pos hns]
          exact ih (setLabel pts nb c) seeds
        · rw [if_neg hns]
          exact ih pts seeds

theorem processNeighbors_post (c : Int) (hc : 0 ≤ c) (nbrs : List Nat) :
    ∀ (pts : List (Point α)) (seeds : List Nat) (v : Nat), v ∈ nbrs →
      (labelOf pts v = UNCLASSIFIED ∨ labelOf pts v = NOISE ∨
        0 ≤ labelOf pts v) →
      0 ≤ labelOf (processNeighbors c nbrs pts seeds).1 v := by
  induction nbrs with
  | nil =>
      intro pts seeds v hv _
      simp at hv
  | cons nb rest ih =>
      intro pts seeds v hv huniv
      unfold processNeighbors
      by_cases hu : labelOf pts nb = UNCLASSIFIED
      · rw [if_pos hu]
        have hnb : nb < pts.length := by
          by_contra hge
          rw [labelOf_oob pts nb (by omega)] at hu
          unfold UNCLASSIFIED at hu
          omega
        rcases List.mem_cons.mp hv with rfl | hvr
        · have hlab : labelOf (setLabel pts v c) v = c :=
            labelOf_setLabel_self pts v c hnb
          rcases processNeighbors_labels c rest (setLabel pts v c)
              (seeds ++ [v]) v with h | ⟨h1, _⟩
          · rw [h, hlab]
            exact hc
          · rw [h1]
            exact hc
        · refine ih _ _ v hvr ?_
          rw [labelOf_setLabel]
          by_cases hcnd : nb = v ∧ v < pts.length
          · rw [if_pos hcnd]
            exact Or.inr (Or.inr hc)
          · rw [if_neg hcnd]
            exact huniv
      · rw [if_neg hu]
        by_cases hns : labelOf pts nb = NOISE
        · rw [if_pos hns]
          rcases List.mem_cons.mp hv with rfl | hvr
          · have hnb : v < pts.length := by
              by_contra hge
              rw [labelOf_oob pts v (by omega)] at hns
              unfold NOISE at hns
              omega
            have hlab : labelOf (setLabel pts v c) v = c :=
              labelOf_setLabel_self pts v c hnb
            rcases processNeighbors_labels c rest (setLabel pts v c) seeds v
                with h | ⟨h1, _⟩
            · rw [h, hlab]
              exact hc
            · rw [h1]
              exact hc
          · refine ih _ _ v hvr ?_
            rw [labelOf_setLabel]
            by_cases hcnd : nb = v ∧ v < pts.length
            · rw [if_pos hcnd]
              exact Or.inr (Or.inr hc)
            · rw [if_neg hcnd]
              exact huniv
        · rw [if_neg hns]
          rcases List.mem_cons.mp hv with rfl | hvr
          · rcases processNeighbors_labels c rest pts seeds v with h | ⟨h1, _⟩
            · rw [h]
              rcases huniv with h2 | h2 | h2
              · exact absurd h2 hu
              · exact absurd h2 hns
              · exact h2
            · rw [h1]
              exact hc
          · exact ih _ _ v hvr huniv

theorem processNeighbors_changed (c : Int) (nbrs : List Nat) :
    ∀ (pts : List (Point α)) (seeds : List Nat) (u : Nat),
      labelOf pts u = UNCLASSIFIED →
      labelOf (processNeighbors c nbrs pts seeds).1 u ≠ labelOf pts u →
      u ∈ (processNeighbors c nbrs pts seeds).2 := by
  induction nbrs with
  | nil =>
      intro pts seeds u _ hne
      exact absurd rfl hne
  | cons nb rest ih =>
      intro pts seeds u hU hne
      unfold processNeighbors at hne ⊢
      by_cases hu : labelOf pts nb = UNCLASSIFIED
      · rw [if_pos hu] at hne ⊢
        by_cases heq : nb = u
        · subst heq
          exact processNeighbors_seeds_mono c rest _ _ nb
            (List.mem_append.mpr (Or.inr (by simp)))
        · have hsame : labelOf (setLabel pts nb c) u = labelOf pts u :=
            labelOf_setLabel_ne pts nb u c heq
          refine ih _ _ u (by rw [hsame]; exact hU) ?_
          rw [hsame]
          exact hne
      · rw [if_neg hu] at hne ⊢
        by_cases hns : labelOf pts nb = NOISE
        · rw [if_pos hns] at hne ⊢
          have heq : nb ≠ u := by
            intro h
            subst h
            rw [hU] at hns
            unfold UNCLASSIFIED NOISE at hns
            omega
          have hsame : labelOf (setLabel pts nb c) u = labelOf pts u :=
            labelOf_setLabel_ne pts nb u c heq
          refine ih _ _ u (by rw [hsame]; exact hU) ?_
          rw [hsame]
          exact hne
        · rw [if_neg hns] at hne ⊢
          exact ih pts seeds u hU hne

theorem labelFold_not_mem (c : Int) (seeds : List Nat) :
    ∀ (pts : List (Point α)) (u : Nat), u ∉ seeds →
      labelOf (seeds.foldl (fun ps x => setLabel ps x c) pts) u =
        labelOf pts u := by
  induction seeds with
  | nil => intro pts u _; rfl
  | cons a t ih =>
      intro pts u hu
      rw [List.foldl_cons]
      have ha : a ≠ u := fun h => hu (h ▸ List.mem_cons_self a t)
      rw [ih (setLabel pts a c) u (fun h => hu (List.mem_cons_of_mem a h)),
        labelOf_setLabel_ne pts a u c ha]

/-! ### The expansion invariant for maximality -/

/-- Invariant carried through the expansion loop: geometry preserved,
sound seed list, labels are entry labels or the new id, already-clustered
cores untouched, newly labelled cores scheduled, and the neighborhoods of
the origin and of every processed seed fully labelled non-negative. -/
def expInv (points : List (Point α)) (params : Params α)
    (pts_b : List (Point α)) (c : Int) (o : Nat)
    (pts : List (Point α)) (seeds : List Nat) (cursor : Nat) : Prop :=
  sameGeom points pts ∧
  seedsInv points.length pts seeds ∧
  (∀ j, labelOf pts j = labelOf pts_b j ∨ labelOf pts j = c) ∧
  (∀ u < points.length, isCorePt points params u → 0 ≤ labelOf pts_b u →
    labelOf pts u = labelOf pts_b u) ∧
  (∀ u < points.length, isCorePt points params u → labelOf pts u = c →
    labelOf pts_b u = UNCLASSIFIED → (u ∈ seeds ∨ u = o)) ∧
  (∀ s ∈ seeds.take cursor, isCorePt points params s →
    ∀ v ∈ cdbscan_region_query_custom points s params,
      0 ≤ labelOf pts v) ∧
  (∀ v ∈ cdbscan_region_query_custom points o params, 0 ≤ labelOf pts v)

theorem expandLoop_expInv (points : List (Point α)) (params : Params α)
    (pts_b : List (Point α)) (c : Int) (o : Nat) (hc : 0 ≤ c)
    (hM2 : ∀ j < points.length, labelOf pts_b j = UNCLASSIFIED ∨
      labelOf pts_b j = NOISE ∨
      (0 ≤ labelOf pts_b j ∧ labelOf pts_b j < c)) :
    ∀ fuel (pts : List (Point α)) (seeds : List Nat) (cursor : Nat),
      expInv points params pts_b c o pts seeds cursor →
      expInv points params pts_b c o
        (expandLoop (fun ps cur => cdbscan_region_query_custom ps cur params)
          params c fuel pts seeds cursor).1
        (expandLoop (fun ps cur => cdbscan_region_query_custom ps cur params)
          params c fuel pts seeds cursor).2.1
        (expandLoop (fun ps cur => cdbscan_region_query_custom ps cur params)
          params c fuel pts seeds cursor).2.2 := by
  intro fuel
  induction fuel with
  | zero => intro pts seeds cursor hE; exact hE
  | succ f ih =>
      intro pts seeds cursor hE
      obtain ⟨hgeom, hsinv, hE1, hEC, hEA, hEB, hEBo⟩ := hE
      unfold expandLoop
      by_cases hcur : cursor < seeds.length
      · rw [if_pos hcur]
        have hq : cdbscan_region_query_custom pts (seeds.getD cursor 0)
            params =
            cdbscan_region_query_custom points (seeds.getD cursor 0) params
          := region_query_custom_geom_congr hgeom _ params
        by_cases hcore : params.min_pts ≤
            ((cdbscan_region_query_custom pts (seeds.getD cursor 0)
              params).length : Int)
        · rw [if_pos hcore]
          simp only []
          rw [hq] at hcore ⊢
          refine ih _ _ _ ?_
          set s0 := seeds.getD cursor 0 with hs0
          set nbrs := cdbscan_region_query_custom points s0 params with hnb
          have hbnd : ∀ x ∈ nbrs, x < points.length := by
            intro x hx
            rw [hnb] at hx
            exact region_query_custom_bound points s0 params x hx
          have hlen : pts.length = points.length := hgeom.1
          have hpl := fun j => processNeighbors_labels c nbrs pts seeds j
          refine ⟨?_, ?_, ?_, ?_, ?_, ?_, ?_⟩
          · exact sameGeom_trans hgeom
              (sameSkeleton_processNeighbors c nbrs pts seeds)
          · exact processNeighbors_inv c hc points.length nbrs pts seeds
              hlen hbnd hsinv
          · intro j
            rcases hpl j with h | ⟨h1, _⟩
            · rw [h]
              exact hE1 j
            · exact Or.inr h1
          · intro u hu hcoreu hge
            have h0 := hEC u hu hcoreu hge
            rcases hpl u with h | ⟨_, h2⟩
            · rw [h]
              exact h0
            · rw [h0] at h2
              unfold UNCLASSIFIED NOISE at h2
              rcases h2 with h2 | h2 <;> omega
          · intro u hu hcoreu hlc hbU
            by_cases hch : labelOf (processNeighbors c nbrs pts seeds).1 u =
                labelOf pts u
            · rw [hch] at hlc
              rcases hEA u hu hcoreu hlc hbU with hmem | ho
              · exact Or.inl (processNeighbors_seeds_mono c nbrs pts seeds u
                  hmem)
              · exact Or.inr ho
            · have hU : labelOf pts u = UNCLASSIFIED := by
                rcases hE1 u with h | h
                · rw [h, hbU]
                · rw [h] at hch
                  exact absurd hlc hch
              exact Or.inl (processNeighbors_changed c nbrs pts seeds u hU
                (by rw [hU]; rw [hU] at hch; exact hch))
          · intro s hs hcors v hv
            obtain ⟨tl, htl⟩ := processNeighbors_seeds_append c nbrs pts
              seeds
            rw [htl, List.take_append_of_le_length (by omega),
              List.take_succ] at hs
            rcases List.mem_append.mp hs with hs1 | hs2
            · have h0 := hEB s hs1 hcors v hv
              rcases hpl v with h | ⟨h1, _⟩
              · rw [h]
                exact h0
              · rw [h1]
                exact hc
            · have hseq : s = s0 := by
                rw [List.getElem?_eq_getElem hcur] at hs2
                simp only [Option.toList_some, List.mem_singleton] at hs2
                rw [hs2, hs0, List.getD_eq_getElem _ _ hcur]
              subst hseq
              refine processNeighbors_post c hc nbrs pts seeds v ?_ ?_
              · rw [hnb]
                exact hv
              · have hvlt : v < points.length :=
                  region_query_custom_bound points s0 params v hv
                rcases hE1 v with h | h
                · rw [h]
                  rcases hM2 v hvlt with h2 | h2 | h2
                  · exact Or.inl h2
                  · exact Or.inr (Or.inl h2)
                  · exact Or.inr (Or.inr h2.1)
                · rw [h]
                  exact Or.inr (Or.inr hc)
          · intro v hv
            have h0 := hEBo v hv
            rcases hpl v with h | ⟨h1, _⟩
            · rw [h]
              exact h0
            · rw [h1]
              exact hc
        · rw [if_neg hcore]
          rw [hq] at hcore
          refine ih _ _ _ ⟨hgeom, hsinv, hE1, hEC, hEA, ?_, hEBo⟩
          intro s hs hcors v hv
          rw [List.take_succ] at hs
          rcases List.mem_append.mp hs with hs1 | hs2
          · exact hEB s hs1 hcors v hv
          · have hseq : s = seeds.getD cursor 0 := by
              rw [List.getElem?_eq_getElem hcur] at hs2
              simp only [Option.toList_some, List.mem_singleton] at hs2
              rw [hs2, List.getD_eq_getElem _ _ hcur]
            subst hseq
            exact absurd hcors hcore
      · rw [if_neg hcur]
        exact ⟨hgeom, hsinv, hE1, hEC, hEA, hEB, hEBo⟩

/-- Postconditions of a full `expand_cluster` call starting a new cluster
`c` at a still-unclassified core origin: geometry preserved, every label
is the old label or `c`, already-clustered cores keep their label, and
every core that ends with label `c` has its whole neighborhood labelled
non-negative. -/
theorem expand_cluster_master (points : List (Point α)) (params : Params α)
    (hsym : ∀ i < points.length, ∀ j < points.length,
      (i ∈ cdbscan_region_query_custom points j params ↔
        j ∈ cdbscan_region_query_custom points i params))
    (pts_b : List (Point α)) (o : Nat) (c : Int) (hc : 0 ≤ c)
    (hgeom : sameGeom points pts_b) (ho : o < points.length)
    (hou : labelOf pts_b o = UNCLASSIFIED)
    (hM2 : ∀ j < points.length, labelOf pts_b j = UNCLASSIFIED ∨
      labelOf pts_b j = NOISE ∨
      (0 ≤ labelOf pts_b j ∧ labelOf pts_b j < c))
    (hGn : ∀ u < points.length, isCorePt points params u →
      labelOf pts_b u ≠ NOISE)
    (hGc : ∀ u < points.length, isCorePt points params u →
      0 ≤ labelOf pts_b u →
      ∀ v ∈ cdbscan_region_query_custom points u params,
        0 ≤ labelOf pts_b v)
    (hcore_o : isCorePt points params o) :
    sameGeom points (expand_cluster pts_b o c params).2 ∧
    (∀ j, labelOf (expand_cluster pts_b o c params).2 j = labelOf pts_b j ∨
      labelOf (expand_cluster pts_b o c params).2 j = c) ∧
    (∀ u < points.length, isCorePt points params u → 0 ≤ labelOf pts_b u →
      labelOf (expand_cluster pts_b o c params).2 u = labelOf pts_b u) ∧
    (∀ u < points.length, isCorePt points params u →
      labelOf (expand_cluster pts_b o c params).2 u = c →
      ∀ v ∈ cdbscan_region_query_custom points u params,
        0 ≤ labelOf (expand_cluster pts_b o c params).2 v) := by
  have hq0 : cdbscan_region_query_custom pts_b o params =
      cdbscan_region_query_custom points o params :=
    region_query_custom_geom_congr hgeom o params
  have hnotfail : ¬ ((cdbscan_region_query_custom pts_b o params).length :
      Int) < params.min_pts := by
    rw [hq0]
    unfold isCorePt at hcore_o
    omega
  have hres : (expand_cluster pts_b o c params).2 =
      (expandLoop (fun ps cur => cdbscan_region_query_custom ps cur params)
        params c (2 * pts_b.length + 1)
        ((cdbscan_region_query_custom pts_b o params).foldl
          (fun ps s => setLabel ps s c) pts_b)
        (removeFirstSwap (cdbscan_region_query_custom pts_b o params) o)
        0).1 := by
    unfold expand_cluster expandClusterGen
    rw [if_neg hnotfail]
  rw [hres, hq0]
  set seeds0 := cdbscan_region_query_custom points o params with hseeds0
  set pts1 := seeds0.foldl (fun ps s => setLabel ps s c) pts_b with hpts1
  set seeds1 := removeFirstSwap seeds0 o with hseeds1
  have hbnd0 : ∀ x ∈ seeds0, x < points.length := by
    intro x hx
    rw [hseeds0] at hx
    exact region_query_custom_bound points o params x hx
  have hbnd0b : ∀ x ∈ seeds0, x < pts_b.length := by
    intro x hx
    rw [hgeom.1]
    exact hbnd0 x hx
  have hnd0 : seeds0.Nodup := by
    rw [hseeds0]
    exact region_query_custom_nodup points o params
  have hfold_mem : ∀ s ∈ seeds0, labelOf pts1 s = c := by
    intro s hs
    rw [hpts1]
    exact labelFold_labelOf_mem c seeds0 pts_b s hs (hbnd0b s hs)
  have hfold_gen : ∀ j, labelOf pts1 j = c ∨ labelOf pts1 j =
      labelOf pts_b j := by
    intro j
    rw [hpts1]
    exact labelFold_labelOf c seeds0 pts_b j
  have hfold_not : ∀ j, j ∉ seeds0 → labelOf pts1 j = labelOf pts_b j := by
    intro j hj
    rw [hpts1]
    exact labelFold_not_mem c seeds0 pts_b j hj
  have hlen1 : pts1.length = pts_b.length := by
    rw [hpts1]
    exact labelFold_length c seeds0 pts_b
  have hgeom1 : sameGeom points pts1 := by
    rw [hpts1]
    exact sameGeom_trans hgeom (sameSkeleton_labelFold seeds0 c pts_b)
  have hnd1 : seeds1.Nodup := by
    rw [hseeds1]
    exact (removeFirstSwap_perm_erase seeds0 o).nodup_iff.mpr
      (List.Nodup.erase o hnd0)
  have hE0 : expInv points params pts_b c o pts1 seeds1 0 := by
    refine ⟨hgeom1, ⟨hnd1, ?_⟩, ?_, ?_, ?_, ?_, ?_⟩
    · intro s hs
      have hs0 : s ∈ seeds0 := by
        rw [hseeds1] at hs
        exact removeFirstSwap_subset hs
      refine ⟨hbnd0 s hs0, ?_⟩
      rw [hfold_mem s hs0]
      unfold UNCLASSIFIED
      omega
    · intro j
      rcases hfold_gen j with h | h
      · exact Or.inr h
      · exact Or.inl h
    · intro u hu hcoreu hge
      refine hfold_not u ?_
      intro hmem
      have homem : o ∈ cdbscan_region_query_custom points u params :=
        (hsym u hu o ho).mp (by rw [← hseeds0]; exact hmem)
      have hoge := hGc u hu hcoreu hge o homem
      rw [hou] at hoge
      unfold UNCLASSIFIED at hoge
      omega
    · intro u hu hcoreu hlc hbU
      by_cases hmem : u ∈ seeds0
      · by_cases huo : u = o
        · exact Or.inr huo
        · refine Or.inl ?_
          rw [hseeds1]
          rw [(removeFirstSwap_perm_erase seeds0 o).mem_iff]
          exact (List.mem_erase_of_ne huo).mpr hmem
      · rw [hfold_not u hmem, hbU] at hlc
        unfold UNCLASSIFIED at hlc
        omega
    · intro s hs
      simp at hs
    · intro v hv
      rw [hfold_mem v (by rw [hseeds0]; exact hv)]
      exact hc
  have hloop := expandLoop_expInv points params pts_b c o hc hM2
    (2 * pts_b.length + 1) pts1 seeds1 0 hE0
  have hfuel : seeds1.length + unclCount pts1 ≤ 2 * pts_b.length + 1 + 0
      := by
    have h1 : seeds1.length ≤ seeds0.length := by
      rw [hseeds1, (removeFirstSwap_perm_erase seeds0 o).length_eq]
      exact List.length_erase_le o seeds0
    have h2 : seeds0.length ≤ points.length := nodup_bound_length hnd0 hbnd0
    have h3 : unclCount pts1 ≤ pts1.length := List.countP_le_length _
    have h4 : points.length = pts_b.length := hgeom.1.symm
    omega
  have hcomp := expandLoop_completes
    (fun ps cur => cdbscan_region_query_custom ps cur params) params c hc
    (2 * pts_b.length + 1) pts1 seeds1 0 hfuel
  obtain ⟨hgf, hsf, hE1f, hECf, hEAf, hEBf, hEBof⟩ := hloop
  have htake : (expandLoop
      (fun ps cur => cdbscan_region_query_custom ps cur params) params c
      (2 * pts_b.length + 1) pts1 seeds1 0).2.1.take
      (expandLoop (fun ps cur => cdbscan_region_query_custom ps cur params)
        params c (2 * pts_b.length + 1) pts1 seeds1 0).2.2 =
      (expandLoop (fun ps cur => cdbscan_region_query_custom ps cur params)
        params c (2 * pts_b.length + 1) pts1 seeds1 0).2.1 :=
    List.take_of_length_le hcomp
  refine ⟨hgf, hE1f, hECf, ?_⟩
  intro u hu hcoreu hlc v hv
  have hbu : labelOf pts_b u = UNCLASSIFIED := by
    rcases hM2 u hu with h | h | h
    · exact h
    · exact absurd h (hGn u hu hcoreu)
    · have hun := hECf u hu hcoreu h.1
      rw [hlc] at hun
      omega
  rcases hEAf u hu hcoreu hlc hbu with hmem | huo
  · refine hEBf u ?_ hcoreu v hv
    rw [htake]
    exact hmem
  · subst huo
    exact hEBof v hv

/-! ### The global maximality invariant of the main loop -/

theorem clusterStep_none_cases (params : Params α)
    (st : Int × List (Point α)) (k : Nat) :
    (labelOf st.2 k ≠ UNCLASSIFIED ∧
      (clusterStep none params st k).2 = st.2) ∨
    (labelOf st.2 k = UNCLASSIFIED ∧
      ((((cdbscan_region_query_custom st.2 k params).length : Int) <
          params.min_pts ∧
        (clusterStep none params st k).2 = setLabel st.2 k NOISE) ∨
      (¬ (((cdbscan_region_query_custom st.2 k params).length : Int) <
          params.min_pts) ∧
        (clusterStep none params st k).2 =
          (expand_cluster st.2 k st.1 params).2))) := by
  unfold clusterStep
  by_cases h1 : labelOf st.2 k ≠ UNCLASSIFIED
  · rw [if_pos h1]
    exact Or.inl ⟨h1, rfl⟩
  · rw [if_neg h1]
    push_neg at h1
    simp only []
    by_cases h2 : ((cdbscan_region_query_custom st.2 k params).length : Int)
        < params.min_pts
    · rw [if_pos h2]
      exact Or.inr ⟨h1, Or.inl ⟨h2, rfl⟩⟩
    · rw [if_neg h2]
      exact Or.inr ⟨h1, Or.inr ⟨h2, rfl⟩⟩

/-- Invariant of the whole run serving maximality: the basic invariant,
geometry preservation, cores are never `NOISE`, a clustered core has its
whole neighborhood labelled, and adjacent clustered cores share a label. -/
def globalInv (points : List (Point α)) (params : Params α)
    (st : Int × List (Point α)) : Prop :=
  mainInvA points.length st ∧
  sameGeom points st.2 ∧
  (∀ u < points.length, isCorePt points params u →
    labelOf st.2 u ≠ NOISE) ∧
  (∀ u < points.length, isCorePt points params u → 0 ≤ labelOf st.2 u →
    ∀ v ∈ cdbscan_region_query_custom points u params,
      0 ≤ labelOf st.2 v) ∧
  (∀ u < points.length, ∀ v < points.length, isCorePt points params u →
    isCorePt points params v →
    v ∈ cdbscan_region_query_custom points u params →
    0 ≤ labelOf st.2 u → 0 ≤ labelOf st.2 v →
    labelOf st.2 u = labelOf st.2 v)

theorem clusterStep_globalInv (points : List (Point α)) (params : Params α)
    (hsym : ∀ i < points.length, ∀ j < points.length,
      (i ∈ cdbscan_region_query_custom points j params ↔
        j ∈ cdbscan_region_query_custom points i params))
    (st : Int × List (Point α)) (k : Nat)
    (hG : globalInv points params st) :
    globalInv points params (clusterStep none params st k) := by
  obtain ⟨hA, hgeom, hGn, hGc, hG4⟩ := hG
  refine ⟨(clusterStep_invA none params points.length st k hA).1,
    sameGeom_trans hgeom (sameSkeleton_clusterStep none params st k),
    ?_, ?_, ?_⟩ <;>
    rcases clusterStep_none_cases params st k with ⟨hU, heq⟩ |
      ⟨hU, ⟨h2, heq⟩ | ⟨h2, heq⟩⟩
  · rw [heq]
    exact hGn
  · rw [heq]
    intro u hu hcoreu
    have hq : cdbscan_region_query_custom st.2 k params =
        cdbscan_region_query_custom points k params :=
      region_query_custom_geom_congr hgeom k params
    have hnc : ¬ isCorePt points params k := by
      unfold isCorePt
      rw [← hq]
      omega
    have huk : k ≠ u := fun h => hnc (by rw [h]; exact hcoreu)
    rw [labelOf_setLabel_ne st.2 k u NOISE huk]
    exact hGn u hu hcoreu
  · have hk : k < points.length := by
      by_contra hge
      rw [labelOf_oob st.2 k (by rw [hA.2.1]; omega)] at hU
      unfold UNCLASSIFIED at hU
      omega
    have hq : cdbscan_region_query_custom st.2 k params =
        cdbscan_region_query_custom points k params :=
      region_query_custom_geom_congr hgeom k params
    have hcore_k : isCorePt points params k := by
      unfold isCorePt
      rw [← hq]
      omega
    obtain ⟨_, hP1, hP4, hP6⟩ := expand_cluster_master points params hsym
      st.2 k st.1 hA.1 hgeom hk hU hA.2.2 hGn hGc hcore_k
    rw [heq]
    intro u hu hcoreu
    rcases hP1 u with h | h
    · rw [h]
      exact hGn u hu hcoreu
    · rw [h]
      have h0 := hA.1
      unfold NOISE
      omega
  · rw [heq]
    exact hGc
  · rw [heq]
    intro u hu hcoreu hge v hv
    have hq : cdbscan_region_query_custom st.2 k params =
        cdbscan_region_query_custom points k params :=
      region_query_custom_geom_congr hgeom k params
    have hnc : ¬ isCorePt points params k := by
      unfold isCorePt
      rw [← hq]
      omega
    have huk : k ≠ u := fun h => hnc (by rw [h]; exact hcoreu)
    rw [labelOf_setLabel_ne st.2 k u NOISE huk] at hge
    have h0 := hGc u hu hcoreu hge v hv
    by_cases hvk : v = k
    · subst hvk
      rw [hU] at h0
      unfold UNCLASSIFIED at h0
      omega
    · rw [labelOf_setLabel_ne st.2 k v NOISE (fun h => hvk h.symm)]
      exact h0
  · have hk : k < points.length := by
      by_contra hge
      rw [labelOf_oob st.2 k (by rw [hA.2.1]; omega)] at hU
      unfold UNCLASSIFIED at hU
      omega
    have hq : cdbscan_region_query_custom st.2 k params =
        cdbscan_region_query_custom points k params :=
      region_query_custom_geom_congr hgeom k params
    have hcore_k : isCorePt points params k := by
      unfold isCorePt
      rw [← hq]
      omega
    obtain ⟨_, hP1, hP4, hP6⟩ := expand_cluster_master points params hsym
      st.2 k st.1 hA.1 hgeom hk hU hA.2.2 hGn hGc hcore_k
    rw [heq]
    intro u hu hcoreu hge v hv
    rcases hP1 u with h | h
    · rw [h] at hge
      have h0 := hGc u hu hcoreu hge v hv
      rcases hP1 v with h3 | h3
      · rw [h3]
        exact h0
      · rw [h3]
        exact hA.1
    · exact hP6 u hu hcoreu h v hv
  · rw [heq]
    exact hG4
  · rw [heq]
    intro u hu v hv hcoreu hcorev hadj hgeu hgev
    have hq : cdbscan_region_query_custom st.2 k params =
        cdbscan_region_query_custom points k params :=
      region_query_custom_geom_congr hgeom k params
    have hnc : ¬ isCorePt points params k := by
      unfold isCorePt
      rw [← hq]
      omega
    have huk : k ≠ u := fun h => hnc (by rw [h]; exact hcoreu)
    have hvk : k ≠ v := fun h => hnc (by rw [h]; exact hcorev)
    rw [labelOf_setLabel_ne st.2 k u NOISE huk] at hgeu ⊢
    rw [labelOf_setLabel_ne st.2 k v NOISE hvk] at hgev ⊢
    exact hG4 u hu v hv hcoreu hcorev hadj hgeu hgev
  · have hk : k < points.length := by
      by_contra hge
      rw [labelOf_oob st.2 k (by rw [hA.2.1]; omega)] at hU
      unfold UNCLASSIFIED at hU
      omega
    have hq : cdbscan_region_query_custom st.2 k params =
        cdbscan_region_query_custom points k params :=
      region_query_custom_geom_congr hgeom k params
    have hcore_k : isCorePt points params k := by
      unfold isCorePt
      rw [← hq]
      omega
    obtain ⟨_, hP1, hP4, hP6⟩ := expand_cluster_master points params hsym
      st.2 k st.1 hA.1 hgeom hk hU hA.2.2 hGn hGc hcore_k
    rw [heq]
    intro u hu v hv hcoreu hcorev hadj hgeu hgev
    by_cases hbu : 0 ≤ labelOf st.2 u
    · have Hu := hP4 u hu hcoreu hbu
      by_cases hbv : 0 ≤ labelOf st.2 v
      · have Hv := hP4 v hv hcorev hbv
        rw [Hu, Hv]
        exact hG4 u hu v hv hcoreu hcorev hadj hbu hbv
      · have h0 := hGc u hu hcoreu hbu v hadj
        exact absurd h0 hbv
    · have hEu : labelOf (expand_cluster st.2 k st.1 params).2 u = st.1
          := by
        rcases hP1 u with h | h
        · rw [h] at hgeu
          exact absurd hgeu hbu
        · exact h
      by_cases hbv : 0 ≤ labelOf st.2 v
      · have hadj2 : u ∈ cdbscan_region_query_custom points v params :=
          (hsym v hv u hu).mp hadj
        have h0 := hGc v hv hcorev hbv u hadj2
        exact absurd h0 hbu
      · have hEv : labelOf (expand_cluster st.2 k st.1 params).2 v = st.1
            := by
          rcases hP1 v with h | h
          · rw [h] at hgev
            exact absurd hgev hbv
          · exact h
        rw [hEu, hEv]

theorem clusterPrefix_globalInv (points : List (Point α))
    (params : Params α)
    (hsym : ∀ i < points.length, ∀ j < points.length,
      (i ∈ cdbscan_region_query_custom points j params ↔
        j ∈ cdbscan_region_query_custom points i params)) :
    ∀ k, globalInv points params
      (clusterPrefix none params (initPoints points) k) := by
  intro k
  induction k with
  | zero =>
      have h0 : clusterPrefix none params (initPoints points) 0 =
          ((0 : Int), initPoints points) := rfl
      rw [h0]
      refine ⟨by rw [← h0]; exact clusterPrefix_invA none params points 0,
        sameGeom_initPoints points, ?_, ?_, ?_⟩
      · intro u hu _
        have hlab : labelOf (initPoints points) u = UNCLASSIFIED := by
          rw [labelOf, initPoints_getD points u hu]
        rw [hlab]
        decide
      · intro u hu _ hge
        have hlab : labelOf (initPoints points) u = UNCLASSIFIED := by
          rw [labelOf, initPoints_getD points u hu]
        rw [hlab] at hge
        unfold UNCLASSIFIED at hge
        omega
      · intro u hu v hv _ _ _ hgeu _
        have hlab : labelOf (initPoints points) u = UNCLASSIFIED := by
          rw [labelOf, initPoints_getD points u hu]
        rw [hlab] at hgeu
        unfold UNCLASSIFIED at hgeu
        omega
  | succ k ih =>
      rw [clusterPrefix_succ]
      exact clusterStep_globalInv points params hsym _ k ih

/-- Maximality along a density-reachability chain, for the final state of
the brute-force main loop. -/
theorem clusterPrefix_density_reachable (points : List (Point α))
    (params : Params α)
    (hsym : ∀ i < points.length, ∀ j < points.length,
      (i ∈ cdbscan_region_query_custom points j params ↔
        j ∈ cdbscan_region_query_custom points i params))
    (p q : Nat) (hdr : DensityReachable points params p q)
    (hp : 0 ≤ labelOf
      (clusterPrefix none params (initPoints points) points.length).2 p)
    (hq : isCorePt points params q) :
    labelOf (clusterPrefix none params (initPoints points)
        points.length).2 q =
      labelOf (clusterPrefix none params (initPoints points)
        points.length).2 p := by
  have hG := clusterPrefix_globalInv points params hsym points.length
  obtain ⟨_, _, _, hGc, hG4⟩ := hG
  revert hq
  induction hdr with
  | refl => intro _; rfl
  | step w r hpw hwcore hrN ih =>
      intro hq
      have hwlt : w < points.length :=
        region_query_custom_mem_lt points params hrN
      have hrlt : r < points.length :=
        region_query_custom_bound points w params r hrN
      have hw := ih hwcore
      have hw0 : 0 ≤ labelOf (clusterPrefix none params (initPoints points)
          points.length).2 w := by
        rw [hw]
        exact hp
      have hr0 := hGc w hwlt hwcore hw0 r hrN
      by_cases hrcore : isCorePt points params r
      · have h4 := hG4 w hwlt r hrlt hwcore hrcore hrN hw0 hr0
        rw [← h4, hw]
      · exact absurd hq hrcore

/-! ### Run-level wrappers: success conditions and strategy reduction -/

theorem cluster_success_conditions (alloc : Bool) (points : List (Point α))
    (params : Params α)
    (h : 0 ≤ (cdbscan_cluster alloc points params).1) :
    cdbscan_validate_params params = true ∧
    cdbscan_validate_data points = true ∧ alloc = true := by
  by_cases h1 : cdbscan_validate_params params = true
  · by_cases h2 : cdbscan_validate_data points = true
    · by_cases h3 : alloc = true
      · exact ⟨h1, h2, h3⟩
      · exfalso
        have h3f : alloc = false := by
          rcases hb : alloc with _ | _
          · rfl
          · exact absurd hb h3
        have hval : (cdbscan_cluster alloc points params).1 = -1 := by
          unfold cdbscan_cluster
          rw [h1, h2, h3f]
          rfl
        omega
    · exfalso
      have h2f : cdbscan_validate_data points = false := by
        rcases hb : cdbscan_validate_data points with _ | _
        · rfl
        · exact absurd hb h2
      have hval : (cdbscan_cluster alloc points params).1 = -1 := by
        unfold cdbscan_cluster
        rw [h1, h2f]
        rfl
      omega
  · exfalso
    have h1f : cdbscan_validate_params params = false := by
      rcases hb : cdbscan_validate_params params with _ | _
      · rfl
      · exact absurd hb h1
    have hval : (cdbscan_cluster alloc points params).1 = -1 := by
      unfold cdbscan_cluster
      rw [h1f]
      rfl
    omega

theorem validate_params_use_kdtree_irrelevant (params : Params α)
    (uk : Bool) :
    cdbscan_validate_params ⟨params.eps, params.min_pts, params.dist_type,
      params.minkowski_p, params.custom_dist, uk, params.minkowski_val⟩ =
    cdbscan_validate_params params := rfl

theorem distInRange_use_kdtree_irrelevant (params : Params α) (uk : Bool) :
    ∀ a b dims, distInRange (α := α) ⟨params.eps, params.min_pts,
      params.dist_type, params.minkowski_p, params.custom_dist, uk,
      params.minkowski_val⟩ a b dims = distInRange params a b dims :=
  distInRange_params_congr _ params rfl rfl rfl rfl rfl

theorem cluster_to_brute (alloc : Bool) (points : List (Point α))
    (params : Params α) (hdt : params.dist_type = DistType.euclidean) :
    cdbscan_cluster alloc points params =
      cdbscan_cluster alloc points
        ⟨params.eps, params.min_pts, params.dist_type, params.minkowski_p,
          params.custom_dist, false, params.minkowski_val⟩ := by
  obtain ⟨eps, mp, dt, pM, cd, uk, mval⟩ := params
  simp only [] at hdt ⊢
  subst hdt
  rcases uk with _ | _
  · rfl
  · exact cluster_strategy_equiv alloc points eps mp pM cd mval

theorem isCorePt_congr (points : List (Point α)) (P1 P2 : Params α)
    (hQ : ∀ i, cdbscan_region_query_custom points i P1 =
      cdbscan_region_query_custom points i P2)
    (hm : P1.min_pts = P2.min_pts) (i : Nat) :
    isCorePt points P1 i ↔ isCorePt points P2 i := by
  unfold isCorePt
  rw [hQ, hm]

theorem density_reachable_congr (points : List (Point α))
    (P1 P2 : Params α)
    (hQ : ∀ i, cdbscan_region_query_custom points i P1 =
      cdbscan_region_query_custom points i P2)
    (hm : P1.min_pts = P2.min_pts) (p q : Nat)
    (h : DensityReachable points P1 p q) :
    DensityReachable points P2 p q := by
  induction h with
  | refl => exact .refl p
  | step w r hpw hw hr ih =>
      exact .step p w r ih ((isCorePt_congr points P1 P2 hQ hm w).mp hw)
        (by rw [← hQ w]; exact hr)

/-- Claim C4 backbone: after a successful run, every point is `NOISE` or
carries a cluster id in `[0, returned count)` — provided the configured
metric reports every point inside its own neighborhood. -/
theorem cluster_success_all_labelled (alloc : Bool)
    (points : List (Point α)) (params : Params α)
    (hself : ∀ i < points.length, distInRange params
      (points.getD i default).coords (points.getD i default).coords
      (points.getD i default).dimensions = true)
    (hret : 0 ≤ (cdbscan_cluster alloc points params).1) :
    ∀ j < points.length,
      labelOf (cdbscan_cluster alloc points params).2 j = NOISE ∨
      (0 ≤ labelOf (cdbscan_cluster alloc points params).2 j ∧
        labelOf (cdbscan_cluster alloc points params).2 j <
          (cdbscan_cluster alloc points params).1) := by
  obtain ⟨hv1, hv2, ha⟩ := cluster_success_conditions alloc points params
    hret
  intro j hj
  by_cases hkd : params.use_kdtree = true ∧
      params.dist_type = DistType.euclidean
  · obtain ⟨huk, hdt⟩ := hkd
    rw [cluster_to_brute alloc points params hdt]
    set p2 : Params α := ⟨params.eps, params.min_pts, params.dist_type,
      params.minkowski_p, params.custom_dist, false, params.minkowski_val⟩
      with hp2
    have hv1b : cdbscan_validate_params p2 = true := by
      rw [hp2, validate_params_use_kdtree_irrelevant]
      exact hv1
    have hnkd : ¬(p2.use_kdtree = true ∧
        p2.dist_type = DistType.euclidean) := by
      intro hcon
      rw [hp2] at hcon
      exact Bool.false_ne_true hcon.1
    rw [cdbscan_cluster_run_eq alloc points p2 hv1b hv2 ha hnkd]
    refine clusterPrefix_final_labels p2 points ?_ j hj
    intro i hi
    rw [hp2]
    rw [distInRange_use_kdtree_irrelevant params false]
    exact hself i hi
  · rw [cdbscan_cluster_run_eq alloc points params hv1 hv2 ha hkd]
    exact clusterPrefix_final_labels params points hself j hj

/-- Claim C5 backbone: after a successful run with a symmetric
neighborhood relation, a core point density-reachable from a clustered
point ends in the same cluster. -/
theorem cluster_success_maximality (alloc : Bool)
    (points : List (Point α)) (params : Params α)
    (hsym : ∀ i < points.length, ∀ j < points.length,
      (i ∈ cdbscan_region_query_custom points j params ↔
        j ∈ cdbscan_region_query_custom points i params))
    (hret : 0 ≤ (cdbscan_cluster alloc points params).1) (p q : Nat)
    (hdr : DensityReachable points params p q)
    (hp : 0 ≤ labelOf (cdbscan_cluster alloc points params).2 p)
    (hq : isCorePt points params q) :
    labelOf (cdbscan_cluster alloc points params).2 q =
      labelOf (cdbscan_cluster alloc points params).2 p := by
  obtain ⟨hv1, hv2, ha⟩ := cluster_success_conditions alloc points params
    hret
  by_cases hkd : params.use_kdtree = true ∧
      params.dist_type = DistType.euclidean
  · obtain ⟨huk, hdt⟩ := hkd
    rw [cluster_to_brute alloc points params hdt] at hp ⊢
    set p2 : Params α := ⟨params.eps, params.min_pts, params.dist_type,
      params.minkowski_p, params.custom_dist, false, params.minkowski_val⟩
      with hp2
    have hQ : ∀ i, cdbscan_region_query_custom points i params =
        cdbscan_region_query_custom points i p2 := by
      intro i
      refine region_query_custom_params_congr points i params p2 ?_
      intro a b dims
      rw [hp2]
      exact (distInRange_use_kdtree_irrelevant params false a b dims).symm
    have hv1b : cdbscan_validate_params p2 = true := by
      rw [hp2, validate_params_use_kdtree_irrelevant]
      exact hv1
    have hnkd : ¬(p2.use_kdtree = true ∧
        p2.dist_type = DistType.euclidean) := by
      intro hcon
      rw [hp2] at hcon
      exact Bool.false_ne_true hcon.1
    rw [cdbscan_cluster_run_eq alloc points p2 hv1b hv2 ha hnkd]
      at hp ⊢
    refine clusterPrefix_density_reachable points p2 ?_ p q
      (density_reachable_congr points params p2 hQ rfl p q hdr) hp
      ((isCorePt_congr points params p2 hQ rfl q).mp hq)
    intro i hi j hj
    rw [← hQ i, ← hQ j]
    exact hsym i hi j hj
  · rw [cdbscan_cluster_run_eq alloc points params hv1 hv2 ha hkd]
      at hp ⊢
    exact clusterPrefix_density_reachable points params hsym p q hdr hp hq

/-! ## The claims

Concrete data for counterexamples and witnesses lives at `α := ℤ`, where
every definition kernel-evaluates. -/

/-- One-dimensional point with coordinate `x`. -/
def pt1 (x : Int) : Point Int := ⟨[x], 1, 0, 0⟩

/-- Nine collinear points: a block `0,2,4,6`, a border point `15`, and a
block `24,26,28,30`. -/
def ex9 : List (Point Int) :=
  [pt1 0, pt1 2, pt1 4, pt1 6, pt1 15, pt1 24, pt1 26, pt1 28, pt1 30]

/-- Euclidean parameters: radius `10`, `min_pts = 4`, brute force. -/
def params9 : Params Int := ⟨10, 4, .euclidean, 0, none, false,
  fun _ _ _ _ => 0⟩

/-- A custom metric that reports distance `-1` of every point to itself
(and the true distance otherwise). -/
def cfNeg : List Int → List Int → Int → Int :=
  fun a b _ =>
    if a.getD 0 0 = b.getD 0 0 then -1 else |a.getD 0 0 - b.getD 0 0|

/-- A custom metric that is negative on every pair. -/
def cfAllNeg : List Int → List Int → Int → Int := fun _ _ _ => -1

def ex3 : List (Point Int) := [pt1 0, pt1 (-1), pt1 1]

def params3 : Params Int := ⟨1, 2, .custom, 0, some cfNeg, false,
  fun _ _ _ _ => 0⟩

def params3b : Params Int := ⟨1, 2, .custom, 0, some cfAllNeg, false,
  fun _ _ _ _ => 0⟩

/-- One point arriving with a nonzero `cluster_id` and `index`. -/
def ex1 : List (Point Int) := [⟨[0], 1, 7, 9⟩]

def params1 : Params Int := ⟨1, 1, .euclidean, 0, none, false,
  fun _ _ _ _ => 0⟩

/-- Two zero-dimensional points: `cdbscan_estimate_eps` accepts them. -/
def exdims : List (Point Int) := [⟨[], 0, -1, 0⟩, ⟨[], 0, -1, 1⟩]

/-- The KD-tree `kdtree_build` produces for `ex9`. -/
def t9 : KdTreeT :=
  ⟨.node (.node (.node (.node .leaf 0 0 .leaf) 1 0 .leaf) 2 0
      (.node .leaf 3 0 .leaf)) 4 0
    (.node (.node (.node .leaf 5 0 .leaf) 6 0 .leaf) 7 0
      (.node .leaf 8 0 .leaf)), 9, 1⟩

/-- The seed list of the expansion loop truncated after `fuel` iterations,
started exactly as `expand_cluster` / `expand_cluster_kdtree` start it. -/
def expandSeedsState (query : List (Point α) → Nat → List Nat)
    (params : Params α) (pts : List (Point α)) (point_idx : Nat) (c : Int)
    (fuel : Nat) : List Nat :=
  (expandLoop query params c fuel
    ((query pts point_idx).foldl (fun ps s => setLabel ps s c) pts)
    (removeFirstSwap (query pts point_idx) point_idx) 0).2.1

/-- Claim C1 (corrected).  During a `cdbscan_cluster` run, between two
consecutive main-loop states a point's label either stays, moves from
`UNCLASSIFIED` to `NOISE` or to a cluster id, moves from `NOISE` to a
cluster id, or — unlike the claimed one-way machine — moves from one
cluster id to a strictly larger one (the unconditional initial seed
labelling of a later cluster steals already-clustered border points). -/
theorem spec2proof_c1 (tree : Option KdTreeT) (params : Params α)
    (points : List (Point α)) (k j : Nat) (hj : j < points.length) :
    labelOf (clusterPrefix tree params (initPoints points) (k + 1)).2 j =
      labelOf (clusterPrefix tree params (initPoints points) k).2 j ∨
    (labelOf (clusterPrefix tree params (initPoints points) k).2 j =
        UNCLASSIFIED ∧
      (labelOf (clusterPrefix tree params (initPoints points) (k + 1)).2 j =
          NOISE ∨
        0 ≤ labelOf (clusterPrefix tree params (initPoints points)
          (k + 1)).2 j)) ∨
    (labelOf (clusterPrefix tree params (initPoints points) k).2 j =
        NOISE ∧
      0 ≤ labelOf (clusterPrefix tree params (initPoints points)
        (k + 1)).2 j) ∨
    (0 ≤ labelOf (clusterPrefix tree params (initPoints points) k).2 j ∧
      labelOf (clusterPrefix tree params (initPoints points) k).2 j <
        labelOf (clusterPrefix tree params (initPoints points)
          (k + 1)).2 j) :=
  clusterPrefix_transition tree params points k j hj

/-- Point 4 of `ex9` is in cluster 0 after five main-loop iterations and
in cluster 1 after six: a `Cluster(id)` label is overwritten by a
different id within one run, refuting the claimed terminal state. -/
theorem spec2proof_c1_counterexample :
    labelOf (clusterPrefix none params9 (initPoints ex9) 5).2 4 = 0 ∧
    labelOf (clusterPrefix none params9 (initPoints ex9) 6).2 4 = 1 := by
  decide

theorem spec2proof_c1_witness :
    labelOf (clusterPrefix none params9 (initPoints ex9) 6).2 4 =
      labelOf (clusterPrefix none params9 (initPoints ex9) 5).2 4 ∨
    (labelOf (clusterPrefix none params9 (initPoints ex9) 5).2 4 =
        UNCLASSIFIED ∧
      (labelOf (clusterPrefix none params9 (initPoints ex9) 6).2 4 =
          NOISE ∨
        0 ≤ labelOf (clusterPrefix none params9 (initPoints ex9) 6).2 4)) ∨
    (labelOf (clusterPrefix none params9 (initPoints ex9) 5).2 4 = NOISE ∧
      0 ≤ labelOf (clusterPrefix none params9 (initPoints ex9) 6).2 4) ∨
    (0 ≤ labelOf (clusterPrefix none params9 (initPoints ex9) 5).2 4 ∧
      labelOf (clusterPrefix none params9 (initPoints ex9) 5).2 4 <
        labelOf (clusterPrefix none params9 (initPoints ex9) 6).2 4) :=
  spec2proof_c1 none params9 ex9 5 4 (by decide)

/-- Claim C2 (confirmed).  Under the Euclidean metric, running
`cdbscan_cluster` with the KD-tree enabled and disabled on the same input
produces the identical cluster count and the identical point array
(labels included), for every input — valid or not — and every allocation
outcome. -/
theorem spec2proof_c2 (alloc : Bool) (points : List (Point α)) (eps : α)
    (mp : Int) (pM : α) (cd : Option (List α → List α → Int → α))
    (mval : List α → List α → Int → α → α) :
    cdbscan_cluster alloc points ⟨eps, mp, .euclidean, pM, cd, true, mval⟩
      = cdbscan_cluster alloc points
        ⟨eps, mp, .euclidean, pM, cd, false, mval⟩ :=
  cluster_strategy_equiv alloc points eps mp pM cd mval

/-- Claim C3 (confirmed).  On validated data under the Euclidean metric,
the KD-tree range query returns exactly the list the brute-force scan
returns: the same index set, in the same ascending order. -/
theorem spec2proof_c3 (points : List (Point α))
    (hval : cdbscan_validate_data points = true) (tree : KdTreeT)
    (htree : kdtree_build points = some tree) (q : Nat)
    (hq : q < points.length) (eps : α) :
    kdtree_range_query tree points q eps =
      cdbscan_region_query points q eps :=
  kdtree_query_eq_region_query points hval tree htree q hq eps

theorem spec2proof_c3_witness :
    kdtree_range_query t9 ex9 2 10 = cdbscan_region_query ex9 2 10 :=
  spec2proof_c3 ex9 (by decide) t9 (by decide) 2 (by decide) 10

/-- Claim C4 (corrected).  After a successful `cdbscan_cluster` call
(non-negative return), every point is `NOISE` or carries a cluster id in
`[0, count)` — provided the configured metric reports every point inside
its own neighborhood (true for the built-in metrics on validated data; a
custom metric with negative self-distance can leave a point
`UNCLASSIFIED`, see the counterexample). -/
theorem spec2proof_c4 (alloc : Bool) (points : List (Point α))
    (params : Params α)
    (hself : ∀ i < points.length, distInRange params
      (points.getD i default).coords (points.getD i default).coords
      (points.getD i default).dimensions = true)
    (hret : 0 ≤ (cdbscan_cluster alloc points params).1) (j : Nat)
    (hj : j < points.length) :
    labelOf (cdbscan_cluster alloc points params).2 j = NOISE ∨
    (0 ≤ labelOf (cdbscan_cluster alloc points params).2 j ∧
      labelOf (cdbscan_cluster alloc points params).2 j <
        (cdbscan_cluster alloc points params).1) :=
  cluster_success_all_labelled alloc points params hself hret j hj

/-- With the self-negative custom metric, `cdbscan_cluster` returns
success (count 1) while point 0 is still `UNCLASSIFIED`: the original
claim fails without the self-inclusion proviso. -/
theorem spec2proof_c4_counterexample :
    (cdbscan_cluster true ex3 params3).1 = 1 ∧
    labelOf (cdbscan_cluster true ex3 params3).2 0 = UNCLASSIFIED := by
  decide

theorem spec2proof_c4_witness :
    labelOf (cdbscan_cluster true ex9 params9).2 4 = NOISE ∨
    (0 ≤ labelOf (cdbscan_cluster true ex9 params9).2 4 ∧
      labelOf (cdbscan_cluster true ex9 params9).2 4 <
        (cdbscan_cluster true ex9 params9).1) :=
  spec2proof_c4 true ex9 params9 (by decide) (by decide) 4 (by decide)

/-- Claim C5 (corrected).  Maximality holds for core endpoints: after a
successful run whose neighborhood relation is symmetric (as Euclidean
is), if `p` ends in a cluster and the core point `q` is density-reachable
from `p`, then `q` ends in the same cluster.  For a non-core endpoint the
claim is false: a border point on the chain can be stolen by a
later-discovered cluster (see the counterexample). -/
theorem spec2proof_c5 (alloc : Bool) (points : List (Point α))
    (params : Params α)
    (hsym : ∀ i < points.length, ∀ j < points.length,
      (i ∈ cdbscan_region_query_custom points j params ↔
        j ∈ cdbscan_region_query_custom points i params))
    (hret : 0 ≤ (cdbscan_cluster alloc points params).1) (p q : Nat)
    (hdr : DensityReachable points params p q)
    (hp : 0 ≤ labelOf (cdbscan_cluster alloc points params).2 p)
    (hq : isCorePt points params q) :
    labelOf (cdbscan_cluster alloc points params).2 q =
      labelOf (cdbscan_cluster alloc points params).2 p :=
  cluster_success_maximality alloc points params hsym hret p q hdr hp hq

/-- In `ex9`, point 4 is density-reachable from point 0 (chain 0 → 3 → 4
through core points), point 0 ends in cluster 0, yet point 4 ends in
cluster 1: maximality fails for the non-core endpoint. -/
theorem spec2proof_c5_counterexample :
    DensityReachable ex9 params9 0 4 ∧
    labelOf (cdbscan_cluster true ex9 params9).2 0 = 0 ∧
    labelOf (cdbscan_cluster true ex9 params9).2 4 = 1 := by
  refine ⟨?_, by decide, by decide⟩
  exact .step 0 3 4 (.step 0 0 3 (.refl 0) (by decide) (by decide))
    (by decide) (by decide)

theorem spec2proof_c5_witness :
    labelOf (cdbscan_cluster true ex9 params9).2 3 =
      labelOf (cdbscan_cluster true ex9 params9).2 0 :=
  spec2proof_c5 true ex9 params9 (by decide) (by decide) 0 3
    (.step 0 0 3 (.refl 0) (by decide) (by decide)) (by decide) (by decide)

/-- Claim C6 (corrected).  On a validation failure `cdbscan_cluster`
returns `-1` with the point array untouched; but on an allocation failure
it also returns `-1` after having already reset every label to
`UNCLASSIFIED` (and every index to its position): the label-reset loop
runs before the working-buffer `malloc`s, so that failure mode does
mutate the labels. -/
theorem spec2proof_c6 (alloc : Bool) (points : List (Point α))
    (params : Params α) :
    (cdbscan_validate_params params = false ∨
        cdbscan_validate_data points = false →
      cdbscan_cluster alloc points params = (-1, points)) ∧
    (cdbscan_validate_params params = true →
      cdbscan_validate_data points = true → alloc = false →
      cdbscan_cluster alloc points params = (-1, initPoints points)) := by
  constructor
  · intro h
    unfold cdbscan_cluster
    rcases h with h | h
    · rw [h]
      rfl
    · by_cases h1 : cdbscan_validate_params params = true
      · rw [h1, h]
        rfl
      · have h1f : cdbscan_validate_params params = false := by
          rcases hb : cdbscan_validate_params params with _ | _
          · rfl
          · exact absurd hb h1
        rw [h1f]
        rfl
  · intro h1 h2 h3
    unfold cdbscan_cluster
    rw [h1, h2, h3]
    rfl

/-- The allocation-failure path mutates labels: the input label 7 of the
single point of `ex1` has become `UNCLASSIFIED` in the `-1` return. -/
theorem spec2proof_c6_counterexample :
    (cdbscan_cluster false ex1 params1).1 = -1 ∧ labelOf ex1 0 = 7 ∧
    labelOf (cdbscan_cluster false ex1 params1).2 0 = UNCLASSIFIED := by
  decide

/-- Claim C7 (confirmed).  At every truncation of the expansion loop, for
both query strategies, the seed working list has no duplicate entries and
never exceeds the point count, so every write into the `n`-slot seeds
buffer of the C code stays in bounds. -/
theorem spec2proof_c7 (params : Params α) (pts : List (Point α))
    (point_idx : Nat) (c : Int) (hc : 0 ≤ c) (fuel : Nat) :
    ((expandSeedsState (fun ps cur => cdbscan_region_query_custom ps cur
        params) params pts point_idx c fuel).Nodup ∧
      (expandSeedsState (fun ps cur => cdbscan_region_query_custom ps cur
        params) params pts point_idx c fuel).length ≤ pts.length) ∧
    ∀ tree : KdTreeT, tree.root.indices.Nodup →
      (∀ x ∈ tree.root.indices, x < pts.length) →
      (expandSeedsState (fun ps cur => kdtree_range_query tree ps cur
        params.eps) params pts point_idx c fuel).Nodup ∧
      (expandSeedsState (fun ps cur => kdtree_range_query tree ps cur
        params.eps) params pts point_idx c fuel).length ≤ pts.length := by
  constructor
  · exact expandClusterGen_seeds_bound _ params pts point_idx c hc fuel
      (region_query_custom_nodup pts point_idx params)
      (fun ps hlen i s hs => by
        rw [← hlen]
        exact region_query_custom_bound ps i params s hs)
  · intro tree hnd hbound
    exact expandClusterGen_seeds_bound _ params pts point_idx c hc fuel
      (kdtree_range_query_nodup_of tree pts point_idx params.eps hnd)
      (fun ps hlen i s hs =>
        hbound s (kdtree_range_query_mem_indices tree ps i params.eps s hs))

theorem spec2proof_c7_witness :
    ((expandSeedsState (fun ps cur => cdbscan_region_query_custom ps cur
        params9) params9 ex9 0 0 19).Nodup ∧
      (expandSeedsState (fun ps cur => cdbscan_region_query_custom ps cur
        params9) params9 ex9 0 0 19).length ≤ ex9.length) ∧
    ∀ tree : KdTreeT, tree.root.indices.Nodup →
      (∀ x ∈ tree.root.indices, x < ex9.length) →
      (expandSeedsState (fun ps cur => kdtree_range_query tree ps cur
        params9.eps) params9 ex9 0 0 19).Nodup ∧
      (expandSeedsState (fun ps cur => kdtree_range_query tree ps cur
        params9.eps) params9 ex9 0 0 19).length ≤ ex9.length :=
  spec2proof_c7 params9 ex9 0 0 (by decide) 19

/-- Claim C8 (corrected).  The estimator fails exactly when the input is
empty, `k < 1`, or `k ≥ n`; on success it returns `n` per-point
k-th-nearest-neighbor distances in input order (each the `(k-1)`-th order
statistic of the point's distances to the others) and a suggested radius
equal to the element at the 95th-percentile index of their ascending
sort.  The claimed `suggested ≥ 0` only holds when every point has
positive dimensionality: with nonpositive dimensions the `-1` distance
sentinel propagates into a negative suggestion (see the counterexample).
Distances are in the order-faithful squared representation. -/
theorem spec2proof_c8 (points : List (Point α)) (k : Int) :
    (cdbscan_estimate_eps points k = none ↔
      (points.length = 0 ∨ k < 1 ∨ (points.length : Int) ≤ k)) ∧
    (0 < points.length → 0 < k → k < (points.length : Int) →
      ∃ res : KdistResult α, cdbscan_estimate_eps points k = some res ∧
        res.k = k ∧ res.distances.length = points.length ∧
        (∀ i < points.length, ∃ L : List α, L.Sorted (· ≤ ·) ∧
          L.Perm (((List.range points.length).filter
            (fun j => decide (j ≠ i))).map
              (fun j => euclidRepr (points.getD i default).coords
                (points.getD j default).coords
                (points.getD i default).dimensions)) ∧
          res.distances.getD i 0 = L.getD (k.toNat - 1) 0) ∧
        (∃ S : List α, S.Sorted (· ≤ ·) ∧ S.Perm res.distances ∧
          res.suggested_eps = S.getD (19 * points.length / 20) 0) ∧
        ((∀ p ∈ points, 0 < p.dimensions) → 0 ≤ res.suggested_eps)) := by
  refine ⟨estimate_eps_none_iff points k, ?_⟩
  intro h1 h2 h3
  obtain ⟨res, hres, hk, hlen, hper, hsug⟩ :=
    estimate_eps_success points k h1 h2 h3
  exact ⟨res, hres, hk, hlen, hper, hsug, fun hd =>
    estimate_eps_suggested_nonneg points k hd res hres⟩

/-- Zero-dimensional points pass the estimator's guards; the distance
sentinel `-1` fills the k-distances and the suggested radius is `-1`,
refuting the unconditional `suggested ≥ 0`. -/
theorem spec2proof_c8_counterexample :
    cdbscan_estimate_eps exdims 1 = some ⟨[-1, -1], 1, -1⟩ ∧
    ¬ (0 ≤ (-1 : Int)) := by
  constructor
  · decide
  · decide

/-- Claim C9 (confirmed).  On every path `cdbscan_cluster` preserves the
length of the array and every point's coordinates and dimensions; when
both validations pass it overwrites every point's `index` with its
position. -/
theorem spec2proof_c9 (alloc : Bool) (points : List (Point α))
    (params : Params α) :
    (cdbscan_cluster alloc points params).2.length = points.length ∧
    (∀ j, ((cdbscan_cluster alloc points params).2.getD j default).coords =
        (points.getD j default).coords ∧
      ((cdbscan_cluster alloc points params).2.getD j
          default).dimensions =
        (points.getD j default).dimensions) ∧
    (cdbscan_validate_params params = true →
      cdbscan_validate_data points = true →
      ∀ j < points.length,
        ((cdbscan_cluster alloc points params).2.getD j default).index = j)
    :=
  cdbscan_cluster_frame_core alloc points params

/-- Claim C10 (confirmed).  A caller-supplied metric returning a negative
value for a pair silently excludes that point from the neighbor list of
`cdbscan_region_query_custom` (the `dist >= 0` guard), and when the
metric is negative on every pair the query returns the empty list — no
error is reported. -/
theorem spec2proof_c10 (ps : List (Point α)) (idx : Nat)
    (params : Params α) (f : List α → List α → Int → α)
    (hdt : params.dist_type = .custom)
    (hf : params.custom_dist = some f) :
    (∀ i, f (ps.getD idx default).coords (ps.getD i default).coords
        (ps.getD idx default).dimensions < 0 →
      i ∉ cdbscan_region_query_custom ps idx params) ∧
    ((∀ i < ps.length, f (ps.getD idx default).coords
        (ps.getD i default).coords (ps.getD idx default).dimensions < 0) →
      cdbscan_region_query_custom ps idx params = []) :=
  ⟨fun i hneg =>
    region_query_custom_excludes_negative ps idx params f hdt hf i hneg,
   fun hall => region_query_custom_all_negative ps idx params f hdt hf
     hall⟩

theorem spec2proof_c10_witness :
    (∀ i, cfAllNeg (ex3.getD 0 default).coords (ex3.getD i default).coords
        (ex3.getD 0 default).dimensions < 0 →
      i ∉ cdbscan_region_query_custom ex3 0 params3b) ∧
    ((∀ i < ex3.length, cfAllNeg (ex3.getD 0 default).coords
        (ex3.getD i default).coords (ex3.getD 0 default).dimensions < 0) →
      cdbscan_region_query_custom ex3 0 params3b = []) :=
  spec2proof_c10 ex3 0 params3b cfAllNeg rfl rfl

end Cdbscan
